import Mathlib

/-!
ACL configlet (`zedrouter/acl.go`): a shallow embedding

The Go source builds every iptables rule as a `[]string`.  A Go slice is a
header (pointer, length, capacity) over a backing array, and two places of the
source depend on that:

* `rulePrefix` assigns `rule[0] = "-o"` through a slice header that shares its
  backing array with the element of the rule list being ranged over;
* `aceToRules` keeps `unlimitedOutArgs := outArgs` and afterwards appends to
  both headers; `append` writes in place whenever the capacity allows it.

The embedding therefore keeps an explicit store of backing arrays.  A rule is a
slice header into the store, and `append` follows the Go specification: it
writes in place when the result fits in the capacity and otherwise allocates a
new array whose capacity is chosen by the runtime (a parameter of the model).
-/

namespace Acl

/-! ## Data model -/

/-- Modelled from the spec: `types.ACEMatch`, a tagged record `(type, value)`
(the `types` package is not part of the sources at hand). -/
structure ACEMatch where
  Typ : String
  Value : String
  deriving DecidableEq, Repr

/-- Modelled from the spec: `types.ACEAction`, the record
`{drop, limit, limitRate, limitUnit, limitBurst}`. -/
structure ACEAction where
  Drop : Bool
  Limit : Bool
  LimitRate : Int
  LimitUnit : String
  LimitBurst : Int
  deriving DecidableEq, Repr

/-- Modelled from the spec: `types.ACE`, a sequence of matches and a sequence
of actions. -/
structure ACE where
  Matches : List ACEMatch
  Actions : List ACEAction
  deriving DecidableEq, Repr

/-- The type `IptablesRule []string`: a slice header.  `arr` identifies the backing
array in the store, `len` and `cap` are the Go length and capacity.  No slice
expression `s[i:j]` occurs in the source, so every header starts at offset 0 of
its array. -/
structure IptablesRule where
  arr : Nat
  len : Nat
  cap : Nat
  deriving DecidableEq, Repr

/-- The type `IptablesRuleList []IptablesRule`.  The source only ever reassigns a
rule list to the result of appending to it and never writes through an older
header of it, so the list of headers itself is modelled as a value. -/
abbrev IptablesRuleList := List IptablesRule

/-- The store of backing arrays of `[]string` values, in allocation order. -/
abbrev Heap := List (List String)

/-- The two external packet-filter programs. -/
inductive Tool where
  | iptables
  | ip6tables
  deriving DecidableEq, Repr

/-- One invocation of an external packet-filter program. -/
structure Cmd where
  tool : Tool
  args : List String
  deriving DecidableEq, Repr

/-- The state the functions of `acl.go` act on: the store of backing arrays,
the lines written with `log.Println`, and the invocations of `iptables` and
`ip6tables` issued so far, in order.  (`fmt.Printf` debug output is not
modelled.) -/
structure World where
  heap : Heap
  log : List String
  cmds : List Cmd
  deriving DecidableEq, Repr

/-- The world before anything was allocated, logged or invoked. -/
def World.empty : World := ⟨[], [], []⟩

/-- What the program takes from its environment: `grow oldCap needed` is the
capacity the Go runtime picks when `append` has to reallocate (the language
only promises a sufficiently large array, so the model uses
`max needed (grow oldCap needed)`), and `ipsetCreatePair` is the external
collaborator of that name, returning an error text or nothing. -/
structure Runtime where
  grow : Nat → Nat → Nat
  ipsetCreatePair : String → Option String

/-! ## Slices -/

/-- The token sequence a slice header denotes in a store. -/
def readRule (h : Heap) (r : IptablesRule) : List String :=
  (h.getD r.arr []).take r.len

/-- The token sequences of a rule list. -/
def readRules (h : Heap) (rs : IptablesRuleList) : List (List String) :=
  rs.map (readRule h)

/-- A composite literal `[]string{...}`: a fresh backing array, with capacity
equal to the length. -/
def newSlice (xs : List String) (w : World) : World × IptablesRule :=
  ({ w with heap := w.heap ++ [xs] }, ⟨w.heap.length, xs.length, xs.length⟩)

/-- Go `append(s, xs...)` where `xs` is not aliased with `s`.  If the result
fits in the capacity the tokens are written into the backing array of `s`
behind its length; otherwise a new array is allocated, the tokens of `s` and
`xs` are copied into it, and the remaining capacity holds empty strings. -/
def appendSlice (rt : Runtime) (s : IptablesRule) (xs : List String) (w : World) :
    World × IptablesRule :=
  let n := s.len + xs.length
  if n ≤ s.cap then
    let a := w.heap.getD s.arr []
    ({ w with heap := w.heap.set s.arr (a.take s.len ++ xs ++ a.drop n) }, { s with len := n })
  else
    let c := max n (rt.grow s.cap n)
    ({ w with heap := w.heap ++ [readRule w.heap s ++ xs ++ List.replicate (c - n) ""] },
     ⟨w.heap.length, n, c⟩)

/-- The index expression `rule[i]`; `none` is the run-time panic for an index
out of range. -/
def ruleAt (h : Heap) (r : IptablesRule) (i : Nat) : Option String :=
  (readRule h r)[i]?

/-- The assignment `rule[i] = t` for an index that is in range. -/
def ruleSet (r : IptablesRule) (i : Nat) (t : String) (w : World) : World :=
  { w with heap := w.heap.set r.arr ((w.heap.getD r.arr []).set i t) }

/-- The call `log.Println(operands...)`: the operands separated by blanks (the time
stamp of the logger is not modelled). -/
def logPrintln (operands : List String) (w : World) : World :=
  { w with log := w.log ++ [" ".intercalate operands] }

/-- The function `strconv.Itoa`: the decimal text of an integer. -/
def Itoa (i : Int) : String :=
  if i < 0 then "-" ++ Nat.repr i.natAbs else Nat.repr i.toNat

/-! ## The ACE compiler -/

/-- The `switch match.Type` of `aceToRules`: the tokens `addOut` and `addIn`
for one match, together with the world after the calls the case makes. -/
def aceMatch (rt : Runtime) (ifname : String) (ipVer : Int) (m : ACEMatch) (w : World) :
    World × List String × List String :=
  if m.Typ = "ip" then
    (w, ["-d", m.Value], ["-s", m.Value])
  else if m.Typ = "protocol" then
    (w, ["-p", m.Value], ["-p", m.Value])
  else if m.Typ = "fport" then
    (w, ["-m", "--dport", m.Value], ["-m", "--sport", m.Value])
  else if m.Typ = "lport" then
    (w, ["-m", "--sport", m.Value], ["-m", "--dport", m.Value])
  else if m.Typ = "host" then
    let w1 := match rt.ipsetCreatePair m.Value with
      | some err => logPrintln ["ipset create for ", m.Value, err] w
      | none => w
    let ipsetName :=
      if ipVer = 4 then "ipv4." ++ m.Value
      else if ipVer = 6 then "ipv6." ++ m.Value
      else ""
    (w1, ["-m", "set", "--match-set", ipsetName, "dst"],
         ["-m", "set", "--match-set", ipsetName, "src"])
  else if m.Typ = "eidset" then
    let ipsetName := "eids." ++ ifname
    (w, ["-m", "set", "--match-set", ipsetName, "dst"],
        ["-m", "set", "--match-set", ipsetName, "src"])
  else
    (logPrintln ["Unsupported ACE match type: ", m.Typ] w, [], [])

/-- The local variables of `aceToRules` that its two loops update. -/
structure AceVars where
  w : World
  outArgs : IptablesRule
  inArgs : IptablesRule
  foundDrop : Bool
  foundLimit : Bool

/-- One iteration of `for _, match := range ace.Matches`. -/
def aceMatchStep (rt : Runtime) (ifname : String) (ipVer : Int) (v : AceVars) (m : ACEMatch) :
    AceVars :=
  let sw := aceMatch rt ifname ipVer m v.w
  let o := appendSlice rt v.outArgs sw.2.1 sw.1
  let i := appendSlice rt v.inArgs sw.2.2 o.1
  { v with w := i.1, outArgs := o.2, inArgs := i.2 }

/-- The tokens `add` of a limit action. -/
def limitArgs (a : ACEAction) : List String :=
  ["-m", "limit", "--limit", Itoa a.LimitRate ++ "/" ++ a.LimitUnit,
    "--limit-burst", Itoa a.LimitBurst]

/-- One iteration of `for _, action := range ace.Actions`. -/
def aceActionStep (rt : Runtime) (v : AceVars) (a : ACEAction) : AceVars :=
  if a.Drop then
    { v with foundDrop := true }
  else if a.Limit then
    let o := appendSlice rt v.outArgs (limitArgs a) v.w
    let i := appendSlice rt v.inArgs (limitArgs a) o.1
    { v with w := i.1, outArgs := o.2, inArgs := i.2, foundLimit := true }
  else
    v

/-- The function `aceToRules`: the rules of one ACE, as slice headers, and
the world after building them. -/
def aceToRules (rt : Runtime) (ifname : String) (ace : ACE) (ipVer : Int) (w : World) :
    World × IptablesRuleList :=
  let o0 := newSlice ["-i", ifname] w
  let i0 := newSlice ["-o", ifname] o0.1
  let v1 := ace.Matches.foldl (aceMatchStep rt ifname ipVer) ⟨i0.1, o0.2, i0.2, false, false⟩
  let unlimitedInArgs := v1.inArgs
  let unlimitedOutArgs := v1.outArgs
  let v2 := ace.Actions.foldl (aceActionStep rt) v1
  let target := if v2.foundDrop then "DROP" else "ACCEPT"
  let o3 := appendSlice rt v2.outArgs ["-j", target] v2.w
  let i3 := appendSlice rt v2.inArgs ["-j", target] o3.1
  if v2.foundLimit then
    let uo := appendSlice rt unlimitedOutArgs ["-j", "DROP"] i3.1
    let ui := appendSlice rt unlimitedInArgs ["-j", "DROP"] uo.1
    (ui.1, [o3.2, i3.2, uo.2, ui.2])
  else
    (i3.1, [o3.2, i3.2])

/-! ## The ACL compiler -/

/-- The four overlay-local allow rules, built when `overlayIP != ""`. -/
def overlayRules (ifname overlayIP : String) (w : World) : World × IptablesRuleList :=
  let r1 := newSlice ["-i", ifname, "-m", "set", "--match-set", "local.ipv6", "dst",
    "-j", "ACCEPT"] w
  let r2 := newSlice ["-i", ifname, "-m", "set", "--match-set", "local.ipv6", "src",
    "-j", "ACCEPT"] r1.1
  let r3 := newSlice ["-i", ifname, "-d", overlayIP, "-j", "ACCEPT"] r2.1
  let r4 := newSlice ["-i", ifname, "-s", overlayIP, "-j", "ACCEPT"] r3.1
  (r4.1, [r1.2, r2.2, r3.2, r4.2])

/-- One iteration of `for _, ace := range ACLs` in `aclToRules`. -/
def aclStep (rt : Runtime) (ifname : String) (ipVer : Int) (st : World × IptablesRuleList)
    (ace : ACE) : World × IptablesRuleList :=
  let rules := aceToRules rt ifname ace ipVer st.1
  (rules.1, st.2 ++ rules.2)

/-- The function `aclToRules`: the rules of an ACL, as slice headers, and the
world after building them. -/
def aclToRules (rt : Runtime) (ifname : String) (ACLs : List ACE) (ipVer : Int)
    (overlayIP : String) (w : World) : World × IptablesRuleList :=
  let st0 := if overlayIP ≠ "" then overlayRules ifname overlayIP w else (w, [])
  let st1 := ACLs.foldl (aclStep rt ifname ipVer) st0
  let outArgs := newSlice ["-i", ifname, "-j", "DROP"] st1.1
  let inArgs := newSlice ["-o", ifname, "-j", "DROP"] outArgs.1
  (inArgs.1, st1.2 ++ [outArgs.2, inArgs.2])

/-! ## The chain/table selector and the executor -/

/-- Result of `rulePrefix`: the prefix tokens, or `none` for the `nil` the
source returns to mean that the rule is to be skipped. -/
abbrev Prefix := Option (List String)

/-- The function `rulePrefix`.  The outer `Option` is `none` when the index expression
`rule[0]` panics; the world in the result carries the assignment
`rule[0] = "-o"` made through the slice header (the header shares its backing
array with the caller's rule). -/
def rulePrefix (operation : String) (isMgmt : Bool) (ipVer : Int) (rule : IptablesRule)
    (w : World) : Option (World × Prefix) :=
  if isMgmt then
    match ruleAt w.heap rule 0 with
    | none => none
    | some t =>
      if t = "-o" then some (w, some [operation, "FORWARD"])
      else if t = "-i" then some (ruleSet rule 0 "-o" w, some [operation, "OUTPUT"])
      else some (w, none)
  else if ipVer = 6 then
    match ruleAt w.heap rule 0 with
    | none => none
    | some t =>
      if t = "-i" then some (w, some ["-t", "raw", operation, "PREROUTING"])
      else if t = "-o" then some (w, some [operation, "FORWARD"])
      else some (w, none)
  else
    some (w, some [operation, "FORWARD"])

/-- Modelled from the spec: `iptableCmd(args...)`, the IPv4 packet-filter
invocation (the wrapper is not part of the sources at hand); the invocation is
recorded. -/
def iptableCmd (args : List String) (w : World) : World :=
  { w with cmds := w.cmds ++ [⟨Tool.iptables, args⟩] }

/-- Modelled from the spec: `ip6tableCmd(args...)`, the IPv6 packet-filter
invocation; the invocation is recorded. -/
def ip6tableCmd (args : List String) (w : World) : World :=
  { w with cmds := w.cmds ++ [⟨Tool.ip6tables, args⟩] }

/-- The block that `createACLConfiglet`, `updateACLConfiglet` (twice) and
`deleteACLConfiglet` each spell out for one rule: ask `rulePrefix` for the
prefix, skip the rule on `nil`, otherwise `args = append(args, rule...)` and
call the program for the IP version.  `args` is a fresh literal of
`rulePrefix`, so the argument vector is the prefix followed by the tokens the
rule denotes after `rulePrefix` ran. -/
def applyRule (operation : String) (isMgmt : Bool) (ipVer : Int) (rule : IptablesRule)
    (w : World) : Option World :=
  match rulePrefix operation isMgmt ipVer rule w with
  | none => none
  | some (w1, none) => some w1
  | some (w1, some args) =>
    if ipVer = 4 then some (iptableCmd (args ++ readRule w1.heap rule) w1)
    else if ipVer = 6 then some (ip6tableCmd (args ++ readRule w1.heap rule) w1)
    else some w1

/-! ## Rule equality and containment -/

/-- The loop `for i, _ := range r1` of `equalRule`, over the indices still to
visit; `none` is the panic of an index out of range. -/
def equalRuleLoop (r1 r2 : List String) : List Nat → Option Bool
  | [] => some true
  | i :: rest =>
    match r1[i]?, r2[i]? with
    | some a, some b => if a ≠ b then some false else equalRuleLoop r1 r2 rest
    | _, _ => none

/-- The function `equalRule`, on the token sequences its two arguments denote (the function
only reads them). -/
def equalRule (r1 r2 : List String) : Option Bool :=
  if r1.length ≠ r2.length then some false
  else equalRuleLoop r1 r2 (List.range r1.length)

/-- The function `containsRule`, on the token sequences its arguments denote. -/
def containsRule : List (List String) → List String → Option Bool
  | [], _ => some false
  | r :: rest, member =>
    match equalRule r member with
    | none => none
    | some true => some true
    | some false => containsRule rest member

/-! ## The reconciler -/

/-- One iteration of the first loop of `updateACLConfiglet` (old rules to
delete). -/
def updateDeleteStep (isMgmt : Bool) (ipVer : Int) (newRules : IptablesRuleList) (w : World)
    (rule : IptablesRule) : Option World :=
  match containsRule (readRules w.heap newRules) (readRule w.heap rule) with
  | none => none
  | some true => some w
  | some false => applyRule "-D" isMgmt ipVer rule w

/-- One iteration of the second loop of `updateACLConfiglet` (new rules to
insert). -/
def updateInsertStep (isMgmt : Bool) (ipVer : Int) (oldRules : IptablesRuleList) (w : World)
    (rule : IptablesRule) : Option World :=
  match containsRule (readRules w.heap oldRules) (readRule w.heap rule) with
  | none => none
  | some true => some w
  | some false => applyRule "-I" isMgmt ipVer rule w

/-- The function `updateACLConfiglet`; `none` is a run-time panic. -/
def updateACLConfiglet (rt : Runtime) (ifname : String) (isMgmt : Bool) (oldACLs newACLs : List ACE)
    (ipVer : Int) (overlayIP : String) (w : World) : Option World :=
  let o := aclToRules rt ifname oldACLs ipVer overlayIP w
  let n := aclToRules rt ifname newACLs ipVer overlayIP o.1
  (o.2.foldlM (updateDeleteStep isMgmt ipVer n.2) n.1).bind
    (fun w1 => n.2.foldlM (updateInsertStep isMgmt ipVer o.2) w1)

/-- The function `createACLConfiglet`; `none` is a run-time panic. -/
def createACLConfiglet (rt : Runtime) (ifname : String) (isMgmt : Bool) (ACLs : List ACE)
    (ipVer : Int) (overlayIP : String) (w : World) : Option World :=
  let rules := aclToRules rt ifname ACLs ipVer overlayIP w
  (rules.2.foldlM (fun w1 rule => applyRule "-A" isMgmt ipVer rule w1) rules.1).map
    (fun w1 => if overlayIP ≠ "" then
      ip6tableCmd ["-A", "FORWARD", "-i", ifname, "-j", "DROP"] w1 else w1)

/-- The function `deleteACLConfiglet`; `none` is a run-time panic. -/
def deleteACLConfiglet (rt : Runtime) (ifname : String) (isMgmt : Bool) (ACLs : List ACE)
    (ipVer : Int) (overlayIP : String) (w : World) : Option World :=
  let rules := aclToRules rt ifname ACLs ipVer overlayIP w
  (rules.2.foldlM (fun w1 rule => applyRule "-D" isMgmt ipVer rule w1) rules.1).map
    (fun w1 => if overlayIP ≠ "" then
      ip6tableCmd ["-D", "FORWARD", "-i", ifname, "-j", "DROP"] w1 else w1)

/-! ## The Go runtime of the reference toolchain -/

/-- Size classes of the allocator of the gc toolchain (`runtime/sizeclasses.go`),
in bytes. -/
def sizeClasses : List Nat :=
  [8, 16, 24, 32, 48, 64, 80, 96, 112, 128, 144, 160, 176, 192, 208, 224, 240, 256,
   288, 320, 352, 384, 416, 448, 480, 512, 576, 640, 704, 768, 896, 1024, 1152, 1280,
   1408, 1536, 1792, 2048, 2304, 2688, 3072, 3200, 3456, 4096, 4864, 5120, 5376, 6144,
   6528, 6784, 6912, 8192, 9472, 9728, 10240, 10880, 12288, 13568, 14336, 16384, 18432,
   19072, 20480, 21760, 24576, 27264, 28672, 32768]

/-- The function `runtime.roundupsize`: the size of the block the allocator hands out for a
request of `size` bytes (a size class, or whole pages of 8192 bytes above the
largest class). -/
def roundupsize (size : Nat) : Nat :=
  match sizeClasses.find? (fun c => size ≤ c) with
  | some c => c
  | none => (size + 8191) / 8192 * 8192

/-- The loop `for newcap < newLen { newcap += (newcap + 3*256) / 4 }` of
`runtime.growslice`, with the number of iterations still allowed. -/
def growLoop : Nat → Nat → Nat → Nat
  | 0, newcap, _ => newcap
  | fuel + 1, newcap, newLen =>
    if newcap < newLen then growLoop fuel (newcap + (newcap + 768) / 4) newLen else newcap

/-- The function `runtime.growslice` of the gc toolchain for elements of 16 bytes (a
`string` on a 64-bit target): the capacity of the array `append` allocates when
a slice of capacity `oldCap` must hold `newLen` elements.  Below 256 elements
the capacity doubles unless more is needed, and the byte size is rounded up to
a size class (releases before 1.18 double while the length is below 1024; the
two rules agree on every capacity below 256). -/
def growslice (oldCap newLen : Nat) : Nat :=
  let doublecap := oldCap + oldCap
  let newcap :=
    if newLen > doublecap then newLen
    else if oldCap < 256 then doublecap
    else growLoop newLen oldCap newLen
  roundupsize (newcap * 16) / 16

/-- The gc toolchain on a 64-bit target, with an `ipsetCreatePair` that
succeeds. -/
def gcRuntime : Runtime := ⟨growslice, fun _ => none⟩

/-- A runtime whose `append` never leaves spare capacity. -/
def exactRuntime : Runtime := ⟨fun _ n => n, fun _ => none⟩


/-! ## Notions used in the statements -/

/-- A slice header moved `n` arrays up in the store. -/
def shiftRule (n : Nat) (r : IptablesRule) : IptablesRule := { r with arr := r.arr + n }

/-- The world `w` laid over a base world `b`: what `w` allocated, logged and
invoked comes after what `b` holds. -/
def World.over (b w : World) : World := ⟨b.heap ++ w.heap, b.log ++ w.log, b.cmds ++ w.cmds⟩

/-- The loop variables of `aceToRules` laid over a base world. -/
def AceVars.over (b : World) (v : AceVars) : AceVars :=
  { v with w := b.over v.w, outArgs := shiftRule b.heap.length v.outArgs,
           inArgs := shiftRule b.heap.length v.inArgs }

/-- The result of a compiler laid over a base world. -/
def overRules (b : World) (r : World × IptablesRuleList) : World × IptablesRuleList :=
  (b.over r.1, r.2.map (shiftRule b.heap.length))

/-- The slice `r` lives in the store `h`, has at least two tokens, and its
backing array begins with the direction token `t` followed by `ifname`. -/
def Starts (ifname : String) (h : Heap) (t : String) (r : IptablesRule) : Prop :=
  r.arr < h.length ∧ 2 ≤ r.len ∧ (h.getD r.arr []).take 2 = [t, ifname]

/-- Loop invariant of `aceToRules`: `outArgs` begins with `-i ifname` and
`inArgs` with `-o ifname`. -/
def AceVars.Dir (ifname : String) (v : AceVars) : Prop :=
  Starts ifname v.w.heap "-i" v.outArgs ∧ Starts ifname v.w.heap "-o" v.inArgs

/-- A compiled rule begins with `-i ifname` or with `-o ifname`. -/
def Directed (ifname : String) (h : Heap) (r : IptablesRule) : Prop :=
  Starts ifname h "-i" r ∨ Starts ifname h "-o" r

/-- The loop variables of `aceToRules` before its first loop. -/
def aceInit (ifname : String) (w : World) : AceVars :=
  ⟨(newSlice ["-o", ifname] (newSlice ["-i", ifname] w).1).1, (newSlice ["-i", ifname] w).2,
   (newSlice ["-o", ifname] (newSlice ["-i", ifname] w).1).2, false, false⟩

/-- The loop variables of `aceToRules` after the loop over the matches. -/
def aceAfterMatches (rt : Runtime) (ifname : String) (ace : ACE) (ipVer : Int) (w : World) :
    AceVars :=
  ace.Matches.foldl (aceMatchStep rt ifname ipVer) (aceInit ifname w)

/-- The loop variables of `aceToRules` after the loop over the actions. -/
def aceAfterActions (rt : Runtime) (ifname : String) (ace : ACE) (ipVer : Int) (w : World) :
    AceVars :=
  ace.Actions.foldl (aceActionStep rt) (aceAfterMatches rt ifname ace ipVer w)

/-- The part of `aceToRules` behind its loops, from the variables `v1` after
the first loop (the unlimited accumulators) and `v2` after the second. -/
def aceEmit (rt : Runtime) (v1 v2 : AceVars) : World × IptablesRuleList :=
  let target := if v2.foundDrop then "DROP" else "ACCEPT"
  let o3 := appendSlice rt v2.outArgs ["-j", target] v2.w
  let i3 := appendSlice rt v2.inArgs ["-j", target] o3.1
  if v2.foundLimit then
    let uo := appendSlice rt v1.outArgs ["-j", "DROP"] i3.1
    let ui := appendSlice rt v1.inArgs ["-j", "DROP"] uo.1
    (ui.1, [o3.2, i3.2, uo.2, ui.2])
  else
    (i3.1, [o3.2, i3.2])

/-- The token sequences a compiler run returned, read in the world it left. -/
def rulesOf (r : World × IptablesRuleList) : List (List String) :=
  readRules r.1.heap r.2

/-- The rules of one ACE as `aceToRules` compiles them. -/
def aceRules (rt : Runtime) (ifname : String) (ace : ACE) (ipVer : Int) : List (List String) :=
  rulesOf (aceToRules rt ifname ace ipVer World.empty)

/-- The rules of an ACL as `aclToRules` compiles them. -/
def compiledRules (rt : Runtime) (ifname : String) (acls : List ACE) (ipVer : Int)
    (overlayIP : String) : List (List String) :=
  rulesOf (aclToRules rt ifname acls ipVer overlayIP World.empty)

/-- Every rule of a compiler result begins with a direction token. -/
def AllDirected (ifname : String) (st : World × IptablesRuleList) : Prop :=
  ∀ r ∈ st.2, Directed ifname st.1.heap r

/-- The four overlay-local allow rules of `aclToRules`, as token sequences. -/
def overlayTokens (ifname overlayIP : String) : List (List String) :=
  [["-i", ifname, "-m", "set", "--match-set", "local.ipv6", "dst", "-j", "ACCEPT"],
   ["-i", ifname, "-m", "set", "--match-set", "local.ipv6", "src", "-j", "ACCEPT"],
   ["-i", ifname, "-d", overlayIP, "-j", "ACCEPT"],
   ["-i", ifname, "-s", overlayIP, "-j", "ACCEPT"]]

/-- The implicit-drop pair that ends every compiled ACL, as token sequences. -/
def dropTokens (ifname : String) : List (List String) :=
  [["-i", ifname, "-j", "DROP"], ["-o", ifname, "-j", "DROP"]]

/-- The slice `s` lives in the store `h` and its backing array is at least as
long as its capacity. -/
def SliceOk (h : Heap) (s : IptablesRule) : Prop :=
  s.arr < h.length ∧ s.len ≤ s.cap ∧ s.cap ≤ (h.getD s.arr []).length

/-- The tokens `addOut` of one match (they do not depend on the world). -/
def matchOut (rt : Runtime) (ifname : String) (ipVer : Int) (m : ACEMatch) : List String :=
  (aceMatch rt ifname ipVer m World.empty).2.1

/-- The tokens `addIn` of one match. -/
def matchIn (rt : Runtime) (ifname : String) (ipVer : Int) (m : ACEMatch) : List String :=
  (aceMatch rt ifname ipVer m World.empty).2.2

/-- Loop invariant of `aceToRules` for the contents of the accumulators: both
are well-formed slices over different backing arrays. -/
def AceVars.Sep (v : AceVars) : Prop :=
  SliceOk v.w.heap v.outArgs ∧ SliceOk v.w.heap v.inArgs ∧ v.outArgs.arr ≠ v.inArgs.arr

/-- The body shared by the two loops of `updateACLConfiglet`, for operation
`op` and the rule list `others` the rule is looked up in. -/
def updateStep (op : String) (isMgmt : Bool) (ipVer : Int) (others : IptablesRuleList)
    (w : World) (rule : IptablesRule) : Option World :=
  match containsRule (readRules w.heap others) (readRule w.heap rule) with
  | none => none
  | some true => some w
  | some false => applyRule op isMgmt ipVer rule w

/-- The program invoked for an IP version in {4, 6}: `iptables` for 4,
`ip6tables` for 6. -/
def toolOf (ipVer : Int) : Tool := if ipVer = 4 then Tool.iptables else Tool.ip6tables

/-- The invocation issued for a rule on an interface that is not a management
interface: the rule is not rewritten, and only for IPv6 the direction token
selects the table. -/
def underlayCmd (op : String) (ipVer : Int) (r : List String) : Cmd :=
  ⟨toolOf ipVer,
   (if ipVer = 6 ∧ r.head? = some "-i" then ["-t", "raw", op, "PREROUTING"] else [op, "FORWARD"])
     ++ r⟩

/-- The world after the invocations `cs` were issued. -/
def addCmds (cs : List Cmd) (w : World) : World := { w with cmds := w.cmds ++ cs }

/-! ## What the spec says, in its own words -/

/-- The "Appended to outArgs" column of the table of spec section 4.2. -/
def specOutTokens (ifname : String) (ipVer : Int) (m : ACEMatch) : List String :=
  match m.Typ with
  | "ip" => ["-d", m.Value]
  | "protocol" => ["-p", m.Value]
  | "fport" => ["-m", "--dport", m.Value]
  | "lport" => ["-m", "--sport", m.Value]
  | "host" => ["-m", "set", "--match-set",
      (if ipVer = 4 then "ipv4." else "ipv6.") ++ m.Value, "dst"]
  | "eidset" => ["-m", "set", "--match-set", "eids." ++ ifname, "dst"]
  | _ => []

/-- The "Appended to inArgs" column of the table of spec section 4.2. -/
def specInTokens (ifname : String) (ipVer : Int) (m : ACEMatch) : List String :=
  match m.Typ with
  | "ip" => ["-s", m.Value]
  | "protocol" => ["-p", m.Value]
  | "fport" => ["-m", "--sport", m.Value]
  | "lport" => ["-m", "--dport", m.Value]
  | "host" => ["-m", "set", "--match-set",
      (if ipVer = 4 then "ipv4." else "ipv6.") ++ m.Value, "src"]
  | "eidset" => ["-m", "set", "--match-set", "eids." ++ ifname, "src"]
  | _ => []

/-- The operation and the rule of an invocation on an interface that is not a
management interface: the argument vector without the table and chain the
selector put in front. -/
def cmdRule (c : Cmd) : Option (String × List String) :=
  match c.args with
  | "-t" :: "raw" :: op :: _ :: r => some (op, r)
  | op :: _ :: r => some (op, r)
  | _ => none

/-- The rules of the invocations in `cs` that carry the operation `op`. -/
def rulesWithOp (op : String) (cs : List Cmd) : List (List String) :=
  cs.filterMap (fun c => match cmdRule c with
    | some (o, r) => if o = op then some r else none
    | none => none)

/-! ## The selector and the executor as functions of the tokens read -/

/-- What `rulePrefix` returns for a rule whose first token is `t`. -/
def selectorPrefix (op : String) (isMgmt : Bool) (ipVer : Int) (t : String) : Prefix :=
  if isMgmt then
    if t = "-o" then some [op, "FORWARD"]
    else if t = "-i" then some [op, "OUTPUT"]
    else none
  else if ipVer = 6 then
    if t = "-i" then some ["-t", "raw", op, "PREROUTING"]
    else if t = "-o" then some [op, "FORWARD"]
    else none
  else some [op, "FORWARD"]

/-- The world after `rulePrefix` ran on the rule `r`: on a management interface
a first token `-i` is overwritten with `-o` in the backing array of `r`. -/
def rewriteWorld (isMgmt : Bool) (r : IptablesRule) (w : World) : World :=
  if isMgmt = true ∧ ruleAt w.heap r 0 = some "-i" then ruleSet r 0 "-o" w else w

/-- The invocations made for an argument vector, by IP version. -/
def dispatchCmds (ipVer : Int) (args : List String) : List Cmd :=
  if ipVer = 4 then [⟨Tool.iptables, args⟩]
  else if ipVer = 6 then [⟨Tool.ip6tables, args⟩]
  else []

/-- The tokens of a rule after `rulePrefix` ran on it. -/
def rewrittenRule (isMgmt : Bool) (ts : List String) : List String :=
  match ts with
  | [] => []
  | t :: rest => if isMgmt = true ∧ t = "-i" then "-o" :: rest else t :: rest

/-- The invocations the block for one rule makes when the rule reads `ts`. -/
def ruleCmds (op : String) (isMgmt : Bool) (ipVer : Int) (ts : List String) : List Cmd :=
  match ts with
  | [] => []
  | t :: _ =>
    match selectorPrefix op isMgmt ipVer t with
    | none => []
    | some p => dispatchCmds ipVer (p ++ rewrittenRule isMgmt ts)

/-- The invocations of a loop that runs the block for each rule of `rs` in
turn, starting in the world `w` (each rule is read when its turn comes). -/
def loopCmds (op : String) (isMgmt : Bool) (ipVer : Int) : World → IptablesRuleList → List Cmd
  | _, [] => []
  | w, r :: rs =>
    ruleCmds op isMgmt ipVer (readRule w.heap r) ++
      loopCmds op isMgmt ipVer (rewriteWorld isMgmt r w) rs

/-- The world such a loop leaves, invocations apart. -/
def loopWorld (isMgmt : Bool) : World → IptablesRuleList → World
  | w, [] => w
  | w, r :: rs => loopWorld isMgmt (rewriteWorld isMgmt r w) rs

/-- An invocation with its operation token replaced by `-D`. -/
def swapOp (c : Cmd) : Cmd :=
  match c.args with
  | "-t" :: "raw" :: _ :: rest => ⟨c.tool, "-t" :: "raw" :: "-D" :: rest⟩
  | _ :: rest => ⟨c.tool, "-D" :: rest⟩
  | [] => c

/-- The side-channel invocation of `createACLConfiglet` and
`deleteACLConfiglet` for the operation `op`. -/
def sideCmd (op ifname : String) : Cmd :=
  ⟨Tool.ip6tables, [op, "FORWARD", "-i", ifname, "-j", "DROP"]⟩

/-- The store `h` is the store `h0` after some first tokens were overwritten
with `-o`: every backing array is as it was or has `-o` at index 0. -/
def Rewrote (h0 h : Heap) : Prop :=
  h.length = h0.length ∧ ∀ i : Nat, h[i]? = h0[i]? ∨ h[i]? = (h0[i]?).map (fun (a : List String) => a.set 0 "-o")

/-- The invocation `c` is a per-rule invocation for the rule `rule` with
operation `op`: it goes to the program of the IP version, its argument vector
is one of the three prefixes of the selector followed by the rule, where the
direction token of the rule may have been rewritten to `-o`. -/
def PerRule (op : String) (ipVer : Int) (rule : List String) (c : Cmd) : Prop :=
  c.tool = toolOf ipVer ∧
  ∃ pre, (pre = [op, "FORWARD"] ∨ pre = [op, "OUTPUT"] ∨ pre = ["-t", "raw", op, "PREROUTING"]) ∧
    (c.args = pre ++ rule ∨ c.args = pre ++ "-o" :: rule.tail)

/-- The chain model of the claim on rule ordering, for the FORWARD chain of
`iptables`: `-A` appends the rule, `-I` inserts it at the head, `-D` removes
the first rule equal to it; invocations for other chains or for `ip6tables`
leave this chain as it is. -/
def forwardChain (chain : List (List String)) (c : Cmd) : List (List String) :=
  match c.tool, c.args with
  | Tool.iptables, "-A" :: "FORWARD" :: r => chain ++ [r]
  | Tool.iptables, "-I" :: "FORWARD" :: r => r :: chain
  | Tool.iptables, "-D" :: "FORWARD" :: r => chain.erase r
  | _, _ => chain

/-- The FORWARD chain of `iptables` after a sequence of invocations, starting
from the empty chain. -/
def chainAfter (cs : List Cmd) : List (List String) := cs.foldl forwardChain []

/-! ## Worlds that differ in the log only -/

/-- Two worlds with the same store and the same invocations (the logs may
differ). -/
def SameMem (w w' : World) : Prop := w.heap = w'.heap ∧ w.cmds = w'.cmds

/-- Loop variables of `aceToRules` that agree but for the log. -/
def AceVars.Same (v v' : AceVars) : Prop :=
  SameMem v.w v'.w ∧ v.outArgs = v'.outArgs ∧ v.inArgs = v'.inArgs ∧
    v.foundDrop = v'.foundDrop ∧ v.foundLimit = v'.foundLimit

/-- Compiler results that agree but for the log: the same slice headers over
the same store. -/
def SameResult (r r' : World × IptablesRuleList) : Prop := SameMem r.1 r'.1 ∧ r.2 = r'.2

/-! ## The symmetry of a rule pair -/

/-- Tokens that may stand at the same position of the `-i` rule and of the
`-o` rule of a pair: equal tokens, or one of the swapped pairs `-i`/`-o`,
`-d`/`-s`, `--dport`/`--sport`, `--sport`/`--dport`, `dst`/`src`. -/
def SwapTok (a b : String) : Prop :=
  a = b ∨ (a = "-i" ∧ b = "-o") ∨ (a = "-d" ∧ b = "-s") ∨ (a = "--dport" ∧ b = "--sport") ∨
    (a = "--sport" ∧ b = "--dport") ∨ (a = "dst" ∧ b = "src")

instance SwapTok.decidable (a b : String) : Decidable (SwapTok a b) := by
  unfold SwapTok
  infer_instance

/-- Invariant of `aceToRules` for a pair of slices (the out-accumulator and
the in-accumulator, or the two unlimited accumulators): they live in the store
over different backing arrays, have the same length and capacity, and their
backing arrays agree position by position up to the swapped tokens. -/
def PairOk (h : Heap) (o i : IptablesRule) : Prop :=
  o.arr < h.length ∧ i.arr < h.length ∧ o.arr ≠ i.arr ∧ o.len = i.len ∧ o.cap = i.cap ∧
    List.Forall₂ SwapTok (h.getD o.arr []) (h.getD i.arr [])

/-- The pair `(u, u')` either shares both backing arrays with the pair
`(o, i)`, the out-array with the out-array and the in-array with the
in-array, or shares none. -/
def Linked (o i u u' : IptablesRule) : Prop :=
  (u.arr = o.arr ∧ u'.arr = i.arr) ∨
    (u.arr ≠ o.arr ∧ u.arr ≠ i.arr ∧ u'.arr ≠ o.arr ∧ u'.arr ≠ i.arr)

/-! ## The rules an update must leave alone -/

/-- The rules of every compiled ACL for `ifname` and `overlayIP`, whatever the
ACEs: the implicit-drop pair and, for a non-empty overlay address, the four
overlay allow rules. -/
def protectedTokens (ifname overlayIP : String) : List (List String) :=
  dropTokens ifname ++ (if overlayIP = "" then [] else overlayTokens ifname overlayIP)

/-! ## Relocation: the compilers do not depend on what the store already holds -/

theorem over_empty (w : World) : w.over World.empty = w := by
  cases w; simp [World.over, World.empty]

theorem readRule_over (b w : World) (r : IptablesRule) :
    readRule (b.over w).heap (shiftRule b.heap.length r) = readRule w.heap r := by
  simp [readRule, World.over, shiftRule, List.getElem?_append_right]

theorem newSlice_over (b w : World) (xs : List String) :
    newSlice xs (b.over w) = (b.over (newSlice xs w).1, shiftRule b.heap.length (newSlice xs w).2) := by
  simp [newSlice, World.over, shiftRule, Nat.add_comm]

theorem appendSlice_over (rt : Runtime) (b w : World) (s : IptablesRule) (xs : List String) :
    appendSlice rt (shiftRule b.heap.length s) xs (b.over w) =
      (b.over (appendSlice rt s xs w).1, shiftRule b.heap.length (appendSlice rt s xs w).2) := by
  unfold appendSlice
  by_cases hfit : s.len + xs.length ≤ s.cap
  · simp [hfit, World.over, shiftRule, List.getElem?_append_right, List.set_append_right]
  · simp [hfit, World.over, shiftRule, readRule, List.getElem?_append_right, Nat.add_comm]

theorem logPrintln_over (b w : World) (ops : List String) :
    logPrintln ops (b.over w) = b.over (logPrintln ops w) := by
  simp [logPrintln, World.over]

theorem aceMatch_over (rt : Runtime) (ifname : String) (ipVer : Int) (m : ACEMatch) (b w : World) :
    aceMatch rt ifname ipVer m (b.over w) =
      (b.over (aceMatch rt ifname ipVer m w).1, (aceMatch rt ifname ipVer m w).2) := by
  unfold aceMatch
  split_ifs <;> first
    | rfl
    | (cases rt.ipsetCreatePair m.Value <;> simp [logPrintln_over])

theorem aceMatchStep_over (rt : Runtime) (ifname : String) (ipVer : Int) (b : World) (v : AceVars)
    (m : ACEMatch) :
    aceMatchStep rt ifname ipVer (v.over b) m = (aceMatchStep rt ifname ipVer v m).over b := by
  simp [aceMatchStep, AceVars.over, aceMatch_over, appendSlice_over]

theorem aceActionStep_over (rt : Runtime) (b : World) (v : AceVars) (a : ACEAction) :
    aceActionStep rt (v.over b) a = (aceActionStep rt v a).over b := by
  unfold aceActionStep
  split_ifs <;> simp [AceVars.over, appendSlice_over]

theorem foldl_aceMatchStep_over (rt : Runtime) (ifname : String) (ipVer : Int) (b : World)
    (ms : List ACEMatch) (v : AceVars) :
    ms.foldl (aceMatchStep rt ifname ipVer) (v.over b) =
      (ms.foldl (aceMatchStep rt ifname ipVer) v).over b := by
  induction ms generalizing v with
  | nil => rfl
  | cons m ms ih => simp [List.foldl_cons, aceMatchStep_over, ih]

theorem foldl_aceActionStep_over (rt : Runtime) (b : World) (as : List ACEAction) (v : AceVars) :
    as.foldl (aceActionStep rt) (v.over b) = (as.foldl (aceActionStep rt) v).over b := by
  induction as generalizing v with
  | nil => rfl
  | cons a as ih => simp [List.foldl_cons, aceActionStep_over, ih]

theorem aceToRules_over (rt : Runtime) (ifname : String) (ace : ACE) (ipVer : Int) (b w : World) :
    aceToRules rt ifname ace ipVer (b.over w) = overRules b (aceToRules rt ifname ace ipVer w) := by
  have h0 : (⟨(newSlice ["-o", ifname] (newSlice ["-i", ifname] (b.over w)).1).1,
      (newSlice ["-i", ifname] (b.over w)).2,
      (newSlice ["-o", ifname] (newSlice ["-i", ifname] (b.over w)).1).2, false, false⟩ : AceVars) =
      AceVars.over b ⟨(newSlice ["-o", ifname] (newSlice ["-i", ifname] w).1).1,
      (newSlice ["-i", ifname] w).2,
      (newSlice ["-o", ifname] (newSlice ["-i", ifname] w).1).2, false, false⟩ := by
    simp [AceVars.over, newSlice_over]
  unfold aceToRules
  simp only [h0, foldl_aceMatchStep_over, foldl_aceActionStep_over]
  generalize List.foldl (aceMatchStep rt ifname ipVer) _ ace.Matches = v1
  generalize hv2 : List.foldl (aceActionStep rt) v1 ace.Actions = v2
  by_cases hl : v2.foundLimit <;>
    simp [AceVars.over, overRules, appendSlice_over, hl]

theorem overlayRules_over (ifname overlayIP : String) (b w : World) :
    overlayRules ifname overlayIP (b.over w) = overRules b (overlayRules ifname overlayIP w) := by
  simp [overlayRules, overRules, newSlice_over]

theorem aclStep_over (rt : Runtime) (ifname : String) (ipVer : Int) (b : World)
    (st : World × IptablesRuleList) (ace : ACE) :
    aclStep rt ifname ipVer (overRules b st) ace = overRules b (aclStep rt ifname ipVer st ace) := by
  simp [aclStep, overRules, aceToRules_over]

theorem foldl_aclStep_over (rt : Runtime) (ifname : String) (ipVer : Int) (b : World)
    (acls : List ACE) (st : World × IptablesRuleList) :
    acls.foldl (aclStep rt ifname ipVer) (overRules b st) =
      overRules b (acls.foldl (aclStep rt ifname ipVer) st) := by
  induction acls generalizing st with
  | nil => rfl
  | cons a acls ih => simp [List.foldl_cons, aclStep_over, ih]

theorem aclToRules_over (rt : Runtime) (ifname : String) (acls : List ACE) (ipVer : Int)
    (overlayIP : String) (b w : World) :
    aclToRules rt ifname acls ipVer overlayIP (b.over w) =
      overRules b (aclToRules rt ifname acls ipVer overlayIP w) := by
  have h0 : (if overlayIP ≠ "" then overlayRules ifname overlayIP (b.over w) else (b.over w, [])) =
      overRules b (if overlayIP ≠ "" then overlayRules ifname overlayIP w else (w, [])) := by
    split_ifs
    · exact overlayRules_over ifname overlayIP b w
    · rfl
  unfold aclToRules
  simp only [h0, foldl_aclStep_over]
  simp [overRules, newSlice_over]

/-- Every run of the ACE compiler is the run from the empty world laid over
the world it started in. -/
theorem aceToRules_eq_over (rt : Runtime) (ifname : String) (ace : ACE) (ipVer : Int) (w : World) :
    aceToRules rt ifname ace ipVer w = overRules w (aceToRules rt ifname ace ipVer World.empty) := by
  rw [← aceToRules_over, over_empty]

/-- Every run of the ACL compiler is the run from the empty world laid over
the world it started in. -/
theorem aclToRules_eq_over (rt : Runtime) (ifname : String) (acls : List ACE) (ipVer : Int)
    (overlayIP : String) (w : World) :
    aclToRules rt ifname acls ipVer overlayIP w =
      overRules w (aclToRules rt ifname acls ipVer overlayIP World.empty) := by
  rw [← aclToRules_over, over_empty]

/-! ## Every compiled rule begins with a direction token and the interface -/

theorem Starts.read {ifname : String} {h : Heap} {t : String} {r : IptablesRule}
    (hs : Starts ifname h t r) : ∃ rest, readRule h r = t :: ifname :: rest := by
  obtain ⟨_, hlen, htake⟩ := hs
  obtain ⟨k, hk⟩ : ∃ k, r.len = k + 2 := ⟨r.len - 2, by omega⟩
  unfold readRule
  rw [hk]
  match ha : h.getD r.arr [] with
  | [] => rw [ha] at htake; simp at htake
  | [_] => rw [ha] at htake; simp at htake
  | x :: y :: rest =>
    rw [ha] at htake
    simp at htake
    exact ⟨rest.take k, by simp [htake.1, htake.2]⟩

theorem Starts.grow {ifname : String} {h : Heap} {t : String} {r : IptablesRule}
    (hs : Starts ifname h t r) (f : Heap) : Starts ifname (h ++ f) t r := by
  obtain ⟨harr, hlen, htake⟩ := hs
  refine ⟨by simp; omega, hlen, ?_⟩
  rw [List.getD_append _ _ _ _ harr]
  exact htake

theorem Starts.of_newSlice (ifname t : String) (rest : List String) (w : World) :
    Starts ifname (newSlice (t :: ifname :: rest) w).1.heap t (newSlice (t :: ifname :: rest) w).2 := by
  simp [Starts, Acl.newSlice]

theorem Starts.newSlice_frame {ifname : String} {w : World} {t : String} {r : IptablesRule}
    (hs : Starts ifname w.heap t r) (xs : List String) :
    Starts ifname (Acl.newSlice xs w).1.heap t r :=
  hs.grow [xs]

theorem Starts.appendSlice_frame {ifname : String} {w : World} {t u : String}
    {s r : IptablesRule} (rt : Runtime) (xs : List String)
    (hs : Starts ifname w.heap t s) (hr : Starts ifname w.heap u r) :
    Starts ifname (Acl.appendSlice rt s xs w).1.heap u r := by
  unfold Acl.appendSlice
  by_cases hfit : s.len + xs.length ≤ s.cap
  · simp only [hfit, if_true]
    obtain ⟨harr, hlen, htake⟩ := hr
    refine ⟨by simpa using harr, hlen, ?_⟩
    by_cases hsame : s.arr = r.arr
    · obtain ⟨k, hk⟩ : ∃ k, s.len = k + 2 := ⟨s.len - 2, by have := hs.2.1; omega⟩
      rw [hsame]
      match ha : w.heap.getD r.arr [] with
      | [] => rw [ha] at htake; simp at htake
      | [_] => rw [ha] at htake; simp at htake
      | x :: y :: rest =>
        rw [ha] at htake
        simp at htake
        simp at ha
        simp [harr, hk, ha, htake.1, htake.2]
    · simpa [List.getElem?_set_ne hsame] using htake
  · simp only [hfit, if_false]
    exact hr.grow _

theorem Starts.of_appendSlice {ifname : String} {w : World} {t : String} {s : IptablesRule}
    (rt : Runtime) (xs : List String) (hs : Starts ifname w.heap t s) :
    Starts ifname (Acl.appendSlice rt s xs w).1.heap t (Acl.appendSlice rt s xs w).2 := by
  by_cases hfit : s.len + xs.length ≤ s.cap
  · have h := Starts.appendSlice_frame rt xs hs hs
    obtain ⟨harr, hlen, htake⟩ := h
    refine ⟨?_, ?_, ?_⟩
    · simpa [Acl.appendSlice, hfit] using harr
    · simp [Acl.appendSlice, hfit]; omega
    · simpa [Acl.appendSlice, hfit] using htake
  · obtain ⟨rest, hrest⟩ := hs.read
    have hlen := hs.2.1
    simp only [Acl.appendSlice, hfit, if_false]
    refine ⟨by simp, by simp; omega, ?_⟩
    simp [hrest]

theorem aceMatch_heap (rt : Runtime) (ifname : String) (ipVer : Int) (m : ACEMatch) (w : World) :
    (aceMatch rt ifname ipVer m w).1.heap = w.heap := by
  unfold aceMatch
  split_ifs <;> first
    | rfl
    | (cases rt.ipsetCreatePair m.Value <;> rfl)

theorem aceMatch_cmds (rt : Runtime) (ifname : String) (ipVer : Int) (m : ACEMatch) (w : World) :
    (aceMatch rt ifname ipVer m w).1.cmds = w.cmds := by
  unfold aceMatch
  split_ifs <;> first
    | rfl
    | (cases rt.ipsetCreatePair m.Value <;> rfl)

theorem aceMatchStep_dir {ifname : String} (rt : Runtime) (ipVer : Int) (m : ACEMatch)
    {v : AceVars} (hv : v.Dir ifname) : (aceMatchStep rt ifname ipVer v m).Dir ifname := by
  obtain ⟨ho, hi⟩ := hv
  rw [← aceMatch_heap rt ifname ipVer m v.w] at ho hi
  have ho1 := Starts.of_appendSlice rt (aceMatch rt ifname ipVer m v.w).2.1 ho
  have hi1 := Starts.appendSlice_frame rt (aceMatch rt ifname ipVer m v.w).2.1 ho hi
  exact ⟨Starts.appendSlice_frame rt _ hi1 ho1, Starts.of_appendSlice rt _ hi1⟩

theorem aceMatchStep_frame {ifname : String} (rt : Runtime) (ipVer : Int) (m : ACEMatch)
    {v : AceVars} (hv : v.Dir ifname) {t : String} {r : IptablesRule}
    (hr : Starts ifname v.w.heap t r) :
    Starts ifname (aceMatchStep rt ifname ipVer v m).w.heap t r := by
  obtain ⟨ho, hi⟩ := hv
  rw [← aceMatch_heap rt ifname ipVer m v.w] at ho hi hr
  have hi1 := Starts.appendSlice_frame rt (aceMatch rt ifname ipVer m v.w).2.1 ho hi
  have hr1 := Starts.appendSlice_frame rt (aceMatch rt ifname ipVer m v.w).2.1 ho hr
  exact Starts.appendSlice_frame rt _ hi1 hr1

theorem aceActionStep_dir {ifname : String} (rt : Runtime) (a : ACEAction)
    {v : AceVars} (hv : v.Dir ifname) : (aceActionStep rt v a).Dir ifname := by
  obtain ⟨ho, hi⟩ := hv
  unfold aceActionStep
  split_ifs
  · exact ⟨ho, hi⟩
  · have ho1 := Starts.of_appendSlice rt (limitArgs a) ho
    have hi1 := Starts.appendSlice_frame rt (limitArgs a) ho hi
    exact ⟨Starts.appendSlice_frame rt _ hi1 ho1, Starts.of_appendSlice rt _ hi1⟩
  · exact ⟨ho, hi⟩

theorem aceActionStep_frame {ifname : String} (rt : Runtime) (a : ACEAction)
    {v : AceVars} (hv : v.Dir ifname) {t : String} {r : IptablesRule}
    (hr : Starts ifname v.w.heap t r) :
    Starts ifname (aceActionStep rt v a).w.heap t r := by
  obtain ⟨ho, hi⟩ := hv
  unfold aceActionStep
  split_ifs
  · exact hr
  · have hi1 := Starts.appendSlice_frame rt (limitArgs a) ho hi
    have hr1 := Starts.appendSlice_frame rt (limitArgs a) ho hr
    exact Starts.appendSlice_frame rt _ hi1 hr1
  · exact hr

theorem foldl_aceMatchStep_dir {ifname : String} (rt : Runtime) (ipVer : Int)
    (ms : List ACEMatch) {v : AceVars} (hv : v.Dir ifname) :
    (ms.foldl (aceMatchStep rt ifname ipVer) v).Dir ifname := by
  induction ms generalizing v with
  | nil => exact hv
  | cons m ms ih => exact ih (aceMatchStep_dir rt ipVer m hv)

theorem foldl_aceActionStep_dir {ifname : String} (rt : Runtime)
    (as : List ACEAction) {v : AceVars} (hv : v.Dir ifname) :
    (as.foldl (aceActionStep rt) v).Dir ifname := by
  induction as generalizing v with
  | nil => exact hv
  | cons a as ih => exact ih (aceActionStep_dir rt a hv)

theorem foldl_aceActionStep_frame {ifname : String} (rt : Runtime)
    (as : List ACEAction) {v : AceVars} (hv : v.Dir ifname) {t : String} {r : IptablesRule}
    (hr : Starts ifname v.w.heap t r) :
    Starts ifname (as.foldl (aceActionStep rt) v).w.heap t r := by
  induction as generalizing v with
  | nil => exact hr
  | cons a as ih => exact ih (aceActionStep_dir rt a hv) (aceActionStep_frame rt a hv hr)

theorem aceToRules_eq (rt : Runtime) (ifname : String) (ace : ACE) (ipVer : Int) (w : World) :
    aceToRules rt ifname ace ipVer w =
      aceEmit rt (aceAfterMatches rt ifname ace ipVer w) (aceAfterActions rt ifname ace ipVer w) :=
  rfl

theorem aceInit_dir (ifname : String) (w : World) : (aceInit ifname w).Dir ifname :=
  ⟨Starts.newSlice_frame (Starts.of_newSlice ifname "-i" [] w) _, Starts.of_newSlice ifname "-o" [] _⟩

theorem aceEmit_starts {ifname : String} (rt : Runtime) {v1 v2 : AceVars}
    (h2 : v2.Dir ifname) (hu1 : Starts ifname v2.w.heap "-i" v1.outArgs)
    (hu2 : Starts ifname v2.w.heap "-o" v1.inArgs) :
    List.Forall₂ (fun t r => Starts ifname (aceEmit rt v1 v2).1.heap t r)
      (if v2.foundLimit then ["-i", "-o", "-i", "-o"] else ["-i", "-o"])
      (aceEmit rt v1 v2).2 := by
  obtain ⟨ho, hi⟩ := h2
  unfold aceEmit
  generalize (if v2.foundDrop = true then "DROP" else "ACCEPT") = target
  have ho3 := Starts.of_appendSlice rt ["-j", target] ho
  have hi3 := Starts.of_appendSlice rt ["-j", target] (Starts.appendSlice_frame rt ["-j", target] ho hi)
  have ho3' := Starts.appendSlice_frame rt ["-j", target]
    (Starts.appendSlice_frame rt ["-j", target] ho hi) ho3
  have hu1' := Starts.appendSlice_frame rt ["-j", target]
    (Starts.appendSlice_frame rt ["-j", target] ho hi)
    (Starts.appendSlice_frame rt ["-j", target] ho hu1)
  have hu2' := Starts.appendSlice_frame rt ["-j", target]
    (Starts.appendSlice_frame rt ["-j", target] ho hi)
    (Starts.appendSlice_frame rt ["-j", target] ho hu2)
  by_cases hl : v2.foundLimit
  · simp only [hl, if_true]
    have hu2'' := Starts.appendSlice_frame rt ["-j", "DROP"] hu1' hu2'
    refine List.Forall₂.cons ?_ (List.Forall₂.cons ?_ (List.Forall₂.cons ?_
      (List.Forall₂.cons ?_ List.Forall₂.nil)))
    · exact Starts.appendSlice_frame rt _ hu2'' (Starts.appendSlice_frame rt _ hu1' ho3')
    · exact Starts.appendSlice_frame rt _ hu2'' (Starts.appendSlice_frame rt _ hu1' hi3)
    · exact Starts.appendSlice_frame rt _ hu2'' (Starts.of_appendSlice rt _ hu1')
    · exact Starts.of_appendSlice rt _ hu2''
  · simp only [hl, Bool.false_eq_true, if_false]
    exact List.Forall₂.cons ho3' (List.Forall₂.cons hi3 List.Forall₂.nil)

/-- The rules `aceToRules` returns alternate between `-i ifname ...` and
`-o ifname ...`, whatever the runtime does on `append`. -/
theorem aceToRules_starts (rt : Runtime) (ifname : String) (ace : ACE) (ipVer : Int) (w : World) :
    List.Forall₂ (fun t r => Starts ifname (aceToRules rt ifname ace ipVer w).1.heap t r)
      (if (aceAfterActions rt ifname ace ipVer w).foundLimit
        then ["-i", "-o", "-i", "-o"] else ["-i", "-o"])
      (aceToRules rt ifname ace ipVer w).2 := by
  have h1 : (aceAfterMatches rt ifname ace ipVer w).Dir ifname :=
    foldl_aceMatchStep_dir rt ipVer ace.Matches (aceInit_dir ifname w)
  rw [aceToRules_eq]
  exact aceEmit_starts rt (foldl_aceActionStep_dir rt ace.Actions h1)
    (foldl_aceActionStep_frame rt ace.Actions h1 h1.1)
    (foldl_aceActionStep_frame rt ace.Actions h1 h1.2)

theorem aceToRules_directed (rt : Runtime) (ifname : String) (ace : ACE) (ipVer : Int) (w : World) :
    ∀ r ∈ (aceToRules rt ifname ace ipVer w).2,
      Directed ifname (aceToRules rt ifname ace ipVer w).1.heap r := by
  have h := aceToRules_starts rt ifname ace ipVer w
  generalize (aceToRules rt ifname ace ipVer w).2 = rs at h
  generalize (aceToRules rt ifname ace ipVer w).1.heap = hp at h
  intro r hr
  split_ifs at h
  · match rs, h with
    | [a, b, c, d], .cons ha (.cons hb (.cons hc (.cons hd .nil))) =>
      simp at hr
      rcases hr with rfl | rfl | rfl | rfl
      · exact Or.inl ha
      · exact Or.inr hb
      · exact Or.inl hc
      · exact Or.inr hd
  · match rs, h with
    | [a, b], .cons ha (.cons hb .nil) =>
      simp at hr
      rcases hr with rfl | rfl
      · exact Or.inl ha
      · exact Or.inr hb

/-! ## The compiled rules do not depend on the world -/

theorem Directed.grow_dir {ifname : String} {h : Heap} {r : IptablesRule}
    (hd : Directed ifname h r) (f : Heap) : Directed ifname (h ++ f) r :=
  hd.elim (fun hs => Or.inl (hs.grow f)) (fun hs => Or.inr (hs.grow f))

theorem Directed.arr_lt {ifname : String} {h : Heap} {r : IptablesRule}
    (hd : Directed ifname h r) : r.arr < h.length :=
  hd.elim (fun hs => hs.1) (fun hs => hs.1)

theorem readRule_append_left {h : Heap} {r : IptablesRule} (hr : r.arr < h.length) (f : Heap) :
    readRule (h ++ f) r = readRule h r := by
  unfold readRule
  rw [List.getD_append _ _ _ _ hr]

theorem readRules_append_left {h : Heap} {rs : IptablesRuleList}
    (hrs : ∀ r ∈ rs, r.arr < h.length) (f : Heap) :
    readRules (h ++ f) rs = readRules h rs := by
  unfold readRules
  exact List.map_congr_left (fun r hr => readRule_append_left (hrs r hr) f)

theorem rulesOf_overRules (b : World) (r : World × IptablesRuleList) :
    rulesOf (overRules b r) = rulesOf r := by
  simp [rulesOf, overRules, readRules, List.map_map, Function.comp_def, readRule_over]

theorem rulesOf_aceToRules (rt : Runtime) (ifname : String) (ace : ACE) (ipVer : Int) (w : World) :
    rulesOf (aceToRules rt ifname ace ipVer w) = aceRules rt ifname ace ipVer := by
  rw [aceToRules_eq_over, rulesOf_overRules]; rfl

theorem rulesOf_aclToRules (rt : Runtime) (ifname : String) (acls : List ACE) (ipVer : Int)
    (overlayIP : String) (w : World) :
    rulesOf (aclToRules rt ifname acls ipVer overlayIP w) =
      compiledRules rt ifname acls ipVer overlayIP := by
  rw [aclToRules_eq_over, rulesOf_overRules]; rfl

theorem aceToRules_heap (rt : Runtime) (ifname : String) (ace : ACE) (ipVer : Int) (w : World) :
    (aceToRules rt ifname ace ipVer w).1.heap =
      w.heap ++ (aceToRules rt ifname ace ipVer World.empty).1.heap := by
  rw [aceToRules_eq_over]; rfl

theorem aclToRules_heap (rt : Runtime) (ifname : String) (acls : List ACE) (ipVer : Int)
    (overlayIP : String) (w : World) :
    (aclToRules rt ifname acls ipVer overlayIP w).1.heap =
      w.heap ++ (aclToRules rt ifname acls ipVer overlayIP World.empty).1.heap := by
  rw [aclToRules_eq_over]; rfl

theorem overlayRules_directed (ifname overlayIP : String) (w : World) :
    AllDirected ifname (overlayRules ifname overlayIP w) := by
  intro r hr
  simp only [overlayRules, List.mem_cons, List.mem_singleton, List.not_mem_nil, or_false] at hr
  rcases hr with rfl | rfl | rfl | rfl
  · exact Or.inl (Starts.newSlice_frame (Starts.newSlice_frame (Starts.newSlice_frame
      (Starts.of_newSlice ifname "-i" _ w) _) _) _)
  · exact Or.inl (Starts.newSlice_frame (Starts.newSlice_frame
      (Starts.of_newSlice ifname "-i" _ _) _) _)
  · exact Or.inl (Starts.newSlice_frame (Starts.of_newSlice ifname "-i" _ _) _)
  · exact Or.inl (Starts.of_newSlice ifname "-i" _ _)

theorem aclStep_directed {ifname : String} (rt : Runtime) (ipVer : Int)
    {st : World × IptablesRuleList} (hst : AllDirected ifname st) (ace : ACE) :
    AllDirected ifname (aclStep rt ifname ipVer st ace) := by
  intro r hr
  simp only [aclStep, List.mem_append] at hr ⊢
  rcases hr with hr | hr
  · rw [aceToRules_heap]
    exact (hst r hr).grow_dir _
  · exact aceToRules_directed rt ifname ace ipVer st.1 r hr

theorem foldl_aclStep_directed {ifname : String} (rt : Runtime) (ipVer : Int) (acls : List ACE)
    {st : World × IptablesRuleList} (hst : AllDirected ifname st) :
    AllDirected ifname (acls.foldl (aclStep rt ifname ipVer) st) := by
  induction acls generalizing st with
  | nil => exact hst
  | cons a acls ih => exact ih (aclStep_directed rt ipVer hst a)

theorem aclToRules_directed (rt : Runtime) (ifname : String) (acls : List ACE) (ipVer : Int)
    (overlayIP : String) (w : World) :
    AllDirected ifname (aclToRules rt ifname acls ipVer overlayIP w) := by
  have h0 : AllDirected ifname
      (if overlayIP ≠ "" then overlayRules ifname overlayIP w else (w, [])) := by
    split_ifs
    · exact overlayRules_directed ifname overlayIP w
    · intro r hr; simp at hr
  have h1 := foldl_aclStep_directed rt ipVer acls h0
  intro r hr
  simp only [aclToRules, List.mem_append, List.mem_cons, List.mem_singleton, List.not_mem_nil,
    or_false] at hr ⊢
  rcases hr with hr | rfl | rfl
  · exact ((h1 r hr).grow_dir _).grow_dir _
  · exact Or.inl (Starts.newSlice_frame (Starts.of_newSlice ifname "-i" _ _) _)
  · exact Or.inr (Starts.of_newSlice ifname "-o" _ _)

theorem compiledRules_directed (rt : Runtime) (ifname : String) (acls : List ACE) (ipVer : Int)
    (overlayIP : String) :
    ∀ r ∈ compiledRules rt ifname acls ipVer overlayIP,
      ∃ rest, r = "-i" :: ifname :: rest ∨ r = "-o" :: ifname :: rest := by
  intro r hr
  simp only [compiledRules, rulesOf, readRules, List.mem_map] at hr
  obtain ⟨s, hs, rfl⟩ := hr
  rcases aclToRules_directed rt ifname acls ipVer overlayIP World.empty s hs with h | h
  · obtain ⟨rest, hrest⟩ := h.read
    exact ⟨rest, Or.inl hrest⟩
  · obtain ⟨rest, hrest⟩ := h.read
    exact ⟨rest, Or.inr hrest⟩

/-! ## Shape of a compiled ACL -/

theorem readRule_newSlice (xs : List String) (w : World) :
    readRule (newSlice xs w).1.heap (newSlice xs w).2 = xs := by
  simp [readRule, newSlice]

theorem readRule_newSlice_frame {w : World} {r : IptablesRule} (hr : r.arr < w.heap.length)
    (xs : List String) : readRule (newSlice xs w).1.heap r = readRule w.heap r :=
  readRule_append_left hr [xs]

theorem newSlice_arr_lt (xs : List String) (w : World) :
    (newSlice xs w).2.arr < (newSlice xs w).1.heap.length := by
  simp [newSlice]

theorem newSlice_heap_length (xs : List String) (w : World) :
    (newSlice xs w).1.heap.length = w.heap.length + 1 := by
  simp [newSlice]

theorem readRules_snoc_newSlice {w : World} {rs : IptablesRuleList}
    (hrs : ∀ r ∈ rs, r.arr < w.heap.length) (xs : List String) :
    readRules (newSlice xs w).1.heap (rs ++ [(newSlice xs w).2]) = readRules w.heap rs ++ [xs] := by
  simp only [readRules, List.map_append, List.map_cons, List.map_nil, readRule_newSlice]
  congr 1
  exact List.map_congr_left (fun r hr => readRule_newSlice_frame (hrs r hr) xs)

theorem valid_snoc_newSlice {w : World} {rs : IptablesRuleList}
    (hrs : ∀ r ∈ rs, r.arr < w.heap.length) (xs : List String) :
    ∀ r ∈ rs ++ [(newSlice xs w).2], r.arr < (newSlice xs w).1.heap.length := by
  intro r hr
  simp only [List.mem_append, List.mem_singleton] at hr
  rcases hr with hr | rfl
  · rw [newSlice_heap_length]; have := hrs r hr; omega
  · exact newSlice_arr_lt xs w

theorem rulesOf_overlayRules (ifname overlayIP : String) (w : World) :
    rulesOf (overlayRules ifname overlayIP w) = overlayTokens ifname overlayIP := by
  have v0 : ∀ r ∈ ([] : IptablesRuleList), r.arr < w.heap.length := by simp
  have v1 := valid_snoc_newSlice v0 ["-i", ifname, "-m", "set", "--match-set", "local.ipv6",
    "dst", "-j", "ACCEPT"]
  have v2 := valid_snoc_newSlice v1 ["-i", ifname, "-m", "set", "--match-set", "local.ipv6",
    "src", "-j", "ACCEPT"]
  have v3 := valid_snoc_newSlice v2 ["-i", ifname, "-d", overlayIP, "-j", "ACCEPT"]
  have e := readRules_snoc_newSlice v3 ["-i", ifname, "-s", overlayIP, "-j", "ACCEPT"]
  rw [readRules_snoc_newSlice v2, readRules_snoc_newSlice v1, readRules_snoc_newSlice v0] at e
  exact e

theorem rulesOf_aclStep {ifname : String} (rt : Runtime) (ipVer : Int)
    {st : World × IptablesRuleList} (hst : AllDirected ifname st) (ace : ACE) :
    rulesOf (aclStep rt ifname ipVer st ace) = rulesOf st ++ aceRules rt ifname ace ipVer := by
  have hframe : readRules (aceToRules rt ifname ace ipVer st.1).1.heap st.2 =
      readRules st.1.heap st.2 := by
    rw [aceToRules_heap]
    exact readRules_append_left (fun r hr => (hst r hr).arr_lt) _
  have hnew := rulesOf_aceToRules rt ifname ace ipVer st.1
  simp only [rulesOf, readRules] at hframe hnew ⊢
  simp only [aclStep, List.map_append, hframe, hnew]

theorem rulesOf_foldl_aclStep {ifname : String} (rt : Runtime) (ipVer : Int) (acls : List ACE)
    {st : World × IptablesRuleList} (hst : AllDirected ifname st) :
    rulesOf (acls.foldl (aclStep rt ifname ipVer) st) =
      rulesOf st ++ acls.flatMap (aceRules rt ifname · ipVer) := by
  induction acls generalizing st with
  | nil => simp
  | cons a acls ih =>
    rw [List.foldl_cons, ih (aclStep_directed rt ipVer hst a), rulesOf_aclStep rt ipVer hst a]
    simp

/-- The compiled ACL is the overlay rules (if any), the rules of each ACE in
order, and the implicit-drop pair. -/
theorem compiledRules_eq (rt : Runtime) (ifname : String) (acls : List ACE) (ipVer : Int)
    (overlayIP : String) :
    compiledRules rt ifname acls ipVer overlayIP =
      (if overlayIP = "" then [] else overlayTokens ifname overlayIP) ++
        acls.flatMap (aceRules rt ifname · ipVer) ++ dropTokens ifname := by
  have h0 : AllDirected ifname
      (if overlayIP ≠ "" then overlayRules ifname overlayIP World.empty
        else (World.empty, [])) := by
    split_ifs
    · exact overlayRules_directed ifname overlayIP _
    · intro r hr; simp at hr
  have h0r : rulesOf (if overlayIP ≠ "" then overlayRules ifname overlayIP World.empty
        else (World.empty, [])) = if overlayIP = "" then [] else overlayTokens ifname overlayIP := by
    by_cases hov : overlayIP = ""
    · simp [hov, rulesOf, readRules]
    · simp [hov, rulesOf_overlayRules]
  have h1 := foldl_aclStep_directed rt ipVer acls h0
  have h1r := rulesOf_foldl_aclStep rt ipVer acls h0
  rw [h0r] at h1r
  simp only [compiledRules, aclToRules]
  generalize List.foldl (aclStep rt ifname ipVer) _ acls = st1 at h1 h1r ⊢
  rw [← h1r]
  have hvalid : ∀ r ∈ st1.2, r.arr < st1.1.heap.length := fun r hr => (h1 r hr).arr_lt
  have v1 := valid_snoc_newSlice hvalid ["-i", ifname, "-j", "DROP"]
  have e := readRules_snoc_newSlice v1 ["-o", ifname, "-j", "DROP"]
  rw [readRules_snoc_newSlice hvalid] at e
  simpa [rulesOf, dropTokens] using e

/-! ## Contents of the accumulators -/

theorem SliceOk.ok_newSlice (xs : List String) (w : World) :
    SliceOk (newSlice xs w).1.heap (newSlice xs w).2 := by
  simp [SliceOk, Acl.newSlice]

theorem SliceOk.grow_ok {h : Heap} {s : IptablesRule} (hs : SliceOk h s) (f : Heap) :
    SliceOk (h ++ f) s := by
  obtain ⟨harr, hlen, hcap⟩ := hs
  refine ⟨by simp; omega, hlen, ?_⟩
  rw [List.getD_append _ _ _ _ harr]
  exact hcap

theorem SliceOk.length_read {h : Heap} {s : IptablesRule} (hs : SliceOk h s) :
    (readRule h s).length = s.len := by
  obtain ⟨_, hlen, hcap⟩ := hs
  simp only [readRule, List.length_take]
  omega

theorem appendSlice_read {w : World} {s : IptablesRule} (rt : Runtime) (xs : List String)
    (hs : SliceOk w.heap s) :
    readRule (appendSlice rt s xs w).1.heap (appendSlice rt s xs w).2 = readRule w.heap s ++ xs := by
  have hl := hs.length_read
  obtain ⟨harr, hlen, hcap⟩ := hs
  by_cases hfit : s.len + xs.length ≤ s.cap
  · simp only [appendSlice, hfit, if_true, readRule] at hl ⊢
    rw [List.getD_eq_getElem?_getD, List.getElem?_set_self (by simpa using harr)]
    simp only [Option.getD_some, List.append_assoc]
    rw [← List.append_assoc, List.take_left' (by rw [List.length_append, hl])]
  · simp only [appendSlice, hfit, if_false, readRule] at hl ⊢
    rw [List.getD_eq_getElem?_getD, List.getElem?_append_right (le_refl _)]
    simp only [Nat.sub_self, List.getElem?_cons_zero, Option.getD_some, List.append_assoc]
    rw [← List.append_assoc, List.take_left' (by rw [List.length_append, hl])]

theorem SliceOk.ok_appendSlice {w : World} {s : IptablesRule} (rt : Runtime) (xs : List String)
    (hs : SliceOk w.heap s) :
    SliceOk (Acl.appendSlice rt s xs w).1.heap (Acl.appendSlice rt s xs w).2 := by
  have hl := hs.length_read
  obtain ⟨harr, hlen, hcap⟩ := hs
  by_cases hfit : s.len + xs.length ≤ s.cap
  · simp only [Acl.appendSlice, hfit, if_true, SliceOk, List.length_set]
    refine ⟨harr, trivial, ?_⟩
    rw [List.getD_eq_getElem?_getD, List.getElem?_set_self (by simpa using harr)]
    simp only [Option.getD_some, List.length_append, List.length_take, List.length_drop]
    omega
  · simp only [Acl.appendSlice, hfit, if_false, SliceOk]
    refine ⟨by simp, le_max_left _ _, ?_⟩
    rw [List.getD_eq_getElem?_getD, List.getElem?_append_right (le_refl _)]
    simp only [Nat.sub_self, List.getElem?_cons_zero, Option.getD_some, List.length_append,
      List.length_replicate, hl]
    omega

theorem appendSlice_arr {w : World} {s : IptablesRule} (rt : Runtime) (xs : List String) :
    (appendSlice rt s xs w).2.arr = s.arr ∨ (appendSlice rt s xs w).2.arr = w.heap.length := by
  by_cases hfit : s.len + xs.length ≤ s.cap <;> simp [appendSlice, hfit]

theorem appendSlice_other {w : World} {s r : IptablesRule} (rt : Runtime) (xs : List String)
    (hr : SliceOk w.heap r) (hne : r.arr ≠ s.arr) :
    SliceOk (appendSlice rt s xs w).1.heap r ∧
      readRule (appendSlice rt s xs w).1.heap r = readRule w.heap r ∧
      r.arr ≠ (appendSlice rt s xs w).2.arr := by
  refine ⟨?_, ?_, ?_⟩
  · by_cases hfit : s.len + xs.length ≤ s.cap
    · obtain ⟨harr, hlen, hcap⟩ := hr
      simp only [appendSlice, hfit, if_true, SliceOk, List.length_set]
      refine ⟨harr, hlen, ?_⟩
      rw [List.getD_eq_getElem?_getD, List.getElem?_set_ne (Ne.symm hne)]
      simpa using hcap
    · simp only [appendSlice, hfit, if_false]
      exact hr.grow_ok _
  · by_cases hfit : s.len + xs.length ≤ s.cap
    · simp only [appendSlice, hfit, if_true, readRule]
      rw [List.getD_eq_getElem?_getD, List.getElem?_set_ne (Ne.symm hne)]
      simp
    · simp only [appendSlice, hfit, if_false]
      exact readRule_append_left hr.1 _
  · rcases appendSlice_arr (w := w) (s := s) rt xs with h | h
    · rw [h]; exact hne
    · rw [h]; exact Nat.ne_of_lt hr.1

theorem aceMatch_tokens (rt : Runtime) (ifname : String) (ipVer : Int) (m : ACEMatch) (w : World) :
    (aceMatch rt ifname ipVer m w).2 = (matchOut rt ifname ipVer m, matchIn rt ifname ipVer m) := by
  have h := aceMatch_over rt ifname ipVer m w World.empty
  rw [over_empty] at h
  rw [h]
  rfl

theorem aceInit_sep (ifname : String) (w : World) : (aceInit ifname w).Sep := by
  refine ⟨(SliceOk.ok_newSlice _ _).grow_ok _, SliceOk.ok_newSlice _ _, ?_⟩
  simp [aceInit, newSlice]

theorem aceInit_read (ifname : String) (w : World) :
    readRule (aceInit ifname w).w.heap (aceInit ifname w).outArgs = ["-i", ifname] ∧
      readRule (aceInit ifname w).w.heap (aceInit ifname w).inArgs = ["-o", ifname] := by
  constructor
  · show readRule (newSlice ["-o", ifname] (newSlice ["-i", ifname] w).1).1.heap
      (newSlice ["-i", ifname] w).2 = _
    rw [readRule_newSlice_frame (newSlice_arr_lt _ _), readRule_newSlice]
  · exact readRule_newSlice _ _

/-- Appending to both accumulators, as every loop of `aceToRules` does: the
invariant is kept and each accumulator gains its tokens. -/
theorem append_both {w : World} {o i : IptablesRule} (rt : Runtime) (xo xi : List String)
    (ho : SliceOk w.heap o) (hi : SliceOk w.heap i) (hne : o.arr ≠ i.arr) :
    SliceOk (appendSlice rt i xi (appendSlice rt o xo w).1).1.heap (appendSlice rt o xo w).2 ∧
    SliceOk (appendSlice rt i xi (appendSlice rt o xo w).1).1.heap
      (appendSlice rt i xi (appendSlice rt o xo w).1).2 ∧
    (appendSlice rt o xo w).2.arr ≠ (appendSlice rt i xi (appendSlice rt o xo w).1).2.arr ∧
    readRule (appendSlice rt i xi (appendSlice rt o xo w).1).1.heap (appendSlice rt o xo w).2 =
      readRule w.heap o ++ xo ∧
    readRule (appendSlice rt i xi (appendSlice rt o xo w).1).1.heap
      (appendSlice rt i xi (appendSlice rt o xo w).1).2 = readRule w.heap i ++ xi := by
  have ho1 := SliceOk.ok_appendSlice rt xo ho
  have hro1 := appendSlice_read rt xo ho
  obtain ⟨hi1, hri1, hne1⟩ := appendSlice_other (s := o) rt xo hi (Ne.symm hne)
  have hi2 := SliceOk.ok_appendSlice rt xi hi1
  have hri2 := appendSlice_read rt xi hi1
  obtain ⟨ho2, hro2, hne2⟩ := appendSlice_other (s := i) rt xi ho1 (Ne.symm hne1)
  exact ⟨ho2, hi2, hne2, by rw [hro2, hro1], by rw [hri2, hri1]⟩

theorem aceMatchStep_sep (rt : Runtime) (ifname : String) (ipVer : Int) (m : ACEMatch)
    {v : AceVars} (hv : v.Sep) :
    (aceMatchStep rt ifname ipVer v m).Sep ∧
    readRule (aceMatchStep rt ifname ipVer v m).w.heap (aceMatchStep rt ifname ipVer v m).outArgs =
      readRule v.w.heap v.outArgs ++ matchOut rt ifname ipVer m ∧
    readRule (aceMatchStep rt ifname ipVer v m).w.heap (aceMatchStep rt ifname ipVer v m).inArgs =
      readRule v.w.heap v.inArgs ++ matchIn rt ifname ipVer m := by
  obtain ⟨ho, hi, hne⟩ := hv
  rw [← aceMatch_heap rt ifname ipVer m v.w] at ho hi
  have h := append_both rt (matchOut rt ifname ipVer m) (matchIn rt ifname ipVer m) ho hi hne
  have ht := aceMatch_tokens rt ifname ipVer m v.w
  have ht1 : (aceMatch rt ifname ipVer m v.w).2.1 = matchOut rt ifname ipVer m := by rw [ht]
  have ht2 : (aceMatch rt ifname ipVer m v.w).2.2 = matchIn rt ifname ipVer m := by rw [ht]
  simp only [aceMatchStep, AceVars.Sep, ht1, ht2]
  rw [aceMatch_heap] at h
  exact ⟨⟨h.1, h.2.1, h.2.2.1⟩, h.2.2.2.1, h.2.2.2.2⟩

theorem foldl_aceMatchStep_sep (rt : Runtime) (ifname : String) (ipVer : Int) (ms : List ACEMatch)
    {v : AceVars} (hv : v.Sep) :
    (ms.foldl (aceMatchStep rt ifname ipVer) v).Sep ∧
    readRule (ms.foldl (aceMatchStep rt ifname ipVer) v).w.heap
        (ms.foldl (aceMatchStep rt ifname ipVer) v).outArgs =
      readRule v.w.heap v.outArgs ++ ms.flatMap (matchOut rt ifname ipVer) ∧
    readRule (ms.foldl (aceMatchStep rt ifname ipVer) v).w.heap
        (ms.foldl (aceMatchStep rt ifname ipVer) v).inArgs =
      readRule v.w.heap v.inArgs ++ ms.flatMap (matchIn rt ifname ipVer) := by
  induction ms generalizing v with
  | nil => simp [hv]
  | cons m ms ih =>
    obtain ⟨h1, h2, h3⟩ := aceMatchStep_sep rt ifname ipVer m hv
    obtain ⟨k1, k2, k3⟩ := ih h1
    refine ⟨k1, ?_, ?_⟩
    · rw [List.foldl_cons, k2, h2]; simp
    · rw [List.foldl_cons, k3, h3]; simp

/-- After the loop over the matches the accumulators hold the direction
token, the interface and the tokens of every match in order. -/
theorem aceAfterMatches_read (rt : Runtime) (ifname : String) (ace : ACE) (ipVer : Int)
    (w : World) :
    (aceAfterMatches rt ifname ace ipVer w).Sep ∧
    readRule (aceAfterMatches rt ifname ace ipVer w).w.heap
        (aceAfterMatches rt ifname ace ipVer w).outArgs =
      ["-i", ifname] ++ ace.Matches.flatMap (matchOut rt ifname ipVer) ∧
    readRule (aceAfterMatches rt ifname ace ipVer w).w.heap
        (aceAfterMatches rt ifname ace ipVer w).inArgs =
      ["-o", ifname] ++ ace.Matches.flatMap (matchIn rt ifname ipVer) := by
  have h := foldl_aceMatchStep_sep rt ifname ipVer ace.Matches (aceInit_sep ifname w)
  rw [(aceInit_read ifname w).1, (aceInit_read ifname w).2] at h
  exact h

theorem aceMatchStep_flags (rt : Runtime) (ifname : String) (ipVer : Int) (v : AceVars)
    (m : ACEMatch) :
    (aceMatchStep rt ifname ipVer v m).foundDrop = v.foundDrop ∧
      (aceMatchStep rt ifname ipVer v m).foundLimit = v.foundLimit :=
  ⟨rfl, rfl⟩

theorem foldl_aceMatchStep_flags (rt : Runtime) (ifname : String) (ipVer : Int)
    (ms : List ACEMatch) (v : AceVars) :
    (ms.foldl (aceMatchStep rt ifname ipVer) v).foundDrop = v.foundDrop ∧
      (ms.foldl (aceMatchStep rt ifname ipVer) v).foundLimit = v.foundLimit := by
  induction ms generalizing v with
  | nil => exact ⟨rfl, rfl⟩
  | cons m ms ih => exact ih _

theorem foldl_aceActionStep_flags (rt : Runtime) (as : List ACEAction) (v : AceVars) :
    (as.foldl (aceActionStep rt) v).foundDrop = (v.foundDrop || as.any (·.Drop)) ∧
      (as.foldl (aceActionStep rt) v).foundLimit =
        (v.foundLimit || as.any (fun a => !a.Drop && a.Limit)) := by
  induction as generalizing v with
  | nil => simp
  | cons a as ih =>
    rw [List.foldl_cons, (ih _).1, (ih _).2]
    unfold aceActionStep
    cases hd : a.Drop <;> cases hl : a.Limit <;> simp [hd, hl]

/-- The flags after both loops: `foundDrop` when some action sets `Drop`,
`foundLimit` when some action takes the limit branch (it does not set `Drop`
and sets `Limit`). -/
theorem aceAfterActions_flags (rt : Runtime) (ifname : String) (ace : ACE) (ipVer : Int)
    (w : World) :
    (aceAfterActions rt ifname ace ipVer w).foundDrop = ace.Actions.any (·.Drop) ∧
      (aceAfterActions rt ifname ace ipVer w).foundLimit =
        ace.Actions.any (fun a => !a.Drop && a.Limit) := by
  have h := foldl_aceActionStep_flags rt ace.Actions (aceAfterMatches rt ifname ace ipVer w)
  have hm := foldl_aceMatchStep_flags rt ifname ipVer ace.Matches (aceInit ifname w)
  unfold aceAfterActions
  unfold aceAfterMatches at h ⊢
  rw [h.1, h.2, hm.1, hm.2]
  simp [aceInit]

/-- When no action takes the limit branch the loop over the actions leaves
the accumulators and the store as they are. -/
theorem foldl_aceActionStep_nolimit (rt : Runtime) (as : List ACEAction) (v : AceVars)
    (hno : ∀ a ∈ as, a.Drop = true ∨ a.Limit = false) :
    (as.foldl (aceActionStep rt) v).w = v.w ∧
      (as.foldl (aceActionStep rt) v).outArgs = v.outArgs ∧
      (as.foldl (aceActionStep rt) v).inArgs = v.inArgs := by
  induction as generalizing v with
  | nil => exact ⟨rfl, rfl, rfl⟩
  | cons a as ih =>
    have hstep : (aceActionStep rt v a).w = v.w ∧ (aceActionStep rt v a).outArgs = v.outArgs ∧
        (aceActionStep rt v a).inArgs = v.inArgs := by
      unfold aceActionStep
      rcases hno a (List.mem_cons_self _ _) with hd | hl
      · simp [hd]
      · cases hd : a.Drop <;> simp [hl]
    obtain ⟨k1, k2, k3⟩ := ih (aceActionStep rt v a) (fun b hb => hno b (List.mem_cons_of_mem _ hb))
    rw [List.foldl_cons, k1, k2, k3]
    exact hstep

/-- The rules of an ACE none of whose actions takes the limit branch. -/
theorem aceRules_nolimit (rt : Runtime) (ifname : String) (ace : ACE) (ipVer : Int)
    (hno : ∀ a ∈ ace.Actions, a.Drop = true ∨ a.Limit = false) :
    aceRules rt ifname ace ipVer =
      [["-i", ifname] ++ ace.Matches.flatMap (matchOut rt ifname ipVer) ++
          ["-j", if ace.Actions.any (·.Drop) then "DROP" else "ACCEPT"],
       ["-o", ifname] ++ ace.Matches.flatMap (matchIn rt ifname ipVer) ++
          ["-j", if ace.Actions.any (·.Drop) then "DROP" else "ACCEPT"]] := by
  obtain ⟨⟨ho, hi, hne⟩, hro, hri⟩ := aceAfterMatches_read rt ifname ace ipVer World.empty
  obtain ⟨hfd, hfl⟩ := aceAfterActions_flags rt ifname ace ipVer World.empty
  have e : (aceAfterActions rt ifname ace ipVer World.empty).w =
        (aceAfterMatches rt ifname ace ipVer World.empty).w ∧
      (aceAfterActions rt ifname ace ipVer World.empty).outArgs =
        (aceAfterMatches rt ifname ace ipVer World.empty).outArgs ∧
      (aceAfterActions rt ifname ace ipVer World.empty).inArgs =
        (aceAfterMatches rt ifname ace ipVer World.empty).inArgs :=
    foldl_aceActionStep_nolimit rt ace.Actions
      (aceAfterMatches rt ifname ace ipVer World.empty) hno
  obtain ⟨e1, e2, e3⟩ := e
  have hfl' : (aceAfterActions rt ifname ace ipVer World.empty).foundLimit = false := by
    rw [hfl, List.any_eq_false]
    intro a ha
    rcases hno a ha with hd | hl
    · simp [hd]
    · simp [hl]
  have hb := append_both rt
    ["-j", if ace.Actions.any (·.Drop) then "DROP" else "ACCEPT"]
    ["-j", if ace.Actions.any (·.Drop) then "DROP" else "ACCEPT"] ho hi hne
  rw [hro, hri] at hb
  unfold aceRules
  rw [aceToRules_eq]
  simp only [aceEmit, hfl', hfd, rulesOf, readRules, List.map_cons, List.map_nil,
    Bool.false_eq_true, if_false]
  rw [e1, e2, e3, hb.2.2.2.1, hb.2.2.2.2]

/-! ## Rule equality and containment decide equality and membership -/

theorem equalRuleLoop_eq (r1 r2 : List String) (hlen : r1.length = r2.length) (idxs : List Nat)
    (hidx : ∀ i ∈ idxs, i < r1.length) :
    equalRuleLoop r1 r2 idxs = some (decide (∀ i ∈ idxs, r1[i]? = r2[i]?)) := by
  induction idxs with
  | nil => simp [equalRuleLoop]
  | cons i rest ih =>
    have hi1 : i < r1.length := hidx i (List.mem_cons_self _ _)
    have hi2 : i < r2.length := hlen ▸ hi1
    have ih' := ih (fun j hj => hidx j (List.mem_cons_of_mem _ hj))
    have e1 := List.getElem?_eq_getElem hi1
    have e2 := List.getElem?_eq_getElem hi2
    rw [equalRuleLoop, e1, e2]
    by_cases hab : r1[i] = r2[i]
    · have hopt : r1[i]? = r2[i]? := by rw [e1, e2, hab]
      simp [hab, ih', hopt]
    · have hopt : ¬ r1[i]? = r2[i]? := by
        rw [e1, e2]
        exact fun h => hab (Option.some.inj h)
      simp [hab, hopt]

theorem equalRule_eq (r1 r2 : List String) : equalRule r1 r2 = some (decide (r1 = r2)) := by
  unfold equalRule
  by_cases hlen : r1.length = r2.length
  · rw [if_neg (not_not.mpr hlen), equalRuleLoop_eq r1 r2 hlen _ (fun i hi => List.mem_range.mp hi)]
    congr 1
    rw [decide_eq_decide]
    constructor
    · intro h
      apply List.ext_getElem? 
      intro i
      by_cases hi : i < r1.length
      · exact h i (List.mem_range.mpr hi)
      · rw [List.getElem?_eq_none (by omega), List.getElem?_eq_none (by omega)]
    · rintro rfl i _
      rfl
  · rw [if_pos hlen]
    have hne : r1 ≠ r2 := fun h => hlen (by rw [h])
    simp [hne]

theorem containsRule_eq (set : List (List String)) (member : List String) :
    containsRule set member = some (decide (member ∈ set)) := by
  induction set with
  | nil => simp [containsRule]
  | cons r rest ih =>
    rw [containsRule, equalRule_eq]
    by_cases hr : r = member
    · simp [hr]
    · have hr' : ¬ member = r := fun h => hr h.symm
      simp [hr, hr', ih]

/-! ## The compilers issue no invocation -/

theorem newSlice_cmds (xs : List String) (w : World) : (newSlice xs w).1.cmds = w.cmds := rfl

theorem appendSlice_cmds (rt : Runtime) (s : IptablesRule) (xs : List String) (w : World) :
    (appendSlice rt s xs w).1.cmds = w.cmds := by
  by_cases hfit : s.len + xs.length ≤ s.cap <;> simp [appendSlice, hfit]

theorem aceMatchStep_cmds (rt : Runtime) (ifname : String) (ipVer : Int) (v : AceVars)
    (m : ACEMatch) : (aceMatchStep rt ifname ipVer v m).w.cmds = v.w.cmds := by
  simp [aceMatchStep, appendSlice_cmds, aceMatch_cmds]

theorem aceActionStep_cmds (rt : Runtime) (v : AceVars) (a : ACEAction) :
    (aceActionStep rt v a).w.cmds = v.w.cmds := by
  unfold aceActionStep
  split_ifs <;> simp [appendSlice_cmds]

theorem foldl_aceMatchStep_cmds (rt : Runtime) (ifname : String) (ipVer : Int)
    (ms : List ACEMatch) (v : AceVars) :
    (ms.foldl (aceMatchStep rt ifname ipVer) v).w.cmds = v.w.cmds := by
  induction ms generalizing v with
  | nil => rfl
  | cons m ms ih => rw [List.foldl_cons, ih, aceMatchStep_cmds]

theorem foldl_aceActionStep_cmds (rt : Runtime) (as : List ACEAction) (v : AceVars) :
    (as.foldl (aceActionStep rt) v).w.cmds = v.w.cmds := by
  induction as generalizing v with
  | nil => rfl
  | cons a as ih => rw [List.foldl_cons, ih, aceActionStep_cmds]

theorem aceToRules_cmds (rt : Runtime) (ifname : String) (ace : ACE) (ipVer : Int) (w : World) :
    (aceToRules rt ifname ace ipVer w).1.cmds = w.cmds := by
  have h2 : (aceAfterActions rt ifname ace ipVer w).w.cmds = w.cmds := by
    unfold aceAfterActions aceAfterMatches
    rw [foldl_aceActionStep_cmds, foldl_aceMatchStep_cmds]
    rfl
  rw [aceToRules_eq]
  unfold aceEmit
  split_ifs <;> simp [appendSlice_cmds, h2]

theorem foldl_aclStep_cmds (rt : Runtime) (ifname : String) (ipVer : Int) (acls : List ACE)
    (st : World × IptablesRuleList) :
    (acls.foldl (aclStep rt ifname ipVer) st).1.cmds = st.1.cmds := by
  induction acls generalizing st with
  | nil => rfl
  | cons a acls ih => rw [List.foldl_cons, ih]; exact aceToRules_cmds rt ifname a ipVer st.1

theorem aclToRules_cmds (rt : Runtime) (ifname : String) (acls : List ACE) (ipVer : Int)
    (overlayIP : String) (w : World) :
    (aclToRules rt ifname acls ipVer overlayIP w).1.cmds = w.cmds := by
  simp only [aclToRules, newSlice_cmds, foldl_aclStep_cmds]
  split_ifs <;> rfl

/-! ## The two compiled lists as `updateACLConfiglet` sees them -/

/-- After `updateACLConfiglet` compiled both lists, the old and the new rules
read as they were compiled, both are directed, and nothing was invoked. -/
theorem update_compiled (rt : Runtime) (ifname : String) (oldACLs newACLs : List ACE)
    (ipVer : Int) (overlayIP : String) (w : World) :
    let o := aclToRules rt ifname oldACLs ipVer overlayIP w
    let n := aclToRules rt ifname newACLs ipVer overlayIP o.1
    readRules n.1.heap o.2 = compiledRules rt ifname oldACLs ipVer overlayIP ∧
    readRules n.1.heap n.2 = compiledRules rt ifname newACLs ipVer overlayIP ∧
    (∀ r ∈ o.2, Directed ifname n.1.heap r) ∧
    (∀ r ∈ n.2, Directed ifname n.1.heap r) ∧
    n.1.cmds = w.cmds := by
  intro o n
  have ho := aclToRules_directed rt ifname oldACLs ipVer overlayIP w
  have hn := aclToRules_directed rt ifname newACLs ipVer overlayIP o.1
  have hheap : n.1.heap = o.1.heap ++
      (aclToRules rt ifname newACLs ipVer overlayIP World.empty).1.heap :=
    aclToRules_heap rt ifname newACLs ipVer overlayIP o.1
  refine ⟨?_, rulesOf_aclToRules rt ifname newACLs ipVer overlayIP o.1, ?_, hn, ?_⟩
  · rw [hheap, readRules_append_left (fun r hr => (ho r hr).arr_lt)]
    exact rulesOf_aclToRules rt ifname oldACLs ipVer overlayIP w
  · intro r hr
    rw [hheap]
    exact (ho r hr).grow_dir _
  · show (aclToRules rt ifname newACLs ipVer overlayIP o.1).1.cmds = w.cmds
    rw [aclToRules_cmds, aclToRules_cmds]

/-! ## The loops of the reconciler -/

theorem updateDeleteStep_eq (isMgmt : Bool) (ipVer : Int) (newRules : IptablesRuleList) :
    updateDeleteStep isMgmt ipVer newRules = updateStep "-D" isMgmt ipVer newRules := rfl

theorem updateInsertStep_eq (isMgmt : Bool) (ipVer : Int) (oldRules : IptablesRuleList) :
    updateInsertStep isMgmt ipVer oldRules = updateStep "-I" isMgmt ipVer oldRules := rfl

/-- A loop of the reconciler over rules that all occur in the other list
issues nothing and leaves the world as it is. -/
theorem foldlM_updateStep_present (op : String) (isMgmt : Bool) (ipVer : Int)
    (others rs : IptablesRuleList) (w : World)
    (h : ∀ r ∈ rs, readRule w.heap r ∈ readRules w.heap others) :
    rs.foldlM (updateStep op isMgmt ipVer others) w = some w := by
  induction rs with
  | nil => rfl
  | cons r rs ih =>
    have hr := h r (List.mem_cons_self _ _)
    rw [List.foldlM_cons]
    have hstep : updateStep op isMgmt ipVer others w r = some w := by
      simp [updateStep, containsRule_eq, hr]
    rw [hstep]
    exact ih (fun r' hr' => h r' (List.mem_cons_of_mem _ hr'))

theorem applyRule_underlay {ifname : String} (op : String) {ipVer : Int}
    (hv : ipVer = 4 ∨ ipVer = 6) {w : World} {r : IptablesRule} (hd : Directed ifname w.heap r) :
    applyRule op false ipVer r w = some (addCmds [underlayCmd op ipVer (readRule w.heap r)] w) := by
  rcases hv with rfl | rfl
  · simp [applyRule, rulePrefix, underlayCmd, toolOf, iptableCmd, addCmds]
  · rcases hd with hd | hd
    · obtain ⟨rest, hrest⟩ := hd.read
      simp [applyRule, rulePrefix, underlayCmd, toolOf, ip6tableCmd, ruleAt, hrest, addCmds]
    · obtain ⟨rest, hrest⟩ := hd.read
      simp [applyRule, rulePrefix, underlayCmd, toolOf, ip6tableCmd, ruleAt, hrest, addCmds]

/-- A loop of the reconciler on an interface that is not a management
interface: one invocation for each rule that is absent from the other list,
in order, and the store is left as it is. -/
theorem foldlM_updateStep_underlay {ifname : String} (op : String) {ipVer : Int}
    (hv : ipVer = 4 ∨ ipVer = 6) (others rs : IptablesRuleList) (w : World)
    (hd : ∀ r ∈ rs, Directed ifname w.heap r) :
    rs.foldlM (updateStep op false ipVer others) w =
      some (addCmds (((readRules w.heap rs).filter
        (fun r => decide (r ∉ readRules w.heap others))).map (underlayCmd op ipVer)) w) := by
  induction rs generalizing w with
  | nil => simp [readRules, addCmds]
  | cons r rs ih =>
    have hcons : readRules w.heap (r :: rs) = readRule w.heap r :: readRules w.heap rs := rfl
    rw [List.foldlM_cons, hcons]
    by_cases hr : readRule w.heap r ∈ readRules w.heap others
    · have hstep : updateStep op false ipVer others w r = some w := by
        simp [updateStep, containsRule_eq, hr]
      rw [hstep, List.filter_cons_of_neg (by simpa using hr)]
      exact ih w (fun r' hr' => hd r' (List.mem_cons_of_mem _ hr'))
    · have hstep : updateStep op false ipVer others w r =
          some (addCmds [underlayCmd op ipVer (readRule w.heap r)] w) := by
        simp [updateStep, containsRule_eq, hr, applyRule_underlay op hv (hd r (List.mem_cons_self _ _))]
      rw [hstep, List.filter_cons_of_pos (by simpa using hr)]
      have ih' := ih (addCmds [underlayCmd op ipVer (readRule w.heap r)] w)
        (fun r' hr' => hd r' (List.mem_cons_of_mem _ hr'))
      simp only [Option.some_bind, Option.bind_eq_bind]
      rw [ih']
      simp [addCmds]

/-- The token lists whose rules `updateACLConfiglet` acts on: the members of
`rs` that equal no member of `others`, with multiplicity and in order. -/
theorem update_underlay (rt : Runtime) (ifname : String) (oldACLs newACLs : List ACE)
    {ipVer : Int} (hv : ipVer = 4 ∨ ipVer = 6) (overlayIP : String) (w : World) :
    (updateACLConfiglet rt ifname false oldACLs newACLs ipVer overlayIP w).map (·.cmds) =
      some (w.cmds ++
        ((compiledRules rt ifname oldACLs ipVer overlayIP).filter
          (fun r => decide (r ∉ compiledRules rt ifname newACLs ipVer overlayIP))).map
            (underlayCmd "-D" ipVer) ++
        ((compiledRules rt ifname newACLs ipVer overlayIP).filter
          (fun r => decide (r ∉ compiledRules rt ifname oldACLs ipVer overlayIP))).map
            (underlayCmd "-I" ipVer)) := by
  obtain ⟨ho, hn, hdo, hdn, hc⟩ := update_compiled rt ifname oldACLs newACLs ipVer overlayIP w
  simp only [updateACLConfiglet, updateDeleteStep_eq, updateInsertStep_eq]
  rw [foldlM_updateStep_underlay "-D" hv _ _ _ hdo]
  simp only [Option.some_bind, Option.bind_eq_bind]
  rw [foldlM_updateStep_underlay "-I" hv _ _ (addCmds _ _) hdn]
  simp only [Option.map_some', addCmds, ho, hn, hc, List.append_assoc]

/-! ## The selector -/

theorem ruleAt_zero {h : Heap} {r : IptablesRule} {t : String} {ts : List String}
    (hr : readRule h r = t :: ts) : ruleAt h r 0 = some t := by
  simp [ruleAt, hr]

/-- Writing the first token through a slice header whose rule is `t :: ts`
makes the rule read `u :: ts`. -/
theorem readRule_ruleSet_zero {w : World} {r : IptablesRule} {t : String} {ts : List String}
    (u : String) (hr : readRule w.heap r = t :: ts) :
    readRule (ruleSet r 0 u w).heap r = u :: ts := by
  have harr : r.arr < w.heap.length := by
    by_contra hge
    have hnone : w.heap[r.arr]? = none := List.getElem?_eq_none (Nat.le_of_not_lt hge)
    simp [readRule, hnone] at hr
  unfold readRule at hr ⊢
  simp only [ruleSet]
  rw [List.getD_eq_getElem?_getD, List.getElem?_set_self harr, Option.getD_some]
  match ha : w.heap.getD r.arr [], hl : r.len with
  | [], _ => rw [ha] at hr; simp at hr
  | _ :: _, 0 => rw [hl] at hr; simp at hr
  | x :: a, k + 1 =>
    rw [ha, hl] at hr
    simp only [List.take_succ_cons, List.cons.injEq] at hr
    simp [hr.2]

/-! ## The spec table -/

theorem specOut_eq (rt : Runtime) (ifname : String) {ipVer : Int} (hv : ipVer = 4 ∨ ipVer = 6)
    (m : ACEMatch) : matchOut rt ifname ipVer m = specOutTokens ifname ipVer m := by
  obtain ⟨ty, v⟩ := m
  unfold matchOut aceMatch specOutTokens
  by_cases h1 : ty = "ip"
  · subst h1; simp
  by_cases h2 : ty = "protocol"
  · subst h2; simp
  by_cases h3 : ty = "fport"
  · subst h3; simp
  by_cases h4 : ty = "lport"
  · subst h4; simp
  by_cases h5 : ty = "host"
  · subst h5; rcases hv with rfl | rfl <;> simp
  by_cases h6 : ty = "eidset"
  · subst h6; simp
  simp only [h1, h2, h3, h4, h5, h6, if_false]

theorem specIn_eq (rt : Runtime) (ifname : String) {ipVer : Int} (hv : ipVer = 4 ∨ ipVer = 6)
    (m : ACEMatch) : matchIn rt ifname ipVer m = specInTokens ifname ipVer m := by
  obtain ⟨ty, v⟩ := m
  unfold matchIn aceMatch specInTokens
  by_cases h1 : ty = "ip"
  · subst h1; simp
  by_cases h2 : ty = "protocol"
  · subst h2; simp
  by_cases h3 : ty = "fport"
  · subst h3; simp
  by_cases h4 : ty = "lport"
  · subst h4; simp
  by_cases h5 : ty = "host"
  · subst h5; rcases hv with rfl | rfl <;> simp
  by_cases h6 : ty = "eidset"
  · subst h6; simp
  simp only [h1, h2, h3, h4, h5, h6, if_false]

/-! ## The block for one rule, in closed form -/

theorem rulePrefix_eq (op : String) (isMgmt : Bool) (ipVer : Int) {w : World} {r : IptablesRule}
    {t : String} {ts : List String} (hr : readRule w.heap r = t :: ts) :
    rulePrefix op isMgmt ipVer r w =
      some (rewriteWorld isMgmt r w, selectorPrefix op isMgmt ipVer t) := by
  have h0 := ruleAt_zero hr
  cases isMgmt
  · by_cases hv : ipVer = 6
    · by_cases h1 : t = "-i"
      · simp [rulePrefix, selectorPrefix, rewriteWorld, h0, hv, h1]
      · by_cases h2 : t = "-o" <;> simp [rulePrefix, selectorPrefix, rewriteWorld, h0, hv, h1, h2]
    · simp [rulePrefix, selectorPrefix, rewriteWorld, hv]
  · by_cases h1 : t = "-o"
    · simp [rulePrefix, selectorPrefix, rewriteWorld, h0, h1]
    · by_cases h2 : t = "-i" <;> simp [rulePrefix, selectorPrefix, rewriteWorld, h0, h1, h2]

theorem rewriteWorld_cmds (isMgmt : Bool) (r : IptablesRule) (w : World) :
    (rewriteWorld isMgmt r w).cmds = w.cmds ∧ (rewriteWorld isMgmt r w).log = w.log := by
  unfold rewriteWorld
  split_ifs <;> exact ⟨rfl, rfl⟩

theorem readRule_rewriteWorld (isMgmt : Bool) {w : World} {r : IptablesRule} {t : String}
    {ts : List String} (hr : readRule w.heap r = t :: ts) :
    readRule (rewriteWorld isMgmt r w).heap r = rewrittenRule isMgmt (t :: ts) := by
  have h0 := ruleAt_zero hr
  unfold rewriteWorld rewrittenRule
  by_cases h : isMgmt = true ∧ t = "-i"
  · have h' : isMgmt = true ∧ ruleAt w.heap r 0 = some "-i" := ⟨h.1, by rw [h0, h.2]⟩
    rw [if_pos h']
    simp only [if_pos h]
    exact readRule_ruleSet_zero "-o" hr
  · have h' : ¬ (isMgmt = true ∧ ruleAt w.heap r 0 = some "-i") := by
      rw [h0]; intro hc; exact h ⟨hc.1, Option.some.inj hc.2⟩
    rw [if_neg h']
    simp only [if_neg h]
    exact hr

theorem applyRule_eq (op : String) (isMgmt : Bool) (ipVer : Int) {w : World} {r : IptablesRule}
    {t : String} {ts : List String} (hr : readRule w.heap r = t :: ts) :
    applyRule op isMgmt ipVer r w =
      some (addCmds (ruleCmds op isMgmt ipVer (t :: ts)) (rewriteWorld isMgmt r w)) := by
  have hread := readRule_rewriteWorld isMgmt hr
  unfold applyRule
  rw [rulePrefix_eq op isMgmt ipVer hr]
  simp only [ruleCmds]
  cases hp : selectorPrefix op isMgmt ipVer t with
  | none => simp [addCmds]
  | some p =>
    simp only [hread, dispatchCmds]
    split_ifs <;> simp [addCmds, iptableCmd, ip6tableCmd]

/-! ## Stores that differ by rewritten direction tokens -/

theorem Rewrote.refl (h : Heap) : Rewrote h h := ⟨rfl, fun _ => Or.inl rfl⟩

theorem Rewrote.trans {h0 h1 h2 : Heap} (h01 : Rewrote h0 h1) (h12 : Rewrote h1 h2) :
    Rewrote h0 h2 := by
  unfold Rewrote at h01 h12 ⊢
  refine ⟨h12.1.trans h01.1, fun i => ?_⟩
  rcases h12.2 i with e2 | e2 <;> rcases h01.2 i with e1 | e1
  · exact Or.inl (e2.trans e1)
  · exact Or.inr (e2.trans e1)
  · exact Or.inr (by rw [e2, e1])
  · refine Or.inr ?_
    rw [e2, e1]
    cases h0[i]? <;> simp

theorem rewriteWorld_rewrote (isMgmt : Bool) (r : IptablesRule) (w : World) :
    Rewrote w.heap (rewriteWorld isMgmt r w).heap := by
  unfold rewriteWorld
  split_ifs
  · refine ⟨by simp [ruleSet], fun i => ?_⟩
    simp only [ruleSet]
    by_cases hi : r.arr = i
    · subst hi
      by_cases hlt : r.arr < w.heap.length
      · refine Or.inr ?_
        rw [List.getElem?_set_self hlt, List.getD_eq_getElem?_getD, List.getElem?_eq_getElem hlt]
        simp
      · refine Or.inl ?_
        rw [List.set_eq_of_length_le (Nat.le_of_not_lt hlt)]
    · exact Or.inl (List.getElem?_set_ne hi)
  · exact Rewrote.refl _

theorem Rewrote.read_rewrote {h0 h : Heap} (hh : Rewrote h0 h) (r : IptablesRule) :
    readRule h r = readRule h0 r ∨ readRule h r = (readRule h0 r).set 0 "-o" := by
  unfold Rewrote at hh
  unfold readRule
  simp only [List.getD_eq_getElem?_getD]
  rcases hh.2 r.arr with e | e
  · exact Or.inl (by rw [e])
  · refine Or.inr ?_
    rw [e]
    cases h0[r.arr]? with
    | none => simp
    | some a =>
      simp only [Option.map_some', Option.getD_some]
      cases hl : r.len with
      | zero => simp
      | succ k => cases a <;> simp

theorem Rewrote.directed {ifname : String} {h0 h : Heap} (hh : Rewrote h0 h) {r : IptablesRule}
    (hd : Directed ifname h0 r) : Directed ifname h r := by
  unfold Rewrote at hh
  have key : ∀ t, Starts ifname h0 t r → Directed ifname h r := by
    intro t ⟨harr, hlen, htake⟩
    simp only [List.getD_eq_getElem?_getD] at htake
    rcases hh.2 r.arr with e | e
    · have : Starts ifname h t r := ⟨hh.1 ▸ harr, hlen, by
        simp only [List.getD_eq_getElem?_getD]; rw [e]; exact htake⟩
      rcases hd with hd | hd
      · have ht : t = "-i" := by
          have := hd.2.2
          simp only [List.getD_eq_getElem?_getD] at this
          rw [htake] at this
          exact (List.cons.inj this).1
        exact Or.inl (ht ▸ this)
      · have ht : t = "-o" := by
          have := hd.2.2
          simp only [List.getD_eq_getElem?_getD] at this
          rw [htake] at this
          exact (List.cons.inj this).1
        exact Or.inr (ht ▸ this)
    · refine Or.inr ⟨hh.1 ▸ harr, hlen, ?_⟩
      simp only [List.getD_eq_getElem?_getD]
      rw [e]
      cases ha : h0[r.arr]? with
      | none => rw [ha] at htake; simp at htake
      | some a =>
        rw [ha] at htake
        simp only [Option.getD_some] at htake
        simp only [Option.map_some', Option.getD_some]
        match a, htake with
        | x :: y :: rest, htake =>
          simp only [List.take_succ_cons, List.take_zero, List.cons.injEq, and_true] at htake
          simp [htake.2]
  exact hd.elim (key _) (key _)

theorem rewriteWorld_addCmds (isMgmt : Bool) (r : IptablesRule) (cs : List Cmd) (w : World) :
    rewriteWorld isMgmt r (addCmds cs w) = addCmds cs (rewriteWorld isMgmt r w) := by
  unfold rewriteWorld
  by_cases h : isMgmt = true ∧ ruleAt w.heap r 0 = some "-i"
  · have h' : isMgmt = true ∧ ruleAt (addCmds cs w).heap r 0 = some "-i" := h
    rw [if_pos h, if_pos h']
    rfl
  · have h' : ¬ (isMgmt = true ∧ ruleAt (addCmds cs w).heap r 0 = some "-i") := h
    rw [if_neg h, if_neg h']

theorem loopCmds_addCmds (op : String) (isMgmt : Bool) (ipVer : Int) (cs : List Cmd)
    (rs : IptablesRuleList) (w : World) :
    loopCmds op isMgmt ipVer (addCmds cs w) rs = loopCmds op isMgmt ipVer w rs := by
  induction rs generalizing w with
  | nil => rfl
  | cons r rs ih =>
    simp only [loopCmds, rewriteWorld_addCmds, ih]
    rfl

theorem loopWorld_addCmds (isMgmt : Bool) (cs : List Cmd) (rs : IptablesRuleList) (w : World) :
    loopWorld isMgmt (addCmds cs w) rs = addCmds cs (loopWorld isMgmt w rs) := by
  induction rs generalizing w with
  | nil => rfl
  | cons r rs ih => simp only [loopWorld, rewriteWorld_addCmds, ih]

theorem loopWorld_rewrote (isMgmt : Bool) (rs : IptablesRuleList) (w : World) :
    Rewrote w.heap (loopWorld isMgmt w rs).heap ∧ (loopWorld isMgmt w rs).cmds = w.cmds ∧
      (loopWorld isMgmt w rs).log = w.log := by
  induction rs generalizing w with
  | nil => exact ⟨Rewrote.refl _, rfl, rfl⟩
  | cons r rs ih =>
    obtain ⟨h1, h2, h3⟩ := ih (rewriteWorld isMgmt r w)
    obtain ⟨c1, c2⟩ := rewriteWorld_cmds isMgmt r w
    exact ⟨(rewriteWorld_rewrote isMgmt r w).trans h1, h2.trans c1, h3.trans c2⟩

theorem addCmds_addCmds (cs ds : List Cmd) (w : World) :
    addCmds ds (addCmds cs w) = addCmds (cs ++ ds) w := by
  simp [addCmds]

/-- A loop that runs the block for each rule of a list of directed rules
returns normally, with the invocations and the world of `loopCmds` and
`loopWorld`. -/
theorem foldlM_applyRule_eq {ifname : String} (op : String) (isMgmt : Bool) (ipVer : Int)
    (rs : IptablesRuleList) (w : World) (hd : ∀ r ∈ rs, Directed ifname w.heap r) :
    rs.foldlM (fun w1 rule => applyRule op isMgmt ipVer rule w1) w =
      some (addCmds (loopCmds op isMgmt ipVer w rs) (loopWorld isMgmt w rs)) := by
  induction rs generalizing w with
  | nil => simp [loopCmds, loopWorld, addCmds]
  | cons r rs ih =>
    obtain ⟨t, ts, hts⟩ : ∃ (t : String) (ts : List String), readRule w.heap r = t :: ts := by
      rcases hd r (List.mem_cons_self _ _) with h | h
      · obtain ⟨rest, hrest⟩ := h.read; exact ⟨_, _, hrest⟩
      · obtain ⟨rest, hrest⟩ := h.read; exact ⟨_, _, hrest⟩
    have hd' : ∀ r' ∈ rs, Directed ifname
        (addCmds (ruleCmds op isMgmt ipVer (t :: ts)) (rewriteWorld isMgmt r w)).heap r' :=
      fun r' hr' => (rewriteWorld_rewrote isMgmt r w).directed (hd r' (List.mem_cons_of_mem _ hr'))
    rw [List.foldlM_cons, applyRule_eq op isMgmt ipVer hts]
    simp only [Option.some_bind, Option.bind_eq_bind]
    rw [ih _ hd', loopCmds_addCmds, loopWorld_addCmds, addCmds_addCmds]
    simp only [loopCmds, loopWorld, hts]

/-! ## The traces of `createACLConfiglet` and `deleteACLConfiglet` -/

theorem createACLConfiglet_eq (rt : Runtime) (ifname : String) (isMgmt : Bool) (ACLs : List ACE)
    (ipVer : Int) (overlayIP : String) (w : World) :
    createACLConfiglet rt ifname isMgmt ACLs ipVer overlayIP w =
      some (addCmds (if overlayIP = "" then [] else [sideCmd "-A" ifname])
        (addCmds (loopCmds "-A" isMgmt ipVer (aclToRules rt ifname ACLs ipVer overlayIP w).1
            (aclToRules rt ifname ACLs ipVer overlayIP w).2)
          (loopWorld isMgmt (aclToRules rt ifname ACLs ipVer overlayIP w).1
            (aclToRules rt ifname ACLs ipVer overlayIP w).2))) := by
  unfold createACLConfiglet
  simp only []
  rw [foldlM_applyRule_eq "-A" isMgmt ipVer _ _ (aclToRules_directed rt ifname ACLs ipVer overlayIP w)]
  by_cases hov : overlayIP = ""
  · simp [hov, addCmds]
  · simp [hov, addCmds, ip6tableCmd, sideCmd]

theorem deleteACLConfiglet_eq (rt : Runtime) (ifname : String) (isMgmt : Bool) (ACLs : List ACE)
    (ipVer : Int) (overlayIP : String) (w : World) :
    deleteACLConfiglet rt ifname isMgmt ACLs ipVer overlayIP w =
      some (addCmds (if overlayIP = "" then [] else [sideCmd "-D" ifname])
        (addCmds (loopCmds "-D" isMgmt ipVer (aclToRules rt ifname ACLs ipVer overlayIP w).1
            (aclToRules rt ifname ACLs ipVer overlayIP w).2)
          (loopWorld isMgmt (aclToRules rt ifname ACLs ipVer overlayIP w).1
            (aclToRules rt ifname ACLs ipVer overlayIP w).2))) := by
  unfold deleteACLConfiglet
  simp only []
  rw [foldlM_applyRule_eq "-D" isMgmt ipVer _ _ (aclToRules_directed rt ifname ACLs ipVer overlayIP w)]
  by_cases hov : overlayIP = ""
  · simp [hov, addCmds]
  · simp [hov, addCmds, ip6tableCmd, sideCmd]

/-- The invocations of a loop over directed rules, read off its world: what
was issued after the invocations the starting world held. -/
theorem loop_cmds_eq (op : String) (isMgmt : Bool) (ipVer : Int) (w : World)
    (rs : IptablesRuleList) (extra : List Cmd) :
    (addCmds extra (addCmds (loopCmds op isMgmt ipVer w rs) (loopWorld isMgmt w rs))).cmds =
      w.cmds ++ loopCmds op isMgmt ipVer w rs ++ extra := by
  simp [addCmds, (loopWorld_rewrote isMgmt rs w).2.1]

/-- Every invocation of such a loop is the invocation for some directed token
sequence. -/
theorem loopCmds_mem {ifname : String} (op : String) (isMgmt : Bool) (ipVer : Int)
    (rs : IptablesRuleList) (w : World) (hd : ∀ r ∈ rs, Directed ifname w.heap r) :
    ∀ c ∈ loopCmds op isMgmt ipVer w rs, ∃ d rest, (d = "-i" ∨ d = "-o") ∧
      c ∈ ruleCmds op isMgmt ipVer (d :: ifname :: rest) := by
  induction rs generalizing w with
  | nil => intro c hc; simp [loopCmds] at hc
  | cons r rs ih =>
    intro c hc
    simp only [loopCmds, List.mem_append] at hc
    rcases hc with hc | hc
    · rcases hd r (List.mem_cons_self _ _) with h | h
      · obtain ⟨rest, hrest⟩ := h.read
        exact ⟨"-i", rest, Or.inl rfl, hrest ▸ hc⟩
      · obtain ⟨rest, hrest⟩ := h.read
        exact ⟨"-o", rest, Or.inr rfl, hrest ▸ hc⟩
    · exact ih _ (fun r' hr' => (rewriteWorld_rewrote isMgmt r w).directed
        (hd r' (List.mem_cons_of_mem _ hr'))) c hc

theorem sideCmd_not_mem_ruleCmds (op op' : String) (isMgmt : Bool) (ipVer : Int)
    (ifname ifname' d : String) (rest : List String) (hd : d = "-i" ∨ d = "-o") :
    sideCmd op' ifname' ∉ ruleCmds op isMgmt ipVer (d :: ifname :: rest) := by
  intro hmem
  cases isMgmt <;> rcases hd with rfl | rfl <;>
    simp [ruleCmds, selectorPrefix, dispatchCmds, rewrittenRule, sideCmd] at hmem <;>
    split_ifs at hmem <;> simp at hmem

theorem ruleCmds_swapOp (op : String) (isMgmt : Bool) (ipVer : Int) (ts : List String) :
    (ruleCmds op isMgmt ipVer ts).map swapOp = ruleCmds "-D" isMgmt ipVer ts := by
  cases ts with
  | nil => rfl
  | cons t rest =>
    simp only [ruleCmds, selectorPrefix, dispatchCmds]
    cases isMgmt <;> split_ifs <;> simp [swapOp]

theorem loopCmds_swapOp (op : String) (isMgmt : Bool) (ipVer : Int) (rs : IptablesRuleList)
    (w : World) :
    (loopCmds op isMgmt ipVer w rs).map swapOp = loopCmds "-D" isMgmt ipVer w rs := by
  induction rs generalizing w with
  | nil => rfl
  | cons r rs ih => simp only [loopCmds, List.map_append, ruleCmds_swapOp, ih]

theorem ruleCmds_shape (op : String) (isMgmt : Bool) {ipVer : Int} (hv : ipVer = 4 ∨ ipVer = 6)
    {d : String} (hd : d = "-i" ∨ d = "-o") (rest : List String) :
    ∃ c, ruleCmds op isMgmt ipVer (d :: rest) = [c] ∧ PerRule op ipVer (d :: rest) c := by
  cases isMgmt <;> rcases hv with rfl | rfl <;> rcases hd with rfl | rfl <;>
    simp [ruleCmds, selectorPrefix, dispatchCmds, rewrittenRule, PerRule, toolOf]

/-- On IPv4 or IPv6 a loop over directed rules issues one invocation for each
rule, in order; the rule may be read with its direction token already
rewritten by an earlier turn. -/
theorem loopCmds_perRule {ifname : String} (op : String) (isMgmt : Bool) {ipVer : Int}
    (hv : ipVer = 4 ∨ ipVer = 6) (h0 : Heap) (rs : IptablesRuleList) (w : World)
    (hh : Rewrote h0 w.heap) (hd : ∀ r ∈ rs, Directed ifname h0 r) :
    List.Forall₂ (PerRule op ipVer) (readRules h0 rs) (loopCmds op isMgmt ipVer w rs) := by
  induction rs generalizing w with
  | nil => exact List.Forall₂.nil
  | cons r rs ih =>
    have hrest := ih (rewriteWorld isMgmt r w) (hh.trans (rewriteWorld_rewrote isMgmt r w))
      (fun r' hr' => hd r' (List.mem_cons_of_mem _ hr'))
    obtain ⟨d, tl, hdir, hread⟩ : ∃ d tl, (d = "-i" ∨ d = "-o") ∧ readRule h0 r = d :: tl := by
      rcases hd r (List.mem_cons_self _ _) with h | h
      · obtain ⟨rest, hrest⟩ := h.read; exact ⟨_, _, Or.inl rfl, hrest⟩
      · obtain ⟨rest, hrest⟩ := h.read; exact ⟨_, _, Or.inr rfl, hrest⟩
    have hcur : readRule w.heap r = d :: tl ∨ readRule w.heap r = "-o" :: tl := by
      rcases hh.read_rewrote r with e | e
      · exact Or.inl (e.trans hread)
      · exact Or.inr (by rw [e, hread]; rfl)
    simp only [readRules, List.map_cons, loopCmds]
    rcases hcur with e | e
    · obtain ⟨c, hc, hp⟩ := ruleCmds_shape op isMgmt hv hdir tl
      rw [e, hc, hread]
      exact List.Forall₂.cons hp hrest
    · obtain ⟨c, hc, hp⟩ := ruleCmds_shape op isMgmt hv (Or.inr rfl : "-o" = "-i" ∨ "-o" = "-o") tl
      rw [e, hc, hread]
      refine List.Forall₂.cons ?_ hrest
      obtain ⟨htool, pre, hpre, hargs⟩ := hp
      refine ⟨htool, pre, hpre, Or.inr ?_⟩
      rcases hargs with h | h <;> simpa using h

/-! ## An interface that is not a management interface, and the chain model -/

theorem rewriteWorld_false (r : IptablesRule) (w : World) : rewriteWorld false r w = w := by
  simp [rewriteWorld]

theorem ruleCmds_underlay {ipVer : Int} (op : String) (hv : ipVer = 4 ∨ ipVer = 6) {d : String}
    (hd : d = "-i" ∨ d = "-o") (rest : List String) :
    ruleCmds op false ipVer (d :: rest) = [underlayCmd op ipVer (d :: rest)] := by
  rcases hv with rfl | rfl <;> rcases hd with rfl | rfl <;>
    simp [ruleCmds, selectorPrefix, dispatchCmds, rewrittenRule, underlayCmd, toolOf]

theorem loopCmds_underlay {ifname : String} (op : String) {ipVer : Int}
    (hv : ipVer = 4 ∨ ipVer = 6) (rs : IptablesRuleList) (w : World)
    (hd : ∀ r ∈ rs, Directed ifname w.heap r) :
    loopCmds op false ipVer w rs = (readRules w.heap rs).map (underlayCmd op ipVer) := by
  induction rs with
  | nil => rfl
  | cons r rs ih =>
    simp only [loopCmds, rewriteWorld_false, readRules, List.map_cons]
    rw [ih (fun r' hr' => hd r' (List.mem_cons_of_mem _ hr'))]
    rcases hd r (List.mem_cons_self _ _) with h | h
    · obtain ⟨rest, hrest⟩ := h.read
      rw [hrest, ruleCmds_underlay op hv (Or.inl rfl)]
      rfl
    · obtain ⟨rest, hrest⟩ := h.read
      rw [hrest, ruleCmds_underlay op hv (Or.inr rfl)]
      rfl

/-- The trace of `createACLConfiglet` on an interface that is not a management
interface: one `-A` invocation for each compiled rule, in order, then the
side-channel invocation when there is an overlay address. -/
theorem create_underlay (rt : Runtime) (ifname : String) (ACLs : List ACE) {ipVer : Int}
    (hv : ipVer = 4 ∨ ipVer = 6) (overlayIP : String) (w : World) :
    (createACLConfiglet rt ifname false ACLs ipVer overlayIP w).map (·.cmds) =
      some (w.cmds ++ (compiledRules rt ifname ACLs ipVer overlayIP).map (underlayCmd "-A" ipVer) ++
        (if overlayIP = "" then [] else [sideCmd "-A" ifname])) := by
  rw [createACLConfiglet_eq, Option.map_some', loop_cmds_eq, aclToRules_cmds,
    loopCmds_underlay "-A" hv _ _ (aclToRules_directed rt ifname ACLs ipVer overlayIP w)]
  have h := rulesOf_aclToRules rt ifname ACLs ipVer overlayIP w
  unfold rulesOf at h
  rw [h]

theorem foldl_forwardChain_append (rules : List (List String)) (chain : List (List String)) :
    (rules.map (underlayCmd "-A" 4)).foldl forwardChain chain = chain ++ rules := by
  induction rules generalizing chain with
  | nil => simp
  | cons r rs ih =>
    rw [List.map_cons, List.foldl_cons, ih]
    simp [forwardChain, underlayCmd, toolOf]

theorem foldl_forwardChain_insert (rules : List (List String)) (chain : List (List String)) :
    (rules.map (underlayCmd "-I" 4)).foldl forwardChain chain = rules.reverse ++ chain := by
  induction rules generalizing chain with
  | nil => simp
  | cons r rs ih =>
    rw [List.map_cons, List.foldl_cons, ih]
    simp [forwardChain, underlayCmd, toolOf]

theorem foldl_forwardChain_delete (rules : List (List String)) (chain : List (List String)) :
    (rules.map (underlayCmd "-D" 4)).foldl forwardChain chain = rules.foldl List.erase chain := by
  induction rules generalizing chain with
  | nil => simp
  | cons r rs ih =>
    rw [List.map_cons, List.foldl_cons, ih]
    simp [forwardChain, underlayCmd, toolOf]

theorem foldl_erase_cons_of_not_mem {α : Type} [BEq α] [LawfulBEq α] (x : α) (es l : List α)
    (hx : x ∉ es) : es.foldl List.erase (x :: l) = x :: es.foldl List.erase l := by
  induction es generalizing l with
  | nil => rfl
  | cons e es ih =>
    have hne : x ≠ e := fun h => hx (h ▸ List.mem_cons_self _ _)
    have hx' : x ∉ es := fun h => hx (List.mem_cons_of_mem _ h)
    rw [List.foldl_cons, List.foldl_cons, List.erase_cons_tail (by simpa using hne),
      ih (l.erase e) hx']

/-- Removing, one first occurrence at a time, every member of a list that
satisfies `q` leaves the members that do not satisfy `q`, in order. -/
theorem foldl_erase_filter {α : Type} [BEq α] [LawfulBEq α] (q : α → Bool) (l : List α) :
    (l.filter q).foldl List.erase l = l.filter (fun x => !q x) := by
  induction l with
  | nil => rfl
  | cons x xs ih =>
    by_cases hq : q x = true
    · rw [List.filter_cons_of_pos hq, List.foldl_cons, List.erase_cons_head, ih,
        List.filter_cons_of_neg (by simp [hq])]
    · have hx : x ∉ xs.filter q := fun h => hq (List.mem_filter.mp h).2
      rw [List.filter_cons_of_neg hq, foldl_erase_cons_of_not_mem x _ _ hx, ih,
        List.filter_cons_of_pos (by simp [hq])]

/-! ## The log and `ipsetCreatePair` do not influence the rules -/

theorem SameMem.rfl' (w : World) : SameMem w w := ⟨rfl, rfl⟩

theorem SameResult.rulesOf_eq {r r' : World × IptablesRuleList} (h : SameResult r r') :
    rulesOf r = rulesOf r' := by
  obtain ⟨⟨hh, _⟩, hr⟩ := h
  simp [rulesOf, hh, hr]

theorem newSlice_same (xs : List String) {w w' : World} (h : SameMem w w') :
    SameMem (newSlice xs w).1 (newSlice xs w').1 ∧ (newSlice xs w).2 = (newSlice xs w').2 := by
  obtain ⟨hh, hc⟩ := h
  simp [newSlice, SameMem, hh, hc]

theorem appendSlice_same {rt rt' : Runtime} (hg : rt.grow = rt'.grow) (s : IptablesRule)
    (xs : List String) {w w' : World} (h : SameMem w w') :
    SameMem (appendSlice rt s xs w).1 (appendSlice rt' s xs w').1 ∧
      (appendSlice rt s xs w).2 = (appendSlice rt' s xs w').2 := by
  obtain ⟨hh, hc⟩ := h
  by_cases hfit : s.len + xs.length ≤ s.cap <;> simp [appendSlice, SameMem, hfit, hh, hc, hg]

theorem aceMatch_tokens_rt (rt rt' : Runtime) (ifname : String) (ipVer : Int) (m : ACEMatch) :
    matchOut rt ifname ipVer m = matchOut rt' ifname ipVer m ∧
      matchIn rt ifname ipVer m = matchIn rt' ifname ipVer m := by
  unfold matchOut matchIn aceMatch
  split_ifs <;> exact ⟨rfl, rfl⟩

theorem aceMatch_same (rt rt' : Runtime) (ifname : String) (ipVer : Int) (m : ACEMatch)
    {w w' : World} (h : SameMem w w') :
    SameMem (aceMatch rt ifname ipVer m w).1 (aceMatch rt' ifname ipVer m w').1 ∧
      (aceMatch rt ifname ipVer m w).2 = (aceMatch rt' ifname ipVer m w').2 := by
  refine ⟨⟨?_, ?_⟩, ?_⟩
  · rw [aceMatch_heap, aceMatch_heap]; exact h.1
  · rw [aceMatch_cmds, aceMatch_cmds]; exact h.2
  · rw [aceMatch_tokens, aceMatch_tokens, (aceMatch_tokens_rt rt rt' ifname ipVer m).1,
      (aceMatch_tokens_rt rt rt' ifname ipVer m).2]

theorem aceMatchStep_same {rt rt' : Runtime} (hg : rt.grow = rt'.grow) (ifname : String)
    (ipVer : Int) (m : ACEMatch) {v v' : AceVars} (h : v.Same v') :
    (aceMatchStep rt ifname ipVer v m).Same (aceMatchStep rt' ifname ipVer v' m) := by
  obtain ⟨hw, ho, hi, hd, hl⟩ := h
  obtain ⟨m1, m2⟩ := aceMatch_same rt rt' ifname ipVer m hw
  have a1 := appendSlice_same hg v.outArgs (aceMatch rt ifname ipVer m v.w).2.1 m1
  have a2 := appendSlice_same hg v.inArgs (aceMatch rt ifname ipVer m v.w).2.2 a1.1
  unfold aceMatchStep
  simp only [← m2, ← ho, ← hi]
  exact ⟨a2.1, a1.2, a2.2, hd, hl⟩

theorem aceActionStep_same {rt rt' : Runtime} (hg : rt.grow = rt'.grow) (a : ACEAction)
    {v v' : AceVars} (h : v.Same v') :
    (aceActionStep rt v a).Same (aceActionStep rt' v' a) := by
  obtain ⟨hw, ho, hi, hd, hl⟩ := h
  have a1 := appendSlice_same hg v.outArgs (limitArgs a) hw
  have a2 := appendSlice_same hg v.inArgs (limitArgs a) a1.1
  unfold aceActionStep
  split_ifs
  · exact ⟨hw, ho, hi, rfl, hl⟩
  · simp only [← ho, ← hi]
    exact ⟨a2.1, a1.2, a2.2, hd, rfl⟩
  · exact ⟨hw, ho, hi, hd, hl⟩

theorem foldl_aceMatchStep_same {rt rt' : Runtime} (hg : rt.grow = rt'.grow) (ifname : String)
    (ipVer : Int) (ms : List ACEMatch) {v v' : AceVars} (h : v.Same v') :
    (ms.foldl (aceMatchStep rt ifname ipVer) v).Same (ms.foldl (aceMatchStep rt' ifname ipVer) v') := by
  induction ms generalizing v v' with
  | nil => exact h
  | cons m ms ih => exact ih (aceMatchStep_same hg ifname ipVer m h)

theorem foldl_aceActionStep_same {rt rt' : Runtime} (hg : rt.grow = rt'.grow)
    (as : List ACEAction) {v v' : AceVars} (h : v.Same v') :
    (as.foldl (aceActionStep rt) v).Same (as.foldl (aceActionStep rt') v') := by
  induction as generalizing v v' with
  | nil => exact h
  | cons a as ih => exact ih (aceActionStep_same hg a h)

theorem aceEmit_same {rt rt' : Runtime} (hg : rt.grow = rt'.grow) {v1 v1' v2 v2' : AceVars}
    (h1 : v1.Same v1') (h2 : v2.Same v2') :
    SameResult (aceEmit rt v1 v2) (aceEmit rt' v1' v2') := by
  obtain ⟨-, uo, ui, -, -⟩ := h1
  obtain ⟨hw, ho, hi, hd, hl⟩ := h2
  unfold aceEmit
  simp only [← uo, ← ui, ← ho, ← hi, ← hd, ← hl]
  generalize (if v2.foundDrop = true then "DROP" else "ACCEPT") = target
  have a1 := appendSlice_same hg v2.outArgs ["-j", target] hw
  have a2 := appendSlice_same hg v2.inArgs ["-j", target] a1.1
  have a3 := appendSlice_same hg v1.outArgs ["-j", "DROP"] a2.1
  have a4 := appendSlice_same hg v1.inArgs ["-j", "DROP"] a3.1
  split_ifs
  · exact ⟨a4.1, by simp only [a1.2, a2.2, a3.2, a4.2]⟩
  · exact ⟨a2.1, by simp only [a1.2, a2.2]⟩

theorem aceInit_same (ifname : String) {w w' : World} (h : SameMem w w') :
    (aceInit ifname w).Same (aceInit ifname w') := by
  have a1 := newSlice_same ["-i", ifname] h
  have a2 := newSlice_same ["-o", ifname] a1.1
  exact ⟨a2.1, a1.2, a2.2, rfl, rfl⟩

/-- Two runs of `aceToRules` whose runtimes pick the same capacities and whose
starting worlds differ in the log only return the same slice headers over the
same store. -/
theorem aceToRules_same {rt rt' : Runtime} (hg : rt.grow = rt'.grow) (ifname : String) (ace : ACE)
    (ipVer : Int) {w w' : World} (h : SameMem w w') :
    SameResult (aceToRules rt ifname ace ipVer w) (aceToRules rt' ifname ace ipVer w') := by
  rw [aceToRules_eq, aceToRules_eq]
  have h1 := foldl_aceMatchStep_same hg ifname ipVer ace.Matches (aceInit_same ifname h)
  exact aceEmit_same hg h1 (foldl_aceActionStep_same hg ace.Actions h1)

theorem foldl_aclStep_same {rt rt' : Runtime} (hg : rt.grow = rt'.grow) (ifname : String)
    (ipVer : Int) (acls : List ACE) {st st' : World × IptablesRuleList} (h : SameResult st st') :
    SameResult (acls.foldl (aclStep rt ifname ipVer) st) (acls.foldl (aclStep rt' ifname ipVer) st') := by
  induction acls generalizing st st' with
  | nil => exact h
  | cons a acls ih =>
    apply ih
    have ha := aceToRules_same hg ifname a ipVer h.1
    exact ⟨ha.1, by simp only [aclStep, h.2, ha.2]⟩

theorem overlayRules_same (ifname overlayIP : String) {w w' : World} (h : SameMem w w') :
    SameResult (overlayRules ifname overlayIP w) (overlayRules ifname overlayIP w') := by
  have a1 := newSlice_same ["-i", ifname, "-m", "set", "--match-set", "local.ipv6", "dst",
    "-j", "ACCEPT"] h
  have a2 := newSlice_same ["-i", ifname, "-m", "set", "--match-set", "local.ipv6", "src",
    "-j", "ACCEPT"] a1.1
  have a3 := newSlice_same ["-i", ifname, "-d", overlayIP, "-j", "ACCEPT"] a2.1
  have a4 := newSlice_same ["-i", ifname, "-s", overlayIP, "-j", "ACCEPT"] a3.1
  exact ⟨a4.1, by simp only [overlayRules, a1.2, a2.2, a3.2, a4.2]⟩

theorem aclToRules_same {rt rt' : Runtime} (hg : rt.grow = rt'.grow) (ifname : String)
    (acls : List ACE) (ipVer : Int) (overlayIP : String) {w w' : World} (h : SameMem w w') :
    SameResult (aclToRules rt ifname acls ipVer overlayIP w)
      (aclToRules rt' ifname acls ipVer overlayIP w') := by
  have h0 : SameResult (if overlayIP ≠ "" then overlayRules ifname overlayIP w else (w, []))
      (if overlayIP ≠ "" then overlayRules ifname overlayIP w' else (w', [])) := by
    split_ifs
    · exact overlayRules_same ifname overlayIP h
    · exact ⟨h, rfl⟩
  have h1 := foldl_aclStep_same hg ifname ipVer acls h0
  have a1 := newSlice_same ["-i", ifname, "-j", "DROP"] h1.1
  have a2 := newSlice_same ["-o", ifname, "-j", "DROP"] a1.1
  exact ⟨a2.1, by simp only [aclToRules, h1.2, a1.2, a2.2]⟩

/-- A match of a type the `switch` does not know leaves the accumulators and
the store as they are; only a line is logged. -/
theorem aceMatchStep_unknown (rt : Runtime) (ifname : String) (ipVer : Int) (m : ACEMatch)
    (hm : m.Typ ∉ ["ip", "protocol", "fport", "lport", "host", "eidset"]) {v : AceVars}
    (hv : v.Sep) : (aceMatchStep rt ifname ipVer v m).Same v := by
  simp only [List.mem_cons, List.mem_singleton, List.not_mem_nil, or_false, not_or] at hm
  obtain ⟨h1, h2, h3, h4, h5, h6⟩ := hm
  obtain ⟨⟨_, hol, _⟩, ⟨_, hil, _⟩, _⟩ := hv
  have hset : ∀ (h : Heap) (i : Nat), h.set i (h[i]?.getD []) = h := by
    intro h i
    apply List.ext_getElem?
    intro j
    rw [List.getElem?_set]
    by_cases hij : i = j
    · subst hij
      by_cases hi : i < h.length
      · simp [hi, List.getElem?_eq_getElem hi]
      · simp [hi, List.getElem?_eq_none (Nat.le_of_not_lt hi)]
    · simp [hij]
  simp [aceMatchStep, aceMatch, h1, h2, h3, h4, h5, h6, appendSlice, hol, hil, logPrintln,
    AceVars.Same, SameMem]
  rw [hset, hset]

theorem selectorPrefix_directed (op : String) (isMgmt : Bool) (ipVer : Int) {t : String}
    (ht : t = "-i" ∨ t = "-o") : ∃ args, selectorPrefix op isMgmt ipVer t = some args := by
  cases isMgmt <;> rcases ht with rfl | rfl <;> by_cases hv : ipVer = 6 <;>
    simp [selectorPrefix, hv]

/-! ## Pair symmetry -/

theorem SwapTok.same (a : String) : SwapTok a a := Or.inl rfl

theorem forall₂_swapTok_same (xs : List String) : List.Forall₂ SwapTok xs xs :=
  List.forall₂_same.mpr (fun a _ => SwapTok.same a)

theorem Linked.symm {o i u u' : IptablesRule} (h : Linked o i u u') : Linked u u' o i := by
  rcases h with ⟨h1, h2⟩ | ⟨h1, h2, h3, h4⟩
  · exact Or.inl ⟨h1.symm, h2.symm⟩
  · exact Or.inr ⟨Ne.symm h1, Ne.symm h3, Ne.symm h2, Ne.symm h4⟩

theorem PairOk.read_pair {h : Heap} {o i : IptablesRule} (hp : PairOk h o i) :
    List.Forall₂ SwapTok (readRule h o) (readRule h i) := by
  obtain ⟨_, _, _, hlen, _, hf⟩ := hp
  unfold readRule
  rw [hlen]
  exact List.forall₂_take _ hf

/-- Appending paired tokens to a pair of slices keeps the pair symmetric, and
keeps symmetric every other pair that shares both arrays with it or none. -/
theorem pair_append {w : World} {o i u u' : IptablesRule} (rt : Runtime) {xo xi : List String}
    (hx : List.Forall₂ SwapTok xo xi) (hp : PairOk w.heap o i) (hq : PairOk w.heap u u')
    (hl : Linked o i u u') :
    PairOk (appendSlice rt i xi (appendSlice rt o xo w).1).1.heap (appendSlice rt o xo w).2
        (appendSlice rt i xi (appendSlice rt o xo w).1).2 ∧
      PairOk (appendSlice rt i xi (appendSlice rt o xo w).1).1.heap u u' ∧
      Linked (appendSlice rt o xo w).2 (appendSlice rt i xi (appendSlice rt o xo w).1).2 u u' := by
  have hxl := hx.length_eq
  have hr := hp.read_pair
  obtain ⟨ho, hi, hne, hlen, hcap, hf⟩ := hp
  obtain ⟨hu, hu', hune, hulen, hucap, huf⟩ := hq
  by_cases hfit : o.len + xo.length ≤ o.cap
  · have hfit' : i.len + xi.length ≤ i.cap := by omega
    simp only [appendSlice, hfit, hfit', if_true]
    have hB : (w.heap.set o.arr (List.take o.len (w.heap.getD o.arr []) ++ xo ++
        List.drop (o.len + xo.length) (w.heap.getD o.arr []))).getD i.arr [] =
        w.heap.getD i.arr [] := by
      rw [List.getD_eq_getElem?_getD, List.getElem?_set_ne hne, ← List.getD_eq_getElem?_getD]
    rw [hB]
    have hnew : List.Forall₂ SwapTok
        (List.take o.len (w.heap.getD o.arr []) ++ xo ++
          List.drop (o.len + xo.length) (w.heap.getD o.arr []))
        (List.take i.len (w.heap.getD i.arr []) ++ xi ++
          List.drop (i.len + xi.length) (w.heap.getD i.arr [])) := by
      rw [← hlen, ← hxl]
      exact List.rel_append (List.rel_append (List.forall₂_take _ hf) hx) (List.forall₂_drop _ hf)
    have hgo : ∀ (X Y : List String),
        ((w.heap.set o.arr X).set i.arr Y).getD o.arr [] = X := by
      intro X Y
      rw [List.getD_eq_getElem?_getD, List.getElem?_set_ne (Ne.symm hne),
        List.getElem?_set_self ho]
      rfl
    have hgi : ∀ (X Y : List String),
        ((w.heap.set o.arr X).set i.arr Y).getD i.arr [] = Y := by
      intro X Y
      rw [List.getD_eq_getElem?_getD, List.getElem?_set_self (by simpa using hi)]
      rfl
    have hgn : ∀ (X Y : List String) (k : Nat), k ≠ o.arr → k ≠ i.arr →
        ((w.heap.set o.arr X).set i.arr Y).getD k [] = w.heap.getD k [] := by
      intro X Y k h1 h2
      rw [List.getD_eq_getElem?_getD, List.getElem?_set_ne (Ne.symm h2),
        List.getElem?_set_ne (Ne.symm h1), ← List.getD_eq_getElem?_getD]
    refine ⟨⟨by simpa using ho, by simpa using hi, hne, by simp only; omega, hcap, ?_⟩,
      ⟨by simpa using hu, by simpa using hu', hune, hulen, hucap, ?_⟩, hl⟩
    · simp only [hgo, hgi]
      exact hnew
    · rcases hl with ⟨h1, h2⟩ | ⟨h1, h2, h3, h4⟩
      · rw [h1, h2, hgo, hgi]
        exact hnew
      · rw [hgn _ _ _ h1 h2, hgn _ _ _ h3 h4]
        exact huf
  · have hfit' : ¬ i.len + xi.length ≤ i.cap := by omega
    have hri : readRule (w.heap ++ [readRule w.heap o ++ xo ++
        List.replicate (max (o.len + xo.length) (rt.grow o.cap (o.len + xo.length)) -
          (o.len + xo.length)) ""]) i = readRule w.heap i := readRule_append_left hi _
    simp only [appendSlice, hfit, hfit', if_false, hri]
    have hgl : ∀ (X Y : List String) (k : Nat), k < w.heap.length →
        (w.heap ++ [X] ++ [Y]).getD k [] = w.heap.getD k [] := by
      intro X Y k hk
      rw [List.append_assoc, List.getD_append _ _ _ _ hk]
    have hg1 : ∀ (X Y : List String), (w.heap ++ [X] ++ [Y]).getD w.heap.length [] = X := by
      intro X Y
      rw [List.append_assoc, List.getD_eq_getElem?_getD, List.getElem?_append_right (le_refl _)]
      simp
    have hg2 : ∀ (X Y : List String), (w.heap ++ [X] ++ [Y]).getD (w.heap.length + 1) [] = Y := by
      intro X Y
      rw [List.getD_eq_getElem?_getD, List.getElem?_append_right (by simp)]
      simp
    refine ⟨⟨by simp, by simp, by simp, by simp only; omega, by simp only; rw [hlen, hcap, hxl], ?_⟩,
      ⟨by simp; omega, by simp; omega, hune, hulen, hucap, ?_⟩, Or.inr ⟨?_, ?_, ?_, ?_⟩⟩
    · simp only [List.length_append, List.length_singleton, hg1, hg2]
      rw [← hlen, ← hcap, ← hxl]
      exact List.rel_append (List.rel_append hr hx) (forall₂_swapTok_same _)
    · rw [hgl _ _ _ hu, hgl _ _ _ hu']
      exact huf
    · simp only; omega
    · simp only [List.length_append, List.length_singleton]; omega
    · simp only; omega
    · simp only [List.length_append, List.length_singleton]; omega

theorem Linked.self (o i : IptablesRule) : Linked o i o i := Or.inl ⟨rfl, rfl⟩

theorem aceMatch_swap (rt : Runtime) (ifname : String) (ipVer : Int) (m : ACEMatch) (w : World) :
    List.Forall₂ SwapTok (aceMatch rt ifname ipVer m w).2.1 (aceMatch rt ifname ipVer m w).2.2 := by
  unfold aceMatch
  split_ifs <;>
    simp [SwapTok]

theorem limitArgs_swap (a : ACEAction) : List.Forall₂ SwapTok (limitArgs a) (limitArgs a) :=
  forall₂_swapTok_same _

theorem getD_two_left (h : Heap) (X Y : List String) :
    (h ++ [X] ++ [Y]).getD h.length [] = X := by
  rw [List.append_assoc, List.getD_eq_getElem?_getD, List.getElem?_append_right (le_refl _)]
  simp

theorem getD_two_right (h : Heap) (X Y : List String) :
    (h ++ [X] ++ [Y]).getD (h.length + 1) [] = Y := by
  rw [List.getD_eq_getElem?_getD, List.getElem?_append_right (by simp)]
  simp

theorem aceInit_pair (ifname : String) (w : World) :
    PairOk (aceInit ifname w).w.heap (aceInit ifname w).outArgs (aceInit ifname w).inArgs := by
  simp only [aceInit, newSlice, PairOk, List.length_append, List.length_singleton]
  refine ⟨by omega, by omega, by omega, rfl, rfl, ?_⟩
  rw [getD_two_left, getD_two_right]
  simp [SwapTok]

theorem aceMatchStep_pair (rt : Runtime) (ifname : String) (ipVer : Int) (m : ACEMatch)
    {v : AceVars} (hv : PairOk v.w.heap v.outArgs v.inArgs) :
    PairOk (aceMatchStep rt ifname ipVer v m).w.heap (aceMatchStep rt ifname ipVer v m).outArgs
      (aceMatchStep rt ifname ipVer v m).inArgs := by
  have hv1 : PairOk (aceMatch rt ifname ipVer m v.w).1.heap v.outArgs v.inArgs := by
    rw [aceMatch_heap]; exact hv
  exact (pair_append rt (aceMatch_swap rt ifname ipVer m v.w) hv1 hv1 (Linked.self _ _)).1

theorem foldl_aceMatchStep_pair (rt : Runtime) (ifname : String) (ipVer : Int)
    (ms : List ACEMatch) {v : AceVars} (hv : PairOk v.w.heap v.outArgs v.inArgs) :
    PairOk (ms.foldl (aceMatchStep rt ifname ipVer) v).w.heap
      (ms.foldl (aceMatchStep rt ifname ipVer) v).outArgs
      (ms.foldl (aceMatchStep rt ifname ipVer) v).inArgs := by
  induction ms generalizing v with
  | nil => exact hv
  | cons m ms ih => exact ih (aceMatchStep_pair rt ifname ipVer m hv)

theorem aceActionStep_pair (rt : Runtime) (a : ACEAction) {v : AceVars} {u u' : IptablesRule}
    (hv : PairOk v.w.heap v.outArgs v.inArgs) (hq : PairOk v.w.heap u u')
    (hl : Linked v.outArgs v.inArgs u u') :
    PairOk (aceActionStep rt v a).w.heap (aceActionStep rt v a).outArgs
        (aceActionStep rt v a).inArgs ∧
      PairOk (aceActionStep rt v a).w.heap u u' ∧
      Linked (aceActionStep rt v a).outArgs (aceActionStep rt v a).inArgs u u' := by
  unfold aceActionStep
  split_ifs
  · exact ⟨hv, hq, hl⟩
  · exact pair_append rt (limitArgs_swap a) hv hq hl
  · exact ⟨hv, hq, hl⟩

theorem foldl_aceActionStep_pair (rt : Runtime) (as : List ACEAction) {v : AceVars}
    {u u' : IptablesRule}
    (hv : PairOk v.w.heap v.outArgs v.inArgs) (hq : PairOk v.w.heap u u')
    (hl : Linked v.outArgs v.inArgs u u') :
    PairOk (as.foldl (aceActionStep rt) v).w.heap (as.foldl (aceActionStep rt) v).outArgs
        (as.foldl (aceActionStep rt) v).inArgs ∧
      PairOk (as.foldl (aceActionStep rt) v).w.heap u u' ∧
      Linked (as.foldl (aceActionStep rt) v).outArgs (as.foldl (aceActionStep rt) v).inArgs
        u u' := by
  induction as generalizing v with
  | nil => exact ⟨hv, hq, hl⟩
  | cons a as ih =>
    obtain ⟨h1, h2, h3⟩ := aceActionStep_pair rt a hv hq hl
    exact ih h1 h2 h3

/-- The rules `aceEmit` returns are one or two symmetric pairs. -/
theorem aceEmit_pair (rt : Runtime) {v1 v2 : AceVars}
    (hv : PairOk v2.w.heap v2.outArgs v2.inArgs) (hq : PairOk v2.w.heap v1.outArgs v1.inArgs)
    (hl : Linked v2.outArgs v2.inArgs v1.outArgs v1.inArgs) :
    (∃ a b, (aceEmit rt v1 v2).2 = [a, b] ∧ PairOk (aceEmit rt v1 v2).1.heap a b) ∨
    (∃ a b c d, (aceEmit rt v1 v2).2 = [a, b, c, d] ∧ PairOk (aceEmit rt v1 v2).1.heap a b ∧
      PairOk (aceEmit rt v1 v2).1.heap c d) := by
  have h3 := pair_append rt (forall₂_swapTok_same ["-j", if v2.foundDrop then "DROP" else "ACCEPT"])
    hv hq hl
  obtain ⟨ha, hb, hc⟩ := h3
  by_cases hf : v2.foundLimit = true
  · obtain ⟨hd, he, _⟩ := pair_append rt (forall₂_swapTok_same ["-j", "DROP"]) hb ha hc.symm
    simp only [aceEmit, hf, if_true]
    exact Or.inr ⟨_, _, _, _, rfl, he, hd⟩
  · simp only [aceEmit, hf]
    exact Or.inl ⟨_, _, rfl, ha⟩

theorem aceToRules_pair (rt : Runtime) (ifname : String) (ace : ACE) (ipVer : Int) (w : World) :
    (∃ a b, (aceToRules rt ifname ace ipVer w).2 = [a, b] ∧
      PairOk (aceToRules rt ifname ace ipVer w).1.heap a b) ∨
    (∃ a b c d, (aceToRules rt ifname ace ipVer w).2 = [a, b, c, d] ∧
      PairOk (aceToRules rt ifname ace ipVer w).1.heap a b ∧
      PairOk (aceToRules rt ifname ace ipVer w).1.heap c d) := by
  rw [aceToRules_eq]
  have h1 : PairOk (aceAfterMatches rt ifname ace ipVer w).w.heap
      (aceAfterMatches rt ifname ace ipVer w).outArgs
      (aceAfterMatches rt ifname ace ipVer w).inArgs :=
    foldl_aceMatchStep_pair rt ifname ipVer ace.Matches (aceInit_pair ifname w)
  obtain ⟨h2, h3, h4⟩ := foldl_aceActionStep_pair rt ace.Actions h1 h1 (Linked.self _ _)
  exact aceEmit_pair rt h2 h3 h4

theorem Starts.head {ifname : String} {h : Heap} {t : String} {r : IptablesRule}
    (hs : Starts ifname h t r) : (readRule h r).head? = some t := by
  obtain ⟨rest, hrest⟩ := hs.read
  rw [hrest]
  rfl

/-! ## The loops of the reconciler, with shared backing arrays -/

theorem readRule_congr {h h' : Heap} {r : IptablesRule} (he : h'[r.arr]? = h[r.arr]?) :
    readRule h' r = readRule h r := by
  unfold readRule
  rw [List.getD_eq_getElem?_getD, List.getD_eq_getElem?_getD, he]

theorem readRules_congr {h h' : Heap} {rs : IptablesRuleList}
    (he : ∀ r ∈ rs, h'[r.arr]? = h[r.arr]?) : readRules h' rs = readRules h rs := by
  unfold readRules
  exact List.map_congr_left (fun r hr => readRule_congr (he r hr))

theorem rewriteWorld_frame (isMgmt : Bool) (r : IptablesRule) (w : World) {k : Nat}
    (hk : r.arr ≠ k) : (rewriteWorld isMgmt r w).heap[k]? = w.heap[k]? := by
  unfold rewriteWorld
  split_ifs
  · simp only [ruleSet]
    exact List.getElem?_set_ne hk
  · rfl

/-- A loop of the reconciler over directed rules whose backing arrays are not
those of the rules of the other list: it returns normally, only rewrites first
tokens in arrays of the rules it ranges over, leaves the array of a rule alone
that shares it with no other rule and occurs in the other list, and every
invocation it issues is the one for a directed rule that is not in the other
list. -/
theorem upd_loop {ifname : String} (op : String) (isMgmt : Bool) (ipVer : Int)
    (others rs : IptablesRuleList) (w : World)
    (hd : ∀ r ∈ rs, Directed ifname w.heap r)
    (hfr : ∀ r ∈ rs, ∀ o ∈ others, r.arr ≠ o.arr) :
    ∃ w' cs, rs.foldlM (updateStep op isMgmt ipVer others) w = some w' ∧
      w'.cmds = w.cmds ++ cs ∧
      Rewrote w.heap w'.heap ∧
      (∀ k : Nat, (∀ r ∈ rs, r.arr ≠ k) → w'.heap[k]? = w.heap[k]?) ∧
      (∀ d : IptablesRule, (∀ r ∈ rs, r.arr = d.arr → r = d) →
        readRule w.heap d ∈ readRules w.heap others → w'.heap[d.arr]? = w.heap[d.arr]?) ∧
      ∀ c ∈ cs, ∃ t, t ∉ readRules w.heap others ∧
        (∃ d rest, (d = "-i" ∨ d = "-o") ∧ t = d :: ifname :: rest) ∧
        c ∈ ruleCmds op isMgmt ipVer t := by
  induction rs generalizing w with
  | nil =>
    exact ⟨w, [], rfl, by simp, Rewrote.refl _, fun _ _ => rfl, fun _ _ _ => rfl,
      fun c hc => absurd hc (List.not_mem_nil c)⟩
  | cons r rs ih =>
    have hdr := hd r (List.mem_cons_self _ _)
    rw [List.foldlM_cons]
    by_cases hr : readRule w.heap r ∈ readRules w.heap others
    · have hstep : updateStep op isMgmt ipVer others w r = some w := by
        simp [updateStep, containsRule_eq, hr]
      rw [hstep]
      obtain ⟨w', cs, h1, h2, h3, h4, h5, h6⟩ := ih w
        (fun r' hr' => hd r' (List.mem_cons_of_mem _ hr'))
        (fun r' hr' => hfr r' (List.mem_cons_of_mem _ hr'))
      exact ⟨w', cs, h1, h2, h3,
        fun k hk => h4 k (fun r' hr' => hk r' (List.mem_cons_of_mem _ hr')),
        fun d hs hin => h5 d (fun r' hr' => hs r' (List.mem_cons_of_mem _ hr')) hin, h6⟩
    · obtain ⟨t, rest, ht, hts⟩ : ∃ (t : String) (rest : List String), (t = "-i" ∨ t = "-o") ∧
          readRule w.heap r = t :: ifname :: rest := by
        rcases hdr with h | h
        · obtain ⟨rest, hrest⟩ := h.read; exact ⟨_, _, Or.inl rfl, hrest⟩
        · obtain ⟨rest, hrest⟩ := h.read; exact ⟨_, _, Or.inr rfl, hrest⟩
      have hstep : updateStep op isMgmt ipVer others w r =
          some (addCmds (ruleCmds op isMgmt ipVer (t :: ifname :: rest))
            (rewriteWorld isMgmt r w)) := by
        have hdec : decide (t :: ifname :: rest ∈ readRules w.heap others) = false := by
          rw [← hts]; simpa using hr
        simp only [updateStep, containsRule_eq, hts, hdec]
        exact applyRule_eq op isMgmt ipVer hts
      rw [hstep]
      simp only [Option.some_bind, Option.bind_eq_bind]
      have hheap : (addCmds (ruleCmds op isMgmt ipVer (t :: ifname :: rest))
          (rewriteWorld isMgmt r w)).heap = (rewriteWorld isMgmt r w).heap := rfl
      have hrw := rewriteWorld_rewrote isMgmt r w
      have hothers : readRules (rewriteWorld isMgmt r w).heap others = readRules w.heap others :=
        readRules_congr (fun o ho => rewriteWorld_frame isMgmt r w
          (hfr r (List.mem_cons_self _ _) o ho))
      obtain ⟨w', cs, h1, h2, h3, h4, h5, h6⟩ := ih
        (addCmds (ruleCmds op isMgmt ipVer (t :: ifname :: rest)) (rewriteWorld isMgmt r w))
        (fun r' hr' => hrw.directed (hd r' (List.mem_cons_of_mem _ hr')))
        (fun r' hr' => hfr r' (List.mem_cons_of_mem _ hr'))
      rw [hheap] at h3 h4 h5 h6
      rw [hothers] at h5 h6
      refine ⟨w', ruleCmds op isMgmt ipVer (t :: ifname :: rest) ++ cs, h1, ?_, hrw.trans h3,
        ?_, ?_, ?_⟩
      · rw [h2]
        simp [addCmds, (rewriteWorld_cmds isMgmt r w).1]
      · intro k hk
        rw [h4 k (fun r' hr' => hk r' (List.mem_cons_of_mem _ hr'))]
        exact rewriteWorld_frame isMgmt r w (hk r (List.mem_cons_self _ _))
      · intro d hs hin
        have hne : r.arr ≠ d.arr := by
          intro he
          have hrd := hs r (List.mem_cons_self _ _) he
          rw [hrd] at hr
          exact hr hin
        have hfd := rewriteWorld_frame isMgmt r w hne
        rw [h5 d (fun r' hr' => hs r' (List.mem_cons_of_mem _ hr'))
          (by rw [readRule_congr hfd]; exact hin)]
        exact hfd
      · intro c hc
        rcases List.mem_append.mp hc with hc | hc
        · exact ⟨t :: ifname :: rest, by rw [← hts]; exact hr, ⟨t, rest, ht, rfl⟩, hc⟩
        · exact h6 c hc

/-- The invocation for a directed rule determines the rule. -/
theorem ruleCmds_inj {op op' : String} {isMgmt : Bool} {ipVer : Int} {d d' : String}
    {ts ts' : List String} (hd : d = "-i" ∨ d = "-o") (hd' : d' = "-i" ∨ d' = "-o") {c : Cmd}
    (hc : c ∈ ruleCmds op isMgmt ipVer (d :: ts)) (hc' : c ∈ ruleCmds op' isMgmt ipVer (d' :: ts')) :
    d :: ts = d' :: ts' := by
  by_cases h4 : ipVer = 4
  · subst h4
    cases isMgmt <;> rcases hd with rfl | rfl <;> rcases hd' with rfl | rfl <;>
      simp [ruleCmds, selectorPrefix, dispatchCmds, rewrittenRule] at hc hc' <;>
      (subst hc; simp at hc'; try simp [hc'])
  · by_cases h6 : ipVer = 6
    · subst h6
      cases isMgmt <;> rcases hd with rfl | rfl <;> rcases hd' with rfl | rfl <;>
        simp [ruleCmds, selectorPrefix, dispatchCmds, rewrittenRule] at hc hc' <;>
        (subst hc; simp at hc'; try simp [hc'])
    · cases isMgmt <;> rcases hd with rfl | rfl <;>
        simp [ruleCmds, selectorPrefix, dispatchCmds, rewrittenRule, h4, h6] at hc

/-! ## Where the compiler puts the rules of every ACL -/

/-- The loop of `aclToRules` over the ACEs only adds arrays to the store and
rules to the list, and the rules it adds live in arrays it added. -/
theorem foldl_aclStep_fresh (rt : Runtime) (ifname : String) (ipVer : Int) (acls : List ACE)
    (st : World × IptablesRuleList) :
    ∃ (f : Heap) (more : IptablesRuleList),
      (acls.foldl (aclStep rt ifname ipVer) st).1.heap = st.1.heap ++ f ∧
      (acls.foldl (aclStep rt ifname ipVer) st).2 = st.2 ++ more ∧
      ∀ r ∈ more, st.1.heap.length ≤ r.arr := by
  induction acls generalizing st with
  | nil => exact ⟨[], [], by simp, by simp, fun r hr => absurd hr (List.not_mem_nil r)⟩
  | cons ace acls ih =>
    obtain ⟨f, more, h1, h2, h3⟩ := ih (aclStep rt ifname ipVer st ace)
    have hstep : aclStep rt ifname ipVer st ace =
        ((st.1.over (aceToRules rt ifname ace ipVer World.empty).1),
          st.2 ++ (aceToRules rt ifname ace ipVer World.empty).2.map (shiftRule st.1.heap.length)) := by
      simp only [aclStep]
      rw [aceToRules_eq_over]
      rfl
    rw [List.foldl_cons, h1, h2, hstep]
    refine ⟨(aceToRules rt ifname ace ipVer World.empty).1.heap ++ f,
      (aceToRules rt ifname ace ipVer World.empty).2.map (shiftRule st.1.heap.length) ++ more,
      by simp [World.over], by simp, ?_⟩
    intro r hr
    rcases List.mem_append.mp hr with hr | hr
    · obtain ⟨r0, _, rfl⟩ := List.mem_map.mp hr
      simp [shiftRule]
    · have := h3 r hr
      rw [hstep] at this
      simp only [World.over, List.length_append] at this
      omega

/-- Each overlay allow rule is a rule of `overlayRules` that shares its
backing array with no other rule of the list. -/
theorem overlayRules_solo (ifname overlayIP : String) (w : World) :
    ∀ p ∈ overlayTokens ifname overlayIP, ∃ d ∈ (overlayRules ifname overlayIP w).2,
      readRule (overlayRules ifname overlayIP w).1.heap d = p ∧
      d.arr < (overlayRules ifname overlayIP w).1.heap.length ∧
      ∀ r ∈ (overlayRules ifname overlayIP w).2, r.arr = d.arr → r = d := by
  intro p hp
  have hread := rulesOf_overlayRules ifname overlayIP w
  unfold rulesOf readRules at hread
  rw [← hread] at hp
  obtain ⟨d, hd, hdp⟩ := List.mem_map.mp hp
  refine ⟨d, hd, hdp, (overlayRules_directed ifname overlayIP w d hd).arr_lt, ?_⟩
  intro r hr he
  simp only [overlayRules, newSlice, List.length_append, List.length_singleton, List.mem_cons,
    List.mem_singleton, List.not_mem_nil, or_false] at hr hd
  rcases hd with rfl | rfl | rfl | rfl <;> rcases hr with rfl | rfl | rfl | rfl <;>
    first
    | rfl
    | (simp only at he; omega)

/-- Each protected rule is a rule of the compiled list that shares its backing
array with no other rule of the list. -/
theorem aclToRules_protected (rt : Runtime) (ifname : String) (acls : List ACE) (ipVer : Int)
    (overlayIP : String) (w : World) :
    ∀ p ∈ protectedTokens ifname overlayIP,
      ∃ d ∈ (aclToRules rt ifname acls ipVer overlayIP w).2,
        readRule (aclToRules rt ifname acls ipVer overlayIP w).1.heap d = p ∧
        ∀ r ∈ (aclToRules rt ifname acls ipVer overlayIP w).2, r.arr = d.arr → r = d := by
  intro p hp
  obtain ⟨st0, hst0, hdir0, hov⟩ : ∃ st0 : World × IptablesRuleList,
      aclToRules rt ifname acls ipVer overlayIP w =
        ((newSlice ["-o", ifname, "-j", "DROP"] (newSlice ["-i", ifname, "-j", "DROP"]
            (acls.foldl (aclStep rt ifname ipVer) st0).1).1).1,
          (acls.foldl (aclStep rt ifname ipVer) st0).2 ++
            [(newSlice ["-i", ifname, "-j", "DROP"]
                (acls.foldl (aclStep rt ifname ipVer) st0).1).2,
             (newSlice ["-o", ifname, "-j", "DROP"] (newSlice ["-i", ifname, "-j", "DROP"]
                (acls.foldl (aclStep rt ifname ipVer) st0).1).1).2]) ∧
      AllDirected ifname st0 ∧
      (overlayIP ≠ "" → ∀ q ∈ overlayTokens ifname overlayIP, ∃ d ∈ st0.2,
        readRule st0.1.heap d = q ∧ d.arr < st0.1.heap.length ∧
        ∀ r ∈ st0.2, r.arr = d.arr → r = d) := by
    by_cases hov : overlayIP = ""
    · refine ⟨(w, []), by simp [aclToRules, hov], ?_, fun h => absurd hov h⟩
      intro r hr
      exact absurd hr (List.not_mem_nil r)
    · exact ⟨overlayRules ifname overlayIP w, by simp [aclToRules, hov],
        overlayRules_directed ifname overlayIP w, fun _ => overlayRules_solo ifname overlayIP w⟩
  rw [hst0]
  have hdir1 := foldl_aclStep_directed rt ipVer acls hdir0
  obtain ⟨f, more, hheap, hlist, hmore⟩ := foldl_aclStep_fresh rt ifname ipVer acls st0
  generalize acls.foldl (aclStep rt ifname ipVer) st0 = st1 at hdir1 hheap hlist hmore ⊢
  have harr : ∀ r ∈ st1.2, r.arr < st1.1.heap.length := fun r hr => (hdir1 r hr).arr_lt
  simp only [newSlice, List.length_append, List.length_singleton]
  simp only [protectedTokens, List.mem_append] at hp
  rcases hp with hp | hp
  · simp only [dropTokens, List.mem_cons, List.mem_singleton, List.not_mem_nil, or_false] at hp
    rcases hp with rfl | rfl
    · refine ⟨⟨st1.1.heap.length, 4, 4⟩, by simp, ?_, ?_⟩
      · simp only [readRule, getD_two_left]
        rfl
      · intro r hr he
        simp only [List.mem_append, List.mem_cons, List.mem_singleton, List.not_mem_nil,
          or_false] at hr
        rcases hr with hr | rfl | rfl
        · have := harr r hr
          simp only at he
          omega
        · rfl
        · simp only at he
          omega
    · refine ⟨⟨st1.1.heap.length + 1, 4, 4⟩, by simp, ?_, ?_⟩
      · simp only [readRule, getD_two_right]
        rfl
      · intro r hr he
        simp only [List.mem_append, List.mem_cons, List.mem_singleton, List.not_mem_nil,
          or_false] at hr
        rcases hr with hr | rfl | rfl
        · have := harr r hr
          simp only at he
          omega
        · simp only at he
          omega
        · rfl
  · by_cases hne : overlayIP = ""
    · simp [hne] at hp
    · simp only [hne, if_false] at hp
      obtain ⟨d, hd, hread, hlt, hsolo⟩ := hov hne p hp
      have hlen : st0.1.heap.length ≤ st1.1.heap.length := by
        rw [hheap, List.length_append]
        omega
      refine ⟨d, ?_, ?_, ?_⟩
      · rw [hlist]
        simp [hd]
      · rw [hheap, List.append_assoc, List.append_assoc, readRule_append_left hlt]
        exact hread
      · intro r hr he
        rw [hlist] at hr
        simp only [List.mem_append, List.mem_cons, List.mem_singleton, List.not_mem_nil,
          or_false] at hr
        rcases hr with (hr | hr) | rfl | rfl
        · exact hsolo r hr he
        · have := hmore r hr
          omega
        · simp only at he
          omega
        · simp only at he
          omega

theorem protected_mem_compiled (rt : Runtime) (ifname : String) (acls : List ACE) (ipVer : Int)
    (overlayIP : String) :
    ∀ p ∈ protectedTokens ifname overlayIP, p ∈ compiledRules rt ifname acls ipVer overlayIP := by
  intro p hp
  rw [compiledRules_eq]
  simp only [protectedTokens, List.mem_append] at hp ⊢
  rcases hp with hp | hp
  · exact Or.inr hp
  · exact Or.inl (Or.inl hp)

theorem protected_directed (rt : Runtime) (ifname overlayIP : String) :
    ∀ p ∈ protectedTokens ifname overlayIP,
      ∃ d rest, (d = "-i" ∨ d = "-o") ∧ p = d :: ifname :: rest := by
  intro p hp
  obtain ⟨rest, h | h⟩ := compiledRules_directed rt ifname [] 4 overlayIP p
    (protected_mem_compiled rt ifname [] 4 overlayIP p hp)
  · exact ⟨_, rest, Or.inl rfl, h⟩
  · exact ⟨_, rest, Or.inr rfl, h⟩

/-! ## The claims -/

set_option maxHeartbeats 4000000
set_option maxRecDepth 100000

/-- C1 (the code departs from it). As compiled, the new list of the input
below holds the rule `-o eth0 -m --dport 80 -j ACCEPT` and the old list does
not, so the claim has it inserted. On a management interface the delete phase
rewrote the old rule `-i eth0 -m --dport 80 -j ACCEPT` in place to
`-o eth0 -m --dport 80 -j ACCEPT`; the insert phase then finds the new rule in
the old list and issues no `-I` for it. The trace is the same for a runtime
that doubles capacities and for one that never leaves spare capacity. -/
theorem C1_rewrite_leaks_into_insert_phase :
    (updateACLConfiglet gcRuntime "eth0" true [⟨[⟨"fport", "80"⟩], []⟩] [⟨[⟨"lport", "80"⟩], []⟩]
        4 "" World.empty).map (·.cmds) =
      some [⟨Tool.iptables, ["-D", "OUTPUT", "-o", "eth0", "-m", "--dport", "80", "-j", "ACCEPT"]⟩,
            ⟨Tool.iptables, ["-D", "FORWARD", "-o", "eth0", "-m", "--sport", "80", "-j", "ACCEPT"]⟩,
            ⟨Tool.iptables, ["-I", "OUTPUT", "-o", "eth0", "-m", "--sport", "80", "-j", "ACCEPT"]⟩] ∧
    (updateACLConfiglet exactRuntime "eth0" true [⟨[⟨"fport", "80"⟩], []⟩]
        [⟨[⟨"lport", "80"⟩], []⟩] 4 "" World.empty).map (·.cmds) =
      some [⟨Tool.iptables, ["-D", "OUTPUT", "-o", "eth0", "-m", "--dport", "80", "-j", "ACCEPT"]⟩,
            ⟨Tool.iptables, ["-D", "FORWARD", "-o", "eth0", "-m", "--sport", "80", "-j", "ACCEPT"]⟩,
            ⟨Tool.iptables, ["-I", "OUTPUT", "-o", "eth0", "-m", "--sport", "80", "-j", "ACCEPT"]⟩] ∧
    compiledRules gcRuntime "eth0" [⟨[⟨"fport", "80"⟩], []⟩] 4 "" =
      [["-i", "eth0", "-m", "--dport", "80", "-j", "ACCEPT"],
       ["-o", "eth0", "-m", "--sport", "80", "-j", "ACCEPT"],
       ["-i", "eth0", "-j", "DROP"], ["-o", "eth0", "-j", "DROP"]] ∧
    compiledRules gcRuntime "eth0" [⟨[⟨"lport", "80"⟩], []⟩] 4 "" =
      [["-i", "eth0", "-m", "--sport", "80", "-j", "ACCEPT"],
       ["-o", "eth0", "-m", "--dport", "80", "-j", "ACCEPT"],
       ["-i", "eth0", "-j", "DROP"], ["-o", "eth0", "-j", "DROP"]] :=
  ⟨by rfl, by rfl, by rfl, by rfl⟩

/-- C2 (the code departs from it). With the gc runtime the old ACE below
compiles to four rules of which the first and the third share a backing array
(`unlimitedOutArgs := outArgs`, and every later `append` fitted the capacity
20). On a management interface deleting the first rule rewrites `-i` to `-o`
in that array; the third old rule then reads
`-o eth0 -m --dport 1 -m --sport 2 -m --dport 3 -j DROP`, which the new list
contains, and no `-D` is issued for it, although as compiled it equals no new
rule: three `-D` invocations stand for four old rules absent from the new
list. A runtime that leaves no spare capacity issues the four. -/
theorem C2_shared_array_hides_a_delete :
    (updateACLConfiglet gcRuntime "eth0" true
        [⟨[⟨"fport", "1"⟩, ⟨"lport", "2"⟩, ⟨"fport", "3"⟩], [⟨false, true, 4, "s", 4⟩]⟩]
        [⟨[⟨"lport", "1"⟩, ⟨"fport", "2"⟩, ⟨"lport", "3"⟩], [⟨true, false, 0, "", 0⟩]⟩]
        4 "" World.empty).map (·.cmds) =
      some [⟨Tool.iptables, ["-D", "OUTPUT", "-o", "eth0", "-m", "--dport", "1", "-m", "--sport",
              "2", "-m", "--dport", "3", "-j", "DROP", "--limit", "4/s", "--limit-burst", "4",
              "-j", "ACCEPT"]⟩,
            ⟨Tool.iptables, ["-D", "FORWARD", "-o", "eth0", "-m", "--sport", "1", "-m", "--dport",
              "2", "-m", "--sport", "3", "-j", "DROP", "--limit", "4/s", "--limit-burst", "4",
              "-j", "ACCEPT"]⟩,
            ⟨Tool.iptables, ["-D", "FORWARD", "-o", "eth0", "-m", "--sport", "1", "-m", "--dport",
              "2", "-m", "--sport", "3", "-j", "DROP"]⟩,
            ⟨Tool.iptables, ["-I", "OUTPUT", "-o", "eth0", "-m", "--sport", "1", "-m", "--dport",
              "2", "-m", "--sport", "3", "-j", "DROP"]⟩] ∧
    compiledRules gcRuntime "eth0"
        [⟨[⟨"fport", "1"⟩, ⟨"lport", "2"⟩, ⟨"fport", "3"⟩], [⟨false, true, 4, "s", 4⟩]⟩] 4 "" =
      [["-i", "eth0", "-m", "--dport", "1", "-m", "--sport", "2", "-m", "--dport", "3", "-j",
          "DROP", "--limit", "4/s", "--limit-burst", "4", "-j", "ACCEPT"],
       ["-o", "eth0", "-m", "--sport", "1", "-m", "--dport", "2", "-m", "--sport", "3", "-j",
          "DROP", "--limit", "4/s", "--limit-burst", "4", "-j", "ACCEPT"],
       ["-i", "eth0", "-m", "--dport", "1", "-m", "--sport", "2", "-m", "--dport", "3", "-j",
          "DROP"],
       ["-o", "eth0", "-m", "--sport", "1", "-m", "--dport", "2", "-m", "--sport", "3", "-j",
          "DROP"],
       ["-i", "eth0", "-j", "DROP"], ["-o", "eth0", "-j", "DROP"]] ∧
    compiledRules gcRuntime "eth0"
        [⟨[⟨"lport", "1"⟩, ⟨"fport", "2"⟩, ⟨"lport", "3"⟩], [⟨true, false, 0, "", 0⟩]⟩] 4 "" =
      [["-i", "eth0", "-m", "--sport", "1", "-m", "--dport", "2", "-m", "--sport", "3", "-j",
          "DROP"],
       ["-o", "eth0", "-m", "--dport", "1", "-m", "--sport", "2", "-m", "--dport", "3", "-j",
          "DROP"],
       ["-i", "eth0", "-j", "DROP"], ["-o", "eth0", "-j", "DROP"]] ∧
    (updateACLConfiglet exactRuntime "eth0" true
        [⟨[⟨"fport", "1"⟩, ⟨"lport", "2"⟩, ⟨"fport", "3"⟩], [⟨false, true, 4, "s", 4⟩]⟩]
        [⟨[⟨"lport", "1"⟩, ⟨"fport", "2"⟩, ⟨"lport", "3"⟩], [⟨true, false, 0, "", 0⟩]⟩]
        4 "" World.empty).map (·.cmds) =
      some [⟨Tool.iptables, ["-D", "OUTPUT", "-o", "eth0", "-m", "--dport", "1", "-m", "--sport",
              "2", "-m", "--dport", "3", "-m", "limit", "--limit", "4/s", "--limit-burst", "4",
              "-j", "ACCEPT"]⟩,
            ⟨Tool.iptables, ["-D", "FORWARD", "-o", "eth0", "-m", "--sport", "1", "-m", "--dport",
              "2", "-m", "--sport", "3", "-m", "limit", "--limit", "4/s", "--limit-burst", "4",
              "-j", "ACCEPT"]⟩,
            ⟨Tool.iptables, ["-D", "OUTPUT", "-o", "eth0", "-m", "--dport", "1", "-m", "--sport",
              "2", "-m", "--dport", "3", "-j", "DROP"]⟩,
            ⟨Tool.iptables, ["-D", "FORWARD", "-o", "eth0", "-m", "--sport", "1", "-m", "--dport",
              "2", "-m", "--sport", "3", "-j", "DROP"]⟩,
            ⟨Tool.iptables, ["-I", "OUTPUT", "-o", "eth0", "-m", "--sport", "1", "-m", "--dport",
              "2", "-m", "--sport", "3", "-j", "DROP"]⟩] :=
  ⟨by rfl, by rfl, by rfl, by rfl⟩

theorem cmdRule_underlayCmd (op : String) (ipVer : Int) (r : List String) :
    cmdRule (underlayCmd op ipVer r) = some (op, r) := by
  unfold underlayCmd cmdRule
  split_ifs
  · rfl
  · simp only [List.cons_append, List.nil_append]
    split
    · next h => simp at h
    · next h => simp at h; simp [h.1, h.2]
    · next h1 h2 => simp at h2

theorem rulesWithOp_underlay (op op' : String) (ipVer : Int) (rs : List (List String)) :
    rulesWithOp op (rs.map (underlayCmd op' ipVer)) = if op' = op then rs else [] := by
  induction rs with
  | nil => simp [rulesWithOp]
  | cons r rs ih =>
    simp only [rulesWithOp, List.map_cons, List.filterMap_cons, cmdRule_underlayCmd] at ih ⊢
    by_cases h : op' = op
    · simp only [h, if_true] at ih ⊢
      rw [ih]
    · simp only [h, if_false] at ih ⊢
      exact ih

theorem rulesWithOp_append (op : String) (cs ds : List Cmd) :
    rulesWithOp op (cs ++ ds) = rulesWithOp op cs ++ rulesWithOp op ds := by
  simp [rulesWithOp, List.filterMap_append]

/-- C3, as the claim states it, fails: with old = [A, A] and new = [A] the
multiset difference of the compiled lists holds the two rules of A once each,
and `updateACLConfiglet` deletes nothing. -/
theorem C3_no_multiset_difference :
    (updateACLConfiglet gcRuntime "eth0" false
        [⟨[⟨"ip", "10.0.0.0/8"⟩], [⟨true, false, 0, "", 0⟩]⟩,
         ⟨[⟨"ip", "10.0.0.0/8"⟩], [⟨true, false, 0, "", 0⟩]⟩]
        [⟨[⟨"ip", "10.0.0.0/8"⟩], [⟨true, false, 0, "", 0⟩]⟩] 4 "" World.empty).map
        (fun w => (rulesWithOp "-D" w.cmds : Multiset (List String))) ≠
      some ((compiledRules gcRuntime "eth0"
          [⟨[⟨"ip", "10.0.0.0/8"⟩], [⟨true, false, 0, "", 0⟩]⟩,
           ⟨[⟨"ip", "10.0.0.0/8"⟩], [⟨true, false, 0, "", 0⟩]⟩] 4 "" : Multiset (List String)) -
        (compiledRules gcRuntime "eth0"
          [⟨[⟨"ip", "10.0.0.0/8"⟩], [⟨true, false, 0, "", 0⟩]⟩] 4 "" : Multiset (List String))) := by
  have ht : (updateACLConfiglet gcRuntime "eth0" false
        [⟨[⟨"ip", "10.0.0.0/8"⟩], [⟨true, false, 0, "", 0⟩]⟩,
         ⟨[⟨"ip", "10.0.0.0/8"⟩], [⟨true, false, 0, "", 0⟩]⟩]
        [⟨[⟨"ip", "10.0.0.0/8"⟩], [⟨true, false, 0, "", 0⟩]⟩] 4 "" World.empty).map
        (fun w => (rulesWithOp "-D" w.cmds : Multiset (List String))) = some 0 := by rfl
  have ho : compiledRules gcRuntime "eth0"
        [⟨[⟨"ip", "10.0.0.0/8"⟩], [⟨true, false, 0, "", 0⟩]⟩,
         ⟨[⟨"ip", "10.0.0.0/8"⟩], [⟨true, false, 0, "", 0⟩]⟩] 4 "" =
      [["-i", "eth0", "-d", "10.0.0.0/8", "-j", "DROP"],
       ["-o", "eth0", "-s", "10.0.0.0/8", "-j", "DROP"],
       ["-i", "eth0", "-d", "10.0.0.0/8", "-j", "DROP"],
       ["-o", "eth0", "-s", "10.0.0.0/8", "-j", "DROP"],
       ["-i", "eth0", "-j", "DROP"], ["-o", "eth0", "-j", "DROP"]] := by rfl
  have hn : compiledRules gcRuntime "eth0"
        [⟨[⟨"ip", "10.0.0.0/8"⟩], [⟨true, false, 0, "", 0⟩]⟩] 4 "" =
      [["-i", "eth0", "-d", "10.0.0.0/8", "-j", "DROP"],
       ["-o", "eth0", "-s", "10.0.0.0/8", "-j", "DROP"],
       ["-i", "eth0", "-j", "DROP"], ["-o", "eth0", "-j", "DROP"]] := by rfl
  rw [ht, ho, hn, Multiset.coe_sub]
  decide

/-- C3, amended. On an interface that is not a management interface (where no
rule is rewritten) and for ipVer in {4, 6}, the multiset of rules
`updateACLConfiglet` deletes is the multiset of the rules of compile(old) that
equal no rule of compile(new), each as often as it occurs in compile(old), and
the multiset of rules it inserts is that of the rules of compile(new) that
equal no rule of compile(old): the difference is taken by containment, not by
multiplicity. -/
theorem C3_update_containment_difference (rt : Runtime) (ifname : String)
    (oldACLs newACLs : List ACE) (ipVer : Int) (overlayIP : String) (w : World)
    (hv : ipVer = 4 ∨ ipVer = 6) :
    ∃ cs, (updateACLConfiglet rt ifname false oldACLs newACLs ipVer overlayIP w).map (·.cmds) =
        some (w.cmds ++ cs) ∧
      (rulesWithOp "-D" cs : Multiset (List String)) =
        Multiset.filter (fun r => r ∉ compiledRules rt ifname newACLs ipVer overlayIP)
          (compiledRules rt ifname oldACLs ipVer overlayIP : Multiset (List String)) ∧
      (rulesWithOp "-I" cs : Multiset (List String)) =
        Multiset.filter (fun r => r ∉ compiledRules rt ifname oldACLs ipVer overlayIP)
          (compiledRules rt ifname newACLs ipVer overlayIP : Multiset (List String)) := by
  refine ⟨((compiledRules rt ifname oldACLs ipVer overlayIP).filter
      (fun r => decide (r ∉ compiledRules rt ifname newACLs ipVer overlayIP))).map
        (underlayCmd "-D" ipVer) ++
    ((compiledRules rt ifname newACLs ipVer overlayIP).filter
      (fun r => decide (r ∉ compiledRules rt ifname oldACLs ipVer overlayIP))).map
        (underlayCmd "-I" ipVer), ?_, ?_, ?_⟩
  · rw [update_underlay rt ifname oldACLs newACLs hv overlayIP w, List.append_assoc]
  · rw [rulesWithOp_append, rulesWithOp_underlay, rulesWithOp_underlay]
    simp [Multiset.filter_coe]
  · rw [rulesWithOp_append, rulesWithOp_underlay, rulesWithOp_underlay]
    simp [Multiset.filter_coe]

/-- Witness of the amended C3: scenario S5 of the spec (old = [A], new = [A, B])
on IPv4. -/
theorem C3_update_containment_difference_witness :
    ((4 : Int) = 4 ∨ (4 : Int) = 6) ∧
    ∃ cs, (updateACLConfiglet gcRuntime "eth0" false
          [⟨[⟨"ip", "10.0.0.0/8"⟩], [⟨true, false, 0, "", 0⟩]⟩]
          [⟨[⟨"ip", "10.0.0.0/8"⟩], [⟨true, false, 0, "", 0⟩]⟩, ⟨[⟨"protocol", "tcp"⟩], []⟩]
          4 "" World.empty).map (·.cmds) = some (World.empty.cmds ++ cs) ∧
      (rulesWithOp "-D" cs : Multiset (List String)) =
        Multiset.filter (fun r => r ∉ compiledRules gcRuntime "eth0"
          [⟨[⟨"ip", "10.0.0.0/8"⟩], [⟨true, false, 0, "", 0⟩]⟩, ⟨[⟨"protocol", "tcp"⟩], []⟩] 4 "")
          (compiledRules gcRuntime "eth0"
            [⟨[⟨"ip", "10.0.0.0/8"⟩], [⟨true, false, 0, "", 0⟩]⟩] 4 "" : Multiset (List String)) ∧
      (rulesWithOp "-I" cs : Multiset (List String)) =
        Multiset.filter (fun r => r ∉ compiledRules gcRuntime "eth0"
          [⟨[⟨"ip", "10.0.0.0/8"⟩], [⟨true, false, 0, "", 0⟩]⟩] 4 "")
          (compiledRules gcRuntime "eth0"
            [⟨[⟨"ip", "10.0.0.0/8"⟩], [⟨true, false, 0, "", 0⟩]⟩, ⟨[⟨"protocol", "tcp"⟩], []⟩]
            4 "" : Multiset (List String)) :=
  ⟨by decide, C3_update_containment_difference gcRuntime "eth0"
    [⟨[⟨"ip", "10.0.0.0/8"⟩], [⟨true, false, 0, "", 0⟩]⟩]
    [⟨[⟨"ip", "10.0.0.0/8"⟩], [⟨true, false, 0, "", 0⟩]⟩, ⟨[⟨"protocol", "tcp"⟩], []⟩]
    4 "" World.empty (by decide)⟩

/-- C4. Idempotence: `updateACLConfiglet` with the same ACL list as old and new
returns normally and issues no invocation at all, for every interface, role,
IP version, overlay address, runtime and starting world. -/
theorem C4_update_same_is_silent (rt : Runtime) (ifname : String) (isMgmt : Bool)
    (ACLs : List ACE) (ipVer : Int) (overlayIP : String) (w : World) :
    (updateACLConfiglet rt ifname isMgmt ACLs ACLs ipVer overlayIP w).map (·.cmds) =
      some w.cmds := by
  obtain ⟨ho, hn, -, -, hc⟩ := update_compiled rt ifname ACLs ACLs ipVer overlayIP w
  simp only [updateACLConfiglet, updateDeleteStep_eq, updateInsertStep_eq]
  have hpres : ∀ (rs others : IptablesRuleList) (h : Heap),
      readRules h rs = compiledRules rt ifname ACLs ipVer overlayIP →
      readRules h others = compiledRules rt ifname ACLs ipVer overlayIP →
      ∀ r ∈ rs, readRule h r ∈ readRules h others := by
    intro rs others h h1 h2 r hr
    rw [h2, ← h1]
    exact List.mem_map_of_mem _ hr
  rw [foldlM_updateStep_present "-D" isMgmt ipVer _ _ _ (hpres _ _ _ ho hn)]
  simp only [Option.some_bind, Option.bind_eq_bind]
  rw [foldlM_updateStep_present "-I" isMgmt ipVer _ _ _ (hpres _ _ _ hn ho)]
  simp [hc]

/-- C5. Terminal drop: whatever the runtime and the starting world, the list
`aclToRules` returns has at least two rules and its last two rules are
`-i ifname -j DROP` and `-o ifname -j DROP`, in that order. -/
theorem C5_terminal_drop (rt : Runtime) (ifname : String) (ACLs : List ACE) (ipVer : Int)
    (overlayIP : String) (w : World) :
    2 ≤ (rulesOf (aclToRules rt ifname ACLs ipVer overlayIP w)).length ∧
    (rulesOf (aclToRules rt ifname ACLs ipVer overlayIP w)).drop
        ((rulesOf (aclToRules rt ifname ACLs ipVer overlayIP w)).length - 2) =
      [["-i", ifname, "-j", "DROP"], ["-o", ifname, "-j", "DROP"]] := by
  rw [rulesOf_aclToRules, compiledRules_eq]
  generalize (if overlayIP = "" then [] else overlayTokens ifname overlayIP) ++
    ACLs.flatMap (aceRules rt ifname · ipVer) = pre
  constructor
  · simp [dropTokens]
  · have hlen : (pre ++ dropTokens ifname).length - 2 = pre.length := by simp [dropTokens]
    rw [hlen, List.drop_left]
    rfl

/-- C6. The list `aclToRules` returns is, in this order: the four overlay
allow rules when `overlayIP` is not empty (nothing otherwise), the rules
`aceToRules` returns for each ACE in order, and the implicit-drop pair. This
holds for every runtime and whatever worlds the two compilers start in. -/
theorem C6_acl_is_overlay_aces_drop (rt : Runtime) (ifname : String) (ACLs : List ACE)
    (ipVer : Int) (overlayIP : String) (w w' : World) :
    rulesOf (aclToRules rt ifname ACLs ipVer overlayIP w) =
      (if overlayIP = "" then []
        else [["-i", ifname, "-m", "set", "--match-set", "local.ipv6", "dst", "-j", "ACCEPT"],
              ["-i", ifname, "-m", "set", "--match-set", "local.ipv6", "src", "-j", "ACCEPT"],
              ["-i", ifname, "-d", overlayIP, "-j", "ACCEPT"],
              ["-i", ifname, "-s", overlayIP, "-j", "ACCEPT"]]) ++
        ACLs.flatMap (fun ace => rulesOf (aceToRules rt ifname ace ipVer w')) ++
        [["-i", ifname, "-j", "DROP"], ["-o", ifname, "-j", "DROP"]] := by
  rw [rulesOf_aclToRules, compiledRules_eq]
  simp only [rulesOf_aceToRules]
  rfl

/-- C7. For ipVer in {4, 6} and an ACE none of whose actions takes the limit
branch, `aceToRules` returns exactly two rules: `-i ifname`, the out-tokens of
the spec table for each match in order, `-j J`; and `-o ifname`, the in-tokens
of the spec table for each match in order, `-j J`; where J is DROP if some
action sets drop and ACCEPT otherwise. -/
theorem C7_ace_without_limit (rt : Runtime) (ifname : String) (ace : ACE) (ipVer : Int)
    (w : World) (hv : ipVer = 4 ∨ ipVer = 6)
    (hno : ∀ a ∈ ace.Actions, a.Drop = true ∨ a.Limit = false) :
    rulesOf (aceToRules rt ifname ace ipVer w) =
      [["-i", ifname] ++ ace.Matches.flatMap (specOutTokens ifname ipVer) ++
          ["-j", if ace.Actions.any (·.Drop) then "DROP" else "ACCEPT"],
       ["-o", ifname] ++ ace.Matches.flatMap (specInTokens ifname ipVer) ++
          ["-j", if ace.Actions.any (·.Drop) then "DROP" else "ACCEPT"]] := by
  rw [rulesOf_aceToRules, aceRules_nolimit rt ifname ace ipVer hno]
  have ho : matchOut rt ifname ipVer = specOutTokens ifname ipVer :=
    funext (specOut_eq rt ifname hv)
  have hi : matchIn rt ifname ipVer = specInTokens ifname ipVer :=
    funext (specIn_eq rt ifname hv)
  rw [ho, hi]

/-- Witness of C7: scenario S2 of the spec, a single ip match with a drop
action on IPv4. -/
theorem C7_ace_without_limit_witness :
    ((4 : Int) = 4 ∨ (4 : Int) = 6) ∧
    (∀ a ∈ [(⟨true, false, 0, "", 0⟩ : ACEAction)], a.Drop = true ∨ a.Limit = false) ∧
    rulesOf (aceToRules gcRuntime "eth0"
        ⟨[⟨"ip", "10.0.0.0/8"⟩], [⟨true, false, 0, "", 0⟩]⟩ 4 World.empty) =
      [["-i", "eth0", "-d", "10.0.0.0/8", "-j", "DROP"],
       ["-o", "eth0", "-s", "10.0.0.0/8", "-j", "DROP"]] :=
  ⟨by decide, by decide,
   C7_ace_without_limit gcRuntime "eth0" ⟨[⟨"ip", "10.0.0.0/8"⟩], [⟨true, false, 0, "", 0⟩]⟩ 4
     World.empty (by decide) (by decide)⟩

/-- C8 (the code departs from it). With the gc runtime the accumulators of the
ACE below have length 12 and capacity 20 after the matches, so the six limit
tokens and `-j ACCEPT` are appended in place, and `unlimitedOutArgs`, which
still has length 12 over the same array, then has `-j DROP` appended in place
over the tokens `-m limit`: the first two rules returned end in
`-j DROP --limit 4/s --limit-burst 4 -j ACCEPT` where the claim has
`-m limit --limit 4/s --limit-burst 4 -j ACCEPT`. With a runtime that leaves no
spare capacity the same ACE compiles as the claim says. -/
theorem C8_limit_tokens_overwritten :
    rulesOf (aceToRules gcRuntime "eth0"
        ⟨[⟨"fport", "443"⟩, ⟨"host", "h"⟩, ⟨"protocol", "tcp"⟩], [⟨false, true, 4, "s", 4⟩]⟩
        4 World.empty) =
      [["-i", "eth0", "-m", "--dport", "443", "-m", "set", "--match-set", "ipv4.h", "dst",
          "-p", "tcp", "-j", "DROP", "--limit", "4/s", "--limit-burst", "4", "-j", "ACCEPT"],
       ["-o", "eth0", "-m", "--sport", "443", "-m", "set", "--match-set", "ipv4.h", "src",
          "-p", "tcp", "-j", "DROP", "--limit", "4/s", "--limit-burst", "4", "-j", "ACCEPT"],
       ["-i", "eth0", "-m", "--dport", "443", "-m", "set", "--match-set", "ipv4.h", "dst",
          "-p", "tcp", "-j", "DROP"],
       ["-o", "eth0", "-m", "--sport", "443", "-m", "set", "--match-set", "ipv4.h", "src",
          "-p", "tcp", "-j", "DROP"]] ∧
    rulesOf (aceToRules exactRuntime "eth0"
        ⟨[⟨"fport", "443"⟩, ⟨"host", "h"⟩, ⟨"protocol", "tcp"⟩], [⟨false, true, 4, "s", 4⟩]⟩
        4 World.empty) =
      [["-i", "eth0", "-m", "--dport", "443", "-m", "set", "--match-set", "ipv4.h", "dst",
          "-p", "tcp", "-m", "limit", "--limit", "4/s", "--limit-burst", "4", "-j", "ACCEPT"],
       ["-o", "eth0", "-m", "--sport", "443", "-m", "set", "--match-set", "ipv4.h", "src",
          "-p", "tcp", "-m", "limit", "--limit", "4/s", "--limit-burst", "4", "-j", "ACCEPT"],
       ["-i", "eth0", "-m", "--dport", "443", "-m", "set", "--match-set", "ipv4.h", "dst",
          "-p", "tcp", "-j", "DROP"],
       ["-o", "eth0", "-m", "--sport", "443", "-m", "set", "--match-set", "ipv4.h", "src",
          "-p", "tcp", "-j", "DROP"]] ∧
    (aceToRules gcRuntime "eth0"
        ⟨[⟨"fport", "443"⟩, ⟨"host", "h"⟩, ⟨"protocol", "tcp"⟩], [⟨false, true, 4, "s", 4⟩]⟩
        4 World.empty).2 = [⟨6, 20, 20⟩, ⟨7, 20, 20⟩, ⟨6, 14, 20⟩, ⟨7, 14, 20⟩] :=
  ⟨by rfl, by rfl, by rfl⟩

/-- C9, as the claim states it, fails: an ACE whose single action has both
`drop` and `limit` set has an action with `limit = true`, yet the action takes
the `Drop` branch of the `if`/`else if`, `foundLimit` stays false and
`aceToRules` returns two rules. -/
theorem C9_drop_and_limit_in_one_action :
    ¬ ((rulesOf (aceToRules gcRuntime "eth0" ⟨[], [⟨true, true, 4, "s", 4⟩]⟩ 4
          World.empty)).length =
        if (⟨[], [⟨true, true, 4, "s", 4⟩]⟩ : ACE).Actions.any (·.Limit) then 4 else 2) ∧
    rulesOf (aceToRules gcRuntime "eth0" ⟨[], [⟨true, true, 4, "s", 4⟩]⟩ 4 World.empty) =
      [["-i", "eth0", "-j", "DROP"], ["-o", "eth0", "-j", "DROP"]] := by
  have h : rulesOf (aceToRules gcRuntime "eth0" ⟨[], [⟨true, true, 4, "s", 4⟩]⟩ 4 World.empty) =
      [["-i", "eth0", "-j", "DROP"], ["-o", "eth0", "-j", "DROP"]] := by rfl
  refine ⟨?_, h⟩
  rw [h]
  decide

/-- C9, amended. `aceToRules` returns a list of length 4 when some action of the
ACE takes the limit branch, that is has `limit = true` and `drop = false`, and
of length 2 otherwise (an action with both flags set counts as a drop action
only). -/
theorem C9_length_by_limit_branch (rt : Runtime) (ifname : String) (ace : ACE) (ipVer : Int)
    (w : World) :
    (rulesOf (aceToRules rt ifname ace ipVer w)).length =
      if ace.Actions.any (fun a => !a.Drop && a.Limit) then 4 else 2 := by
  have hfl := (aceAfterActions_flags rt ifname ace ipVer w).2
  rw [rulesOf, readRules, List.length_map, aceToRules_eq]
  unfold aceEmit
  rw [hfl]
  split_ifs <;> rfl

/-- C10. `rulePrefix` follows the decision table for every operation and every
non-empty rule `t :: ts`. Management: `-o` gives `[op, FORWARD]`; `-i` gives
`[op, OUTPUT]` and the rule then reads `-o :: ts`; any other first token gives
skip. Not management, ipVer 6: `-i` gives `[-t, raw, op, PREROUTING]`, `-o`
gives `[op, FORWARD]`, any other first token gives skip. Not management,
ipVer 4: `[op, FORWARD]`. In every case but management with `-i` the world,
and with it the rule, is returned unchanged; in that case only the store
changes. -/
theorem C10_rulePrefix_table (op : String) (rule : IptablesRule) (w : World) (t : String)
    (ts : List String) (hrule : readRule w.heap rule = t :: ts) :
    (∀ ipVer, t = "-o" → rulePrefix op true ipVer rule w = some (w, some [op, "FORWARD"])) ∧
    (∀ ipVer, t = "-i" → ∃ w', rulePrefix op true ipVer rule w = some (w', some [op, "OUTPUT"]) ∧
        readRule w'.heap rule = "-o" :: ts ∧ w'.log = w.log ∧ w'.cmds = w.cmds) ∧
    (∀ ipVer, t ≠ "-o" → t ≠ "-i" → rulePrefix op true ipVer rule w = some (w, none)) ∧
    (t = "-i" → rulePrefix op false 6 rule w = some (w, some ["-t", "raw", op, "PREROUTING"])) ∧
    (t = "-o" → rulePrefix op false 6 rule w = some (w, some [op, "FORWARD"])) ∧
    (t ≠ "-i" → t ≠ "-o" → rulePrefix op false 6 rule w = some (w, none)) ∧
    rulePrefix op false 4 rule w = some (w, some [op, "FORWARD"]) := by
  have h0 := ruleAt_zero hrule
  refine ⟨?_, ?_, ?_, ?_, ?_, ?_, ?_⟩
  · intro ipVer ht
    simp [rulePrefix, h0, ht]
  · intro ipVer ht
    refine ⟨ruleSet rule 0 "-o" w, ?_, readRule_ruleSet_zero "-o" hrule, rfl, rfl⟩
    simp [rulePrefix, h0, ht]
  · intro ipVer h1 h2
    simp [rulePrefix, h0, h1, h2]
  · intro ht
    simp [rulePrefix, h0, ht]
  · intro ht
    simp [rulePrefix, h0, ht]
  · intro h1 h2
    simp [rulePrefix, h0, h1, h2]
  · simp [rulePrefix]

/-- Witness of C10: the rule `-i eth0 -j DROP` in a store that holds just its
backing array. -/
theorem C10_rulePrefix_table_witness :
    readRule (newSlice ["-i", "eth0", "-j", "DROP"] World.empty).1.heap ⟨0, 4, 4⟩ =
      "-i" :: ["eth0", "-j", "DROP"] ∧
    ∃ w', rulePrefix "-A" true 6 ⟨0, 4, 4⟩ (newSlice ["-i", "eth0", "-j", "DROP"] World.empty).1 =
        some (w', some ["-A", "OUTPUT"]) ∧
      readRule w'.heap ⟨0, 4, 4⟩ = "-o" :: ["eth0", "-j", "DROP"] ∧
      w'.log = (newSlice ["-i", "eth0", "-j", "DROP"] World.empty).1.log ∧
      w'.cmds = (newSlice ["-i", "eth0", "-j", "DROP"] World.empty).1.cmds :=
  ⟨by rfl, (C10_rulePrefix_table "-A" ⟨0, 4, 4⟩
    (newSlice ["-i", "eth0", "-j", "DROP"] World.empty).1 "-i" ["eth0", "-j", "DROP"]
    (by rfl)).2.1 6 rfl⟩

/-- C19. `equalRule` returns true exactly when its two arguments are the same
token sequence, `containsRule` returns true exactly when some rule of the set is
that sequence, `equalRule` is reflexive and symmetric, and neither function
panics on any input (each call returns a value). -/
theorem C19_equalRule_containsRule (r1 r2 member : List String) (set : List (List String)) :
    equalRule r1 r2 = some (decide (r1 = r2)) ∧
    containsRule set member = some (decide (∃ r ∈ set, r = member)) ∧
    equalRule r1 r1 = some true ∧
    equalRule r1 r2 = equalRule r2 r1 := by
  refine ⟨equalRule_eq r1 r2, ?_, ?_, ?_⟩
  · rw [containsRule_eq]
    congr 1
    rw [decide_eq_decide]
    constructor
    · intro h; exact ⟨member, h, rfl⟩
    · rintro ⟨r, hr, rfl⟩; exact hr
  · simp [equalRule_eq]
  · rw [equalRule_eq, equalRule_eq]
    congr 1
    rw [decide_eq_decide]
    exact eq_comm

/-- C17. Every rule `aclToRules` returns reads, in the world the compiler
left, as `-i ifname ...` or `-o ifname ...`; so `rulePrefix`, applied to it for
any operation, role and IP version, does not panic on `rule[0]` and does not
return the skip value. -/
theorem C17_compiled_rules_are_directed (rt : Runtime) (ifname : String) (ACLs : List ACE)
    (ipVer : Int) (overlayIP : String) (w : World) (r : IptablesRule)
    (hr : r ∈ (aclToRules rt ifname ACLs ipVer overlayIP w).2) :
    (∃ rest, readRule (aclToRules rt ifname ACLs ipVer overlayIP w).1.heap r =
          "-i" :: ifname :: rest ∨
        readRule (aclToRules rt ifname ACLs ipVer overlayIP w).1.heap r =
          "-o" :: ifname :: rest) ∧
    ∀ (op : String) (isMgmt : Bool) (v : Int), ∃ w1 args,
      rulePrefix op isMgmt v r (aclToRules rt ifname ACLs ipVer overlayIP w).1 =
        some (w1, some args) := by
  have hd := aclToRules_directed rt ifname ACLs ipVer overlayIP w r hr
  rcases hd with hd | hd
  · obtain ⟨rest, hrest⟩ := hd.read
    refine ⟨⟨rest, Or.inl hrest⟩, fun op isMgmt v => ?_⟩
    obtain ⟨args, hargs⟩ := selectorPrefix_directed op isMgmt v (Or.inl rfl : "-i" = "-i" ∨ "-i" = "-o")
    exact ⟨_, args, by rw [rulePrefix_eq op isMgmt v hrest, hargs]⟩
  · obtain ⟨rest, hrest⟩ := hd.read
    refine ⟨⟨rest, Or.inr hrest⟩, fun op isMgmt v => ?_⟩
    obtain ⟨args, hargs⟩ := selectorPrefix_directed op isMgmt v (Or.inr rfl : "-o" = "-i" ∨ "-o" = "-o")
    exact ⟨_, args, by rw [rulePrefix_eq op isMgmt v hrest, hargs]⟩

/-- Witness of C17: the first rule of the empty ACL on `eth0`. -/
theorem C17_compiled_rules_are_directed_witness :
    (⟨0, 4, 4⟩ : IptablesRule) ∈ (aclToRules gcRuntime "eth0" [] 4 "" World.empty).2 ∧
    ((∃ rest, readRule (aclToRules gcRuntime "eth0" [] 4 "" World.empty).1.heap ⟨0, 4, 4⟩ =
          "-i" :: "eth0" :: rest ∨
        readRule (aclToRules gcRuntime "eth0" [] 4 "" World.empty).1.heap ⟨0, 4, 4⟩ =
          "-o" :: "eth0" :: rest) ∧
    ∀ (op : String) (isMgmt : Bool) (v : Int), ∃ w1 args,
      rulePrefix op isMgmt v ⟨0, 4, 4⟩ (aclToRules gcRuntime "eth0" [] 4 "" World.empty).1 =
        some (w1, some args)) :=
  ⟨by decide, C17_compiled_rules_are_directed gcRuntime "eth0" [] 4 "" World.empty ⟨0, 4, 4⟩
    (by decide)⟩

/-- C11, as the claim states it, fails: for ipVer = 4 and a non-empty overlay
address `createACLConfiglet` ends with an ip6tables invocation, the
side-channel rule `-A FORWARD -i eth0 -j DROP`; the guard of the source is
`overlayIP != ""` alone. -/
theorem C11_side_channel_for_ipv4 :
    (createACLConfiglet gcRuntime "eth0" false [] 4 "fd00::1" World.empty).map (·.cmds) =
      some [⟨Tool.iptables, ["-A", "FORWARD", "-i", "eth0", "-m", "set", "--match-set",
              "local.ipv6", "dst", "-j", "ACCEPT"]⟩,
            ⟨Tool.iptables, ["-A", "FORWARD", "-i", "eth0", "-m", "set", "--match-set",
              "local.ipv6", "src", "-j", "ACCEPT"]⟩,
            ⟨Tool.iptables, ["-A", "FORWARD", "-i", "eth0", "-d", "fd00::1", "-j", "ACCEPT"]⟩,
            ⟨Tool.iptables, ["-A", "FORWARD", "-i", "eth0", "-s", "fd00::1", "-j", "ACCEPT"]⟩,
            ⟨Tool.iptables, ["-A", "FORWARD", "-i", "eth0", "-j", "DROP"]⟩,
            ⟨Tool.iptables, ["-A", "FORWARD", "-o", "eth0", "-j", "DROP"]⟩,
            ⟨Tool.ip6tables, ["-A", "FORWARD", "-i", "eth0", "-j", "DROP"]⟩] := by
  rfl

/-- C11, amended. `createACLConfiglet` returns normally and issues the
side-channel invocation ip6tables `-A FORWARD -i ifname -j DROP`, as one extra
invocation after the per-rule ones, if and only if `overlayIP` is not empty,
whatever the IP version; none of the per-rule invocations is that
invocation. -/
theorem C11_side_channel_iff_overlay (rt : Runtime) (ifname : String) (isMgmt : Bool)
    (ACLs : List ACE) (ipVer : Int) (overlayIP : String) (w : World) :
    ∃ perRule, (createACLConfiglet rt ifname isMgmt ACLs ipVer overlayIP w).map (·.cmds) =
        some (w.cmds ++ perRule ++
          (if overlayIP = "" then []
            else [⟨Tool.ip6tables, ["-A", "FORWARD", "-i", ifname, "-j", "DROP"]⟩])) ∧
      (⟨Tool.ip6tables, ["-A", "FORWARD", "-i", ifname, "-j", "DROP"]⟩ : Cmd) ∉ perRule := by
  refine ⟨loopCmds "-A" isMgmt ipVer (aclToRules rt ifname ACLs ipVer overlayIP w).1
    (aclToRules rt ifname ACLs ipVer overlayIP w).2, ?_, ?_⟩
  · rw [createACLConfiglet_eq, Option.map_some', loop_cmds_eq, aclToRules_cmds]
    rfl
  · intro hmem
    obtain ⟨d, rest, hd, hc⟩ := loopCmds_mem "-A" isMgmt ipVer _ _
      (aclToRules_directed rt ifname ACLs ipVer overlayIP w) _ hmem
    exact sideCmd_not_mem_ruleCmds "-A" "-A" isMgmt ipVer ifname ifname d rest hd hc

/-- C12 (the code departs from it). With the gc runtime the limited and the
unlimited `-i` rule of the ACE below share a backing array (see C8). On a
management interface the first is issued as `-A OUTPUT -o eth0 ...` and
`rulePrefix` rewrites `-i` to `-o` in the shared array, so the third compiled
rule, `-i eth0 ... -j DROP`, is read as an `-o` rule when its turn comes and is
issued as `-A FORWARD -o eth0 ...` where the claim has `-A OUTPUT -o eth0 ...`.
A runtime that leaves no spare capacity issues it as the claim says. -/
theorem C12_shared_array_changes_the_chain :
    (createACLConfiglet gcRuntime "eth0" true
        [⟨[⟨"fport", "443"⟩, ⟨"host", "h"⟩, ⟨"protocol", "tcp"⟩], [⟨false, true, 4, "s", 4⟩]⟩]
        4 "" World.empty).map (·.cmds) =
      some [⟨Tool.iptables, ["-A", "OUTPUT", "-o", "eth0", "-m", "--dport", "443", "-m", "set",
              "--match-set", "ipv4.h", "dst", "-p", "tcp", "-j", "DROP", "--limit", "4/s",
              "--limit-burst", "4", "-j", "ACCEPT"]⟩,
            ⟨Tool.iptables, ["-A", "FORWARD", "-o", "eth0", "-m", "--sport", "443", "-m", "set",
              "--match-set", "ipv4.h", "src", "-p", "tcp", "-j", "DROP", "--limit", "4/s",
              "--limit-burst", "4", "-j", "ACCEPT"]⟩,
            ⟨Tool.iptables, ["-A", "FORWARD", "-o", "eth0", "-m", "--dport", "443", "-m", "set",
              "--match-set", "ipv4.h", "dst", "-p", "tcp", "-j", "DROP"]⟩,
            ⟨Tool.iptables, ["-A", "FORWARD", "-o", "eth0", "-m", "--sport", "443", "-m", "set",
              "--match-set", "ipv4.h", "src", "-p", "tcp", "-j", "DROP"]⟩,
            ⟨Tool.iptables, ["-A", "OUTPUT", "-o", "eth0", "-j", "DROP"]⟩,
            ⟨Tool.iptables, ["-A", "FORWARD", "-o", "eth0", "-j", "DROP"]⟩] ∧
    compiledRules gcRuntime "eth0"
        [⟨[⟨"fport", "443"⟩, ⟨"host", "h"⟩, ⟨"protocol", "tcp"⟩], [⟨false, true, 4, "s", 4⟩]⟩]
        4 "" =
      [["-i", "eth0", "-m", "--dport", "443", "-m", "set", "--match-set", "ipv4.h", "dst",
          "-p", "tcp", "-j", "DROP", "--limit", "4/s", "--limit-burst", "4", "-j", "ACCEPT"],
       ["-o", "eth0", "-m", "--sport", "443", "-m", "set", "--match-set", "ipv4.h", "src",
          "-p", "tcp", "-j", "DROP", "--limit", "4/s", "--limit-burst", "4", "-j", "ACCEPT"],
       ["-i", "eth0", "-m", "--dport", "443", "-m", "set", "--match-set", "ipv4.h", "dst",
          "-p", "tcp", "-j", "DROP"],
       ["-o", "eth0", "-m", "--sport", "443", "-m", "set", "--match-set", "ipv4.h", "src",
          "-p", "tcp", "-j", "DROP"],
       ["-i", "eth0", "-j", "DROP"], ["-o", "eth0", "-j", "DROP"]] ∧
    (createACLConfiglet exactRuntime "eth0" true
        [⟨[⟨"fport", "443"⟩, ⟨"host", "h"⟩, ⟨"protocol", "tcp"⟩], [⟨false, true, 4, "s", 4⟩]⟩]
        4 "" World.empty).map (fun w => w.cmds[2]?) =
      some (some ⟨Tool.iptables, ["-A", "OUTPUT", "-o", "eth0", "-m", "--dport", "443", "-m",
        "set", "--match-set", "ipv4.h", "dst", "-p", "tcp", "-j", "DROP"]⟩) :=
  ⟨by rfl, by rfl, by rfl⟩

/-- C13. For ipVer in {4, 6} `deleteACLConfiglet` returns normally and issues,
in the order of `aclToRules`, one `-D`-prefixed invocation for each compiled
rule, and then ip6tables `-D FORWARD -i ifname -j DROP` as a final extra
invocation exactly when `overlayIP` is not empty; and what it issues is what
`createACLConfiglet` issues on the same arguments with the operation token
`-A` of every invocation replaced by `-D`. -/
theorem C13_delete_mirrors_create (rt : Runtime) (ifname : String) (isMgmt : Bool)
    (ACLs : List ACE) (ipVer : Int) (overlayIP : String) (w : World)
    (hv : ipVer = 4 ∨ ipVer = 6) :
    ∃ perRule created,
      (deleteACLConfiglet rt ifname isMgmt ACLs ipVer overlayIP w).map (·.cmds) =
        some (w.cmds ++ perRule ++
          (if overlayIP = "" then []
            else [⟨Tool.ip6tables, ["-D", "FORWARD", "-i", ifname, "-j", "DROP"]⟩])) ∧
      List.Forall₂ (PerRule "-D" ipVer)
        (rulesOf (aclToRules rt ifname ACLs ipVer overlayIP w)) perRule ∧
      (createACLConfiglet rt ifname isMgmt ACLs ipVer overlayIP w).map (·.cmds) =
        some (w.cmds ++ created) ∧
      (deleteACLConfiglet rt ifname isMgmt ACLs ipVer overlayIP w).map (·.cmds) =
        some (w.cmds ++ created.map swapOp) := by
  refine ⟨loopCmds "-D" isMgmt ipVer (aclToRules rt ifname ACLs ipVer overlayIP w).1
      (aclToRules rt ifname ACLs ipVer overlayIP w).2,
    loopCmds "-A" isMgmt ipVer (aclToRules rt ifname ACLs ipVer overlayIP w).1
      (aclToRules rt ifname ACLs ipVer overlayIP w).2 ++
      (if overlayIP = "" then [] else [sideCmd "-A" ifname]), ?_, ?_, ?_, ?_⟩
  · rw [deleteACLConfiglet_eq, Option.map_some', loop_cmds_eq, aclToRules_cmds]
    rfl
  · exact loopCmds_perRule "-D" isMgmt hv _ _ _ (Rewrote.refl _)
      (aclToRules_directed rt ifname ACLs ipVer overlayIP w)
  · rw [createACLConfiglet_eq, Option.map_some', loop_cmds_eq, aclToRules_cmds, List.append_assoc]
  · rw [deleteACLConfiglet_eq, Option.map_some', loop_cmds_eq, aclToRules_cmds, List.map_append,
      loopCmds_swapOp, List.append_assoc]
    by_cases hov : overlayIP = "" <;> simp [hov, swapOp, sideCmd]

/-- Witness of C13: scenario S6 of the spec, a delete with an overlay address
on IPv6. -/
theorem C13_delete_mirrors_create_witness :
    ((6 : Int) = 4 ∨ (6 : Int) = 6) ∧
    ∃ perRule created,
      (deleteACLConfiglet gcRuntime "eth0" false [] 6 "fd00::1" World.empty).map (·.cmds) =
        some (World.empty.cmds ++ perRule ++
          (if ("fd00::1" : String) = "" then []
            else [⟨Tool.ip6tables, ["-D", "FORWARD", "-i", "eth0", "-j", "DROP"]⟩])) ∧
      List.Forall₂ (PerRule "-D" 6)
        (rulesOf (aclToRules gcRuntime "eth0" [] 6 "fd00::1" World.empty)) perRule ∧
      (createACLConfiglet gcRuntime "eth0" false [] 6 "fd00::1" World.empty).map (·.cmds) =
        some (World.empty.cmds ++ created) ∧
      (deleteACLConfiglet gcRuntime "eth0" false [] 6 "fd00::1" World.empty).map (·.cmds) =
        some (World.empty.cmds ++ created.map swapOp) :=
  ⟨by decide, C13_delete_mirrors_create gcRuntime "eth0" false [] 6 "fd00::1" World.empty
    (by decide)⟩

/-- C14, as the claim states it, fails: from the empty chain, creating the
empty ACL and updating it to one ACE leaves the two rules of the ACE at the
head of the FORWARD chain in the reverse of their compiled order, because each
is inserted at the head with `-I`. -/
theorem C14_head_insert_reverses :
    ((createACLConfiglet gcRuntime "eth0" false [] 4 "" World.empty).bind
        (fun w1 => updateACLConfiglet gcRuntime "eth0" false [] [⟨[⟨"protocol", "tcp"⟩], []⟩]
          4 "" w1)).map (fun w2 => chainAfter w2.cmds) =
      some [["-o", "eth0", "-p", "tcp", "-j", "ACCEPT"],
            ["-i", "eth0", "-p", "tcp", "-j", "ACCEPT"],
            ["-i", "eth0", "-j", "DROP"], ["-o", "eth0", "-j", "DROP"]] ∧
    compiledRules gcRuntime "eth0" [⟨[⟨"protocol", "tcp"⟩], []⟩] 4 "" =
      [["-i", "eth0", "-p", "tcp", "-j", "ACCEPT"],
       ["-o", "eth0", "-p", "tcp", "-j", "ACCEPT"],
       ["-i", "eth0", "-j", "DROP"], ["-o", "eth0", "-j", "DROP"]] ∧
    ((createACLConfiglet gcRuntime "eth0" false [] 4 "" World.empty).bind
        (fun w1 => updateACLConfiglet gcRuntime "eth0" false [] [⟨[⟨"protocol", "tcp"⟩], []⟩]
          4 "" w1)).map (fun w2 => chainAfter w2.cmds) ≠
      some (compiledRules gcRuntime "eth0" [⟨[⟨"protocol", "tcp"⟩], []⟩] 4 "") := by
  have h1 : ((createACLConfiglet gcRuntime "eth0" false [] 4 "" World.empty).bind
        (fun w1 => updateACLConfiglet gcRuntime "eth0" false [] [⟨[⟨"protocol", "tcp"⟩], []⟩]
          4 "" w1)).map (fun w2 => chainAfter w2.cmds) =
      some [["-o", "eth0", "-p", "tcp", "-j", "ACCEPT"],
            ["-i", "eth0", "-p", "tcp", "-j", "ACCEPT"],
            ["-i", "eth0", "-j", "DROP"], ["-o", "eth0", "-j", "DROP"]] := by rfl
  have h2 : compiledRules gcRuntime "eth0" [⟨[⟨"protocol", "tcp"⟩], []⟩] 4 "" =
      [["-i", "eth0", "-p", "tcp", "-j", "ACCEPT"],
       ["-o", "eth0", "-p", "tcp", "-j", "ACCEPT"],
       ["-i", "eth0", "-j", "DROP"], ["-o", "eth0", "-j", "DROP"]] := by rfl
  refine ⟨h1, h2, ?_⟩
  rw [h1, h2]
  decide

/-- C14, amended. With the chain model of the claim, for an interface that is
not a management interface, ipVer = 4, no overlay address and a starting world
without invocations: `createACLConfiglet(old)` followed by
`updateACLConfiglet(old, new)` returns normally and leaves the FORWARD chain
equal, as an ordered list, to the rules of `aclToRules(new)` that equal no rule
of `aclToRules(old)`, in reverse order, followed by the rules of
`aclToRules(old)` that equal some rule of `aclToRules(new)`, in their old
order; the chain holds exactly the rules that occur in `aclToRules(new)`. -/
theorem C14_chain_after_update (rt : Runtime) (ifname : String) (oldACLs newACLs : List ACE)
    (w : World) (hw : w.cmds = []) :
    ∃ chain,
      ((createACLConfiglet rt ifname false oldACLs 4 "" w).bind
          (fun w1 => updateACLConfiglet rt ifname false oldACLs newACLs 4 "" w1)).map
          (fun w2 => chainAfter w2.cmds) = some chain ∧
      chain =
        ((compiledRules rt ifname newACLs 4 "").filter
          (fun r => decide (r ∉ compiledRules rt ifname oldACLs 4 ""))).reverse ++
        (compiledRules rt ifname oldACLs 4 "").filter
          (fun r => decide (r ∈ compiledRules rt ifname newACLs 4 "")) ∧
      ∀ r, r ∈ chain ↔ r ∈ compiledRules rt ifname newACLs 4 "" := by
  have hv : (4 : Int) = 4 ∨ (4 : Int) = 6 := Or.inl rfl
  obtain ⟨w1, hw1, hcmds⟩ : ∃ w1, createACLConfiglet rt ifname false oldACLs 4 "" w = some w1 ∧
      w1.cmds = w.cmds ++ (compiledRules rt ifname oldACLs 4 "").map (underlayCmd "-A" 4) ++
        (if ("" : String) = "" then [] else [sideCmd "-A" ifname]) := by
    have hc := create_underlay rt ifname oldACLs hv "" w
    rw [createACLConfiglet_eq] at hc ⊢
    exact ⟨_, rfl, Option.some.inj hc⟩
  rw [hw1]
  simp only [Option.some_bind, Option.bind_eq_bind]
  have hu := update_underlay rt ifname oldACLs newACLs hv "" w1
  rw [hcmds] at hu
  have hmap := congrArg (Option.map chainAfter) hu
  rw [Option.map_map] at hmap
  refine ⟨_, ?_, rfl, ?_⟩
  · rw [show (fun w2 : World => chainAfter w2.cmds) = chainAfter ∘ (fun x => x.cmds) from rfl, hmap]
    simp only [Option.map_some', hw, if_true, List.append_nil, List.nil_append, chainAfter,
      List.foldl_append, foldl_forwardChain_append, foldl_forwardChain_insert,
      foldl_forwardChain_delete]
    congr 2
    rw [foldl_erase_filter]
    apply List.filter_congr
    intro r _
    simp
  · intro r
    simp only [List.mem_append, List.mem_reverse, List.mem_filter, decide_eq_true_eq]
    constructor
    · rintro (⟨h, _⟩ | ⟨_, h⟩) <;> exact h
    · intro h
      by_cases ho : r ∈ compiledRules rt ifname oldACLs 4 ""
      · exact Or.inr ⟨ho, h⟩
      · exact Or.inl ⟨h, ho⟩

/-- Witness of the amended C14: scenario S5 of the spec (old = [A],
new = [A, B]), from the empty world. -/
theorem C14_chain_after_update_witness :
    World.empty.cmds = [] ∧
    ∃ chain,
      ((createACLConfiglet gcRuntime "eth0" false
            [⟨[⟨"ip", "10.0.0.0/8"⟩], [⟨true, false, 0, "", 0⟩]⟩] 4 "" World.empty).bind
          (fun w1 => updateACLConfiglet gcRuntime "eth0" false
            [⟨[⟨"ip", "10.0.0.0/8"⟩], [⟨true, false, 0, "", 0⟩]⟩]
            [⟨[⟨"ip", "10.0.0.0/8"⟩], [⟨true, false, 0, "", 0⟩]⟩, ⟨[⟨"protocol", "tcp"⟩], []⟩]
            4 "" w1)).map (fun w2 => chainAfter w2.cmds) = some chain ∧
      chain =
        ((compiledRules gcRuntime "eth0"
            [⟨[⟨"ip", "10.0.0.0/8"⟩], [⟨true, false, 0, "", 0⟩]⟩, ⟨[⟨"protocol", "tcp"⟩], []⟩]
            4 "").filter
          (fun r => decide (r ∉ compiledRules gcRuntime "eth0"
            [⟨[⟨"ip", "10.0.0.0/8"⟩], [⟨true, false, 0, "", 0⟩]⟩] 4 ""))).reverse ++
        (compiledRules gcRuntime "eth0"
            [⟨[⟨"ip", "10.0.0.0/8"⟩], [⟨true, false, 0, "", 0⟩]⟩] 4 "").filter
          (fun r => decide (r ∈ compiledRules gcRuntime "eth0"
            [⟨[⟨"ip", "10.0.0.0/8"⟩], [⟨true, false, 0, "", 0⟩]⟩, ⟨[⟨"protocol", "tcp"⟩], []⟩]
            4 "")) ∧
      ∀ r, r ∈ chain ↔ r ∈ compiledRules gcRuntime "eth0"
        [⟨[⟨"ip", "10.0.0.0/8"⟩], [⟨true, false, 0, "", 0⟩]⟩, ⟨[⟨"protocol", "tcp"⟩], []⟩] 4 "" :=
  ⟨rfl, C14_chain_after_update gcRuntime "eth0"
    [⟨[⟨"ip", "10.0.0.0/8"⟩], [⟨true, false, 0, "", 0⟩]⟩]
    [⟨[⟨"ip", "10.0.0.0/8"⟩], [⟨true, false, 0, "", 0⟩]⟩, ⟨[⟨"protocol", "tcp"⟩], []⟩]
    World.empty rfl⟩

/-- C15. A match whose type is none of ip, protocol, fport, lport, host and
eidset contributes no tokens and compilation goes on: `aceToRules` returns for
the ACE the same rules as for the ACE with that match removed (the same slice
headers over the same store, hence the same token sequences), for every
runtime and starting world. -/
theorem C15_unknown_match_is_skipped (rt : Runtime) (ifname : String) (ipVer : Int)
    (before : List ACEMatch) (m : ACEMatch) (after : List ACEMatch) (actions : List ACEAction)
    (w : World) (hm : m.Typ ∉ ["ip", "protocol", "fport", "lport", "host", "eidset"]) :
    (aceToRules rt ifname ⟨before ++ m :: after, actions⟩ ipVer w).2 =
      (aceToRules rt ifname ⟨before ++ after, actions⟩ ipVer w).2 ∧
    (aceToRules rt ifname ⟨before ++ m :: after, actions⟩ ipVer w).1.heap =
      (aceToRules rt ifname ⟨before ++ after, actions⟩ ipVer w).1.heap ∧
    rulesOf (aceToRules rt ifname ⟨before ++ m :: after, actions⟩ ipVer w) =
      rulesOf (aceToRules rt ifname ⟨before ++ after, actions⟩ ipVer w) := by
  have hsame : SameResult (aceToRules rt ifname ⟨before ++ m :: after, actions⟩ ipVer w)
      (aceToRules rt ifname ⟨before ++ after, actions⟩ ipVer w) := by
    rw [aceToRules_eq, aceToRules_eq]
    unfold aceAfterActions aceAfterMatches
    simp only [List.foldl_append, List.foldl_cons]
    have hsep := (foldl_aceMatchStep_sep rt ifname ipVer before (aceInit_sep ifname w)).1
    have h0 := aceMatchStep_unknown rt ifname ipVer m hm hsep
    have h1 := foldl_aceMatchStep_same (rfl : rt.grow = rt.grow) ifname ipVer after h0
    exact aceEmit_same rfl h1 (foldl_aceActionStep_same rfl actions h1)
  exact ⟨hsame.2, hsame.1.1, hsame.rulesOf_eq⟩

/-- Witness of C15: a match of type `port` between a protocol match and an
fport match. -/
theorem C15_unknown_match_is_skipped_witness :
    ("port" : String) ∉ ["ip", "protocol", "fport", "lport", "host", "eidset"] ∧
    ((aceToRules gcRuntime "eth0"
        ⟨[⟨"protocol", "tcp"⟩] ++ ⟨"port", "80"⟩ :: [⟨"fport", "80"⟩], []⟩ 4 World.empty).2 =
      (aceToRules gcRuntime "eth0"
        ⟨[⟨"protocol", "tcp"⟩] ++ [⟨"fport", "80"⟩], []⟩ 4 World.empty).2 ∧
    (aceToRules gcRuntime "eth0"
        ⟨[⟨"protocol", "tcp"⟩] ++ ⟨"port", "80"⟩ :: [⟨"fport", "80"⟩], []⟩ 4 World.empty).1.heap =
      (aceToRules gcRuntime "eth0"
        ⟨[⟨"protocol", "tcp"⟩] ++ [⟨"fport", "80"⟩], []⟩ 4 World.empty).1.heap ∧
    rulesOf (aceToRules gcRuntime "eth0"
        ⟨[⟨"protocol", "tcp"⟩] ++ ⟨"port", "80"⟩ :: [⟨"fport", "80"⟩], []⟩ 4 World.empty) =
      rulesOf (aceToRules gcRuntime "eth0"
        ⟨[⟨"protocol", "tcp"⟩] ++ [⟨"fport", "80"⟩], []⟩ 4 World.empty)) :=
  ⟨by decide, C15_unknown_match_is_skipped gcRuntime "eth0" 4 [⟨"protocol", "tcp"⟩]
    ⟨"port", "80"⟩ [⟨"fport", "80"⟩] [] World.empty (by decide)⟩

/-- C16. Creation of the ipset is best effort: with `ipsetCreatePair` an
arbitrary function that returns an error or none, the rules `aceToRules` and
`aclToRules` return do not depend on it (same slice headers over the same
store), and a host match yields the tokens
`-m set --match-set ipv4.<value> dst` / `src` for ipVer 4 and
`-m set --match-set ipv6.<value> dst` / `src` for ipVer 6 whether creation
succeeds or fails. -/
theorem C16_ipset_creation_is_best_effort (grow : Nat → Nat → Nat)
    (create create' : String → Option String) (ifname : String) (ace : ACE) (ACLs : List ACE)
    (ipVer : Int) (overlayIP : String) (value : String) (w : World) :
    rulesOf (aceToRules ⟨grow, create⟩ ifname ace ipVer w) =
      rulesOf (aceToRules ⟨grow, create'⟩ ifname ace ipVer w) ∧
    rulesOf (aclToRules ⟨grow, create⟩ ifname ACLs ipVer overlayIP w) =
      rulesOf (aclToRules ⟨grow, create'⟩ ifname ACLs ipVer overlayIP w) ∧
    (aceMatch ⟨grow, create⟩ ifname 4 ⟨"host", value⟩ w).2 =
      (["-m", "set", "--match-set", "ipv4." ++ value, "dst"],
       ["-m", "set", "--match-set", "ipv4." ++ value, "src"]) ∧
    (aceMatch ⟨grow, create⟩ ifname 6 ⟨"host", value⟩ w).2 =
      (["-m", "set", "--match-set", "ipv6." ++ value, "dst"],
       ["-m", "set", "--match-set", "ipv6." ++ value, "src"]) := by
  have hg : (⟨grow, create⟩ : Runtime).grow = (⟨grow, create'⟩ : Runtime).grow := rfl
  refine ⟨(aceToRules_same hg ifname ace ipVer (SameMem.rfl' w)).rulesOf_eq,
    (aclToRules_same hg ifname ACLs ipVer overlayIP (SameMem.rfl' w)).rulesOf_eq, ?_, ?_⟩
  · simp [aceMatch]
  · simp [aceMatch]

/-- C18. For every runtime, interface name, IP version, ACE and starting world,
the rules `aceToRules` returns, read in the world it leaves, are a sequence of
pairs (so the list has even length, the rule at index 2k being the first and
the rule at index 2k+1 the second of pair k): the first rule of a pair begins
with `-i`, the second with `-o`, the two have the same length, and position by
position their tokens are equal or one of the swapped pairs `-i`/`-o`,
`-d`/`-s`, `--dport`/`--sport`, `--sport`/`--dport`, `dst`/`src`. -/
theorem C18_rules_come_in_symmetric_pairs (rt : Runtime) (ifname : String) (ace : ACE)
    (ipVer : Int) (w : World) :
    ∃ pairs : List (List String × List String),
      rulesOf (aceToRules rt ifname ace ipVer w) = pairs.flatMap (fun p => [p.1, p.2]) ∧
      (rulesOf (aceToRules rt ifname ace ipVer w)).length = 2 * pairs.length ∧
      ∀ p ∈ pairs, p.1.head? = some "-i" ∧ p.2.head? = some "-o" ∧ p.1.length = p.2.length ∧
        List.Forall₂ SwapTok p.1 p.2 := by
  have hst := aceToRules_starts rt ifname ace ipVer w
  rcases aceToRules_pair rt ifname ace ipVer w with ⟨a, b, hab, hp⟩ | ⟨a, b, c, d, habcd, hp, hq⟩
  · refine ⟨[(readRule (aceToRules rt ifname ace ipVer w).1.heap a,
      readRule (aceToRules rt ifname ace ipVer w).1.heap b)], ?_, ?_, ?_⟩
    · simp [rulesOf, readRules, hab]
    · simp [rulesOf, readRules, hab]
    · rw [hab] at hst
      split_ifs at hst
      · simp at hst
      · simp only [List.forall₂_cons, List.forall₂_nil_left_iff, and_true] at hst
        intro p hmem
        simp only [List.mem_singleton] at hmem
        subst hmem
        exact ⟨hst.1.head, hst.2.head, hp.read_pair.length_eq, hp.read_pair⟩
  · refine ⟨[(readRule (aceToRules rt ifname ace ipVer w).1.heap a,
      readRule (aceToRules rt ifname ace ipVer w).1.heap b),
      (readRule (aceToRules rt ifname ace ipVer w).1.heap c,
      readRule (aceToRules rt ifname ace ipVer w).1.heap d)], ?_, ?_, ?_⟩
    · simp [rulesOf, readRules, habcd]
    · simp [rulesOf, readRules, habcd]
    · rw [habcd] at hst
      split_ifs at hst
      · simp only [List.forall₂_cons, List.forall₂_nil_left_iff, and_true] at hst
        intro p hmem
        simp only [List.mem_cons, List.mem_singleton, List.not_mem_nil, or_false] at hmem
        rcases hmem with rfl | rfl
        · exact ⟨hst.1.head, hst.2.1.head, hp.read_pair.length_eq, hp.read_pair⟩
        · exact ⟨hst.2.2.1.head, hst.2.2.2.head, hq.read_pair.length_eq, hq.read_pair⟩
      · simp at hst

/-- C20. Default deny is never withdrawn by an update. For every runtime,
interface, role, IP version, overlay address, old and new ACL and starting
world: the implicit-drop rules `-i ifname -j DROP` and `-o ifname -j DROP` and,
when `overlayIP` is not empty, the four overlay allow rules occur in both
compiled lists; `updateACLConfiglet` returns normally; and none of the
invocations it issues is the invocation for one of these rules, whatever the
operation (so neither their delete nor their insert is issued). -/
theorem C20_default_deny_is_never_withdrawn (rt : Runtime) (ifname : String) (isMgmt : Bool)
    (oldACLs newACLs : List ACE) (ipVer : Int) (overlayIP : String) (w : World) :
    (∀ p ∈ [["-i", ifname, "-j", "DROP"], ["-o", ifname, "-j", "DROP"]] ++
        (if overlayIP = "" then [] else overlayTokens ifname overlayIP),
      p ∈ compiledRules rt ifname oldACLs ipVer overlayIP ∧
      p ∈ compiledRules rt ifname newACLs ipVer overlayIP) ∧
    ∃ cs, (updateACLConfiglet rt ifname isMgmt oldACLs newACLs ipVer overlayIP w).map (·.cmds) =
        some (w.cmds ++ cs) ∧
      ∀ c ∈ cs, ∀ (op : String), ∀ p ∈ [["-i", ifname, "-j", "DROP"], ["-o", ifname, "-j", "DROP"]] ++
          (if overlayIP = "" then [] else overlayTokens ifname overlayIP),
        c ∉ ruleCmds op isMgmt ipVer p := by
  show (∀ p ∈ protectedTokens ifname overlayIP, _) ∧
    ∃ cs, _ ∧ ∀ c ∈ cs, ∀ (op : String), ∀ p ∈ protectedTokens ifname overlayIP, _
  refine ⟨fun p hp => ⟨protected_mem_compiled rt ifname oldACLs ipVer overlayIP p hp,
    protected_mem_compiled rt ifname newACLs ipVer overlayIP p hp⟩, ?_⟩
  obtain ⟨ho, hn, hdo, hdn, hcmds⟩ :=
    update_compiled rt ifname oldACLs newACLs ipVer overlayIP w
  have hoarr : ∀ r ∈ (aclToRules rt ifname oldACLs ipVer overlayIP w).2,
      r.arr < (aclToRules rt ifname oldACLs ipVer overlayIP w).1.heap.length :=
    fun r hr => (aclToRules_directed rt ifname oldACLs ipVer overlayIP w r hr).arr_lt
  have hnarr : ∀ q ∈ (aclToRules rt ifname newACLs ipVer overlayIP
      (aclToRules rt ifname oldACLs ipVer overlayIP w).1).2,
      (aclToRules rt ifname oldACLs ipVer overlayIP w).1.heap.length ≤ q.arr := by
    intro q hq
    rw [aclToRules_eq_over] at hq
    obtain ⟨q0, _, rfl⟩ := List.mem_map.mp hq
    simp [shiftRule]
  have hheap := aclToRules_heap rt ifname newACLs ipVer overlayIP
    (aclToRules rt ifname oldACLs ipVer overlayIP w).1
  have hprot := aclToRules_protected rt ifname oldACLs ipVer overlayIP w
  unfold updateACLConfiglet
  simp only [updateDeleteStep_eq, updateInsertStep_eq]
  generalize aclToRules rt ifname oldACLs ipVer overlayIP w = o at *
  generalize aclToRules rt ifname newACLs ipVer overlayIP o.1 = n at *
  have hfr1 : ∀ r ∈ o.2, ∀ q ∈ n.2, r.arr ≠ q.arr := by
    intro r hr q hq
    have h1 := hoarr r hr
    have h2 := hnarr q hq
    omega
  have hfr2 : ∀ q ∈ n.2, ∀ r ∈ o.2, q.arr ≠ r.arr := fun q hq r hr => Ne.symm (hfr1 r hr q hq)
  obtain ⟨w1, cs1, hrun1, hc1, hrw1, -, hsolo1, hmem1⟩ :=
    upd_loop "-D" isMgmt ipVer n.2 o.2 n.1 hdo hfr1
  obtain ⟨w2, cs2, hrun2, hc2, -, -, -, hmem2⟩ :=
    upd_loop "-I" isMgmt ipVer o.2 n.2 w1 (fun q hq => hrw1.directed (hdn q hq)) hfr2
  refine ⟨cs1 ++ cs2, ?_, ?_⟩
  · rw [hrun1]
    simp only [Option.some_bind, Option.bind_eq_bind]
    rw [hrun2, Option.map_some', hc2, hc1, hcmds, List.append_assoc]
  · intro c hc op p hp hcp
    obtain ⟨d, rest, hd, rfl⟩ := protected_directed rt ifname overlayIP p hp
    rcases List.mem_append.mp hc with hc | hc
    · obtain ⟨t, hnot, ⟨d', rest', hd', rfl⟩, hct⟩ := hmem1 c hc
      have heq := ruleCmds_inj hd' hd hct hcp
      rw [heq, hn] at hnot
      exact hnot (protected_mem_compiled rt ifname newACLs ipVer overlayIP _ hp)
    · obtain ⟨t, hnot, ⟨d', rest', hd', rfl⟩, hct⟩ := hmem2 c hc
      have heq := ruleCmds_inj hd' hd hct hcp
      rw [heq] at hnot
      obtain ⟨r, hr, hread, hs⟩ := hprot _ hp
      have hread' : readRule n.1.heap r = d :: ifname :: rest := by
        rw [hheap, readRule_append_left (hoarr r hr)]
        exact hread
      have hin : readRule n.1.heap r ∈ readRules n.1.heap n.2 := by
        rw [hread', hn]
        exact protected_mem_compiled rt ifname newACLs ipVer overlayIP _ hp
      have hkeep := hsolo1 r hs hin
      apply hnot
      rw [← hread', ← readRule_congr hkeep]
      exact List.mem_map_of_mem _ hr

end Acl
